import Mathlib

/-! dirsync: the tree-diff-and-apply engine of `adapters/localfs/synchronizer.go`

A shallow embedding of `Synchronizer.processSync`, `needsUpdate`, `syncFile` and
`purgeMissing`, together with theorems about the order and the effect of the
operations they issue.

Modelling conventions.

* A Go `map[string]fs.DirEntry` is an association list with distinct keys.  The
  order of the list is the (unspecified) order in which Go's `range` produces the
  entries, so a statement quantified over every list covers every iteration order.
* Go compares strings bytewise.  Paths are `String`s compared through their
  character lists (`strLe`), which is the same order on valid UTF-8.
* `fs.DirEntry.Info()` returns a pair `(fs.FileInfo, error)`; either component may be
  nil.  Calling a method on a nil `fs.FileInfo` is a run-time panic.  Functions that
  can panic return an `Option`, with `none` standing for the panic.
* The operating system (`os.MkdirAll`, `os.Open`, `os.Create`, `io.Copy`,
  `os.Chtimes`, `os.Remove`, `time.Now`) is a parameter `OS σ` acting on a world `σ`.
  Every call and every log line is appended to `Synchronizer.trace`.
* `filepath.Join(root, rel)` is the pair `FullPath.mk root rel` (scan keys are clean
  relative paths, as produced by `filepath.Rel`).  Paths under two roots are different
  objects of the model.  That is how the strings `root/rel` behave when the roots are
  apart (`RootsApart`, `render_injective`), and not when one root lies beneath the
  other; what is proved about a run that is followed by a second scan is proved for
  roots that are apart.
* The deferred `Close` calls of `syncFile` have no effect on what is proved and are
  left out.
* Statements about what exists after a run are made on `modelOS`, a model of a file
  system that holds directories and regular files (`World`): a path is the pair of a
  root and a relative path, the ancestors of a path are its parts before each
  separator, a call may also fail for a reason outside the model (`World.fault`), and
  the file system may store a modification time less precisely than it is given
  (`World.stamp`).
-/

namespace Dirsync

/-! ## Data model -/

/-- The part of `fs.FileInfo` that the synchronizer reads. -/
structure FileInfo where
  Size : Int
  ModTime : Int
  IsDir : Bool
  Mode : Nat
deriving DecidableEq, Repr

/-- An `fs.DirEntry`: `IsDir()`, `Type()` (the field `Typ`, the type bits of the file
mode) and the pair returned by `Info()` (file status or nil, error or nil). -/
structure DirEntry where
  IsDir : Bool
  Typ : Nat
  Info : Option FileInfo × Option String
deriving DecidableEq, Repr

/-- The value of `filepath.Join(root, rel)`, kept as the pair of its arguments. -/
structure FullPath where
  root : String
  rel : String
deriving DecidableEq, Repr

/-- The function `filepath.Join` applied to a clean root and a clean relative path.
Two joined paths are the same when their roots and their relative parts are the same.
For the strings `root/rel` this is so within one root, and across two roots that are
apart (`RootsApart`, `render_injective`); when one root lies beneath the other the
strings can coincide while the pairs differ, so what is said about a second run, which
reads in one tree what the first run wrote in the other, is said for roots that are
apart. -/
def Join (root rel : String) : FullPath := ⟨root, rel⟩

/-- The string that `filepath.Join` returns for a clean root and a clean relative
path; it is also how a joined path appears in a log line. -/
def FullPath.render (p : FullPath) : String := p.root ++ "/" ++ p.rel

/-- The names of a path given by its characters: the parts between separators.  An
absolute path starts with an empty name. -/
def pathParts : List Char → List (List Char)
  | [] => [[]]
  | c :: t =>
    if c = '/' then [] :: pathParts t
    else
      match pathParts t with
      | [] => [[c]]
      | n :: ns => (c :: n) :: ns

/-- Whether a root is an absolute path. -/
def isAbsRoot (r : String) : Bool := r.toList.head? == some '/'

/-- A clean root as `filepath.Clean` would leave it, short of the root directory and of
parent references: at least one name after the leading separator of an absolute path,
and no name empty, `.` or `..`. -/
def isCleanRoot (r : String) : Bool :=
  match pathParts r.toList with
  | [] => false
  | n :: ns =>
    (if n = [] then !ns.isEmpty else true) &&
      (if n = [] then ns else n :: ns).all
        (fun m => m != [] && m != ['.'] && m != ['.', '.'])

/-- Two roots are apart: both are clean, both absolute or both relative, and neither is
the other or lies beneath it.  Such roots name two trees without a common path. -/
def RootsApart (a b : String) : Prop :=
  isCleanRoot a = true ∧ isCleanRoot b = true ∧ isAbsRoot a = isAbsRoot b ∧
  (pathParts a.toList).isPrefixOf (pathParts b.toList) = false ∧
  (pathParts b.toList).isPrefixOf (pathParts a.toList) = false

instance (a b : String) : Decidable (RootsApart a b) := by
  unfold RootsApart; infer_instance

/-- Everything the synchronizer does that is visible from outside: log lines
(`s.l.Info`, `s.l.Error`), operating-system calls, and the entry into `syncFile` and
`purgeMissing`. -/
inductive Event where
  | Info (format arg : String)
  | Error (format arg : String)
  | syncFile (relPath : String)
  | purgeMissing
  | MkdirAll (path : FullPath) (mode : Nat)
  | Open (path : FullPath)
  | Create (path : FullPath)
  | Copy (dst src : FullPath)
  | Chtimes (path : FullPath) (atime mtime : Int)
  | Remove (path : FullPath)
deriving DecidableEq, Repr

/-- The operating-system calls used by the synchronizer.  Each returns an error
(`none` is Go's nil) and the new world. -/
structure OS (σ : Type) where
  MkdirAll : FullPath → Nat → σ → Option String × σ
  Open : FullPath → σ → Option String × σ
  Create : FullPath → σ → Option String × σ
  Copy : FullPath → FullPath → σ → Option String × σ
  Chtimes : FullPath → Int → Int → σ → Option String × σ
  Remove : FullPath → σ → Option String × σ
  Now : σ → Int

/-- A Go `map[string]fs.DirEntry`. -/
abbrev ScanResult := List (String × DirEntry)

/-- The map read `m[k]` with its `exists` flag. -/
def mapGet (m : ScanResult) (k : String) : Option DirEntry := m.lookup k

/-- The builtin `delete(m, k)`. -/
def mapDelete (m : ScanResult) (k : String) : ScanResult := m.filter (fun kv => kv.1 != k)

/-- The keys of a map, in iteration order. -/
def mapKeys (m : ScanResult) : List String := m.map Prod.fst

/-- Go's `<=` on strings: lexicographic on the character lists. -/
def strLe (a b : String) : Prop := a.toList ≤ b.toList

instance : DecidableRel strLe := fun a b => inferInstanceAs (Decidable (a.toList ≤ b.toList))

instance : IsTotal String strLe := ⟨fun a b => le_total a.toList b.toList⟩

instance : IsTrans String strLe := ⟨fun _ _ _ h1 h2 => le_trans (α := List Char) h1 h2⟩

instance : IsAntisymm String strLe :=
  ⟨fun _ _ h1 h2 => String.toList_inj.1 (le_antisymm (α := List Char) h1 h2)⟩

/-- The function `slices.Sort` on a slice of strings. -/
def sortStrings (l : List String) : List String := List.insertionSort strLe l

/-- The struct `Synchronizer`, with the world it acts on and the trace of what it did;
the logger `l` is the trace. -/
structure Synchronizer (σ : Type) where
  src : String
  dst : String
  deleteMissing : Bool
  srcFS : ScanResult
  dstFS : ScanResult
  world : σ
  trace : List Event

variable {σ : Type}

/-- Append one event to the trace. -/
def Synchronizer.emit (s : Synchronizer σ) (e : Event) : Synchronizer σ :=
  { s with trace := s.trace ++ [e] }

/-- Perform one operating-system call: record it and update the world. -/
def Synchronizer.call (s : Synchronizer σ) (e : Event) (f : σ → Option String × σ) :
    Option String × Synchronizer σ :=
  ((f s.world).1, { s with world := (f s.world).2, trace := s.trace ++ [e] })

/-- Log `format` with `err` when `err` is not nil. -/
def Synchronizer.logIfErr (s : Synchronizer σ) (format : String) (err : Option String) :
    Synchronizer σ :=
  match err with
  | some e => s.emit (Event.Error format e)
  | none => s

/-! ## The synchronizer -/

/-- The method `needsUpdate`.  `none` is the nil dereference at `srcInfo.Size()` or
`dstInfo.Size()` when `Info()` returned a nil `fs.FileInfo`. -/
def needsUpdate (s : Synchronizer σ) (src dst : DirEntry) : Synchronizer σ × Option Bool :=
  if src.IsDir != dst.IsDir || src.Typ != dst.Typ then
    (s, some true)
  else
    let s1 := s.logIfErr "failed to read source file info: %s" src.Info.2
    let s2 := s1.logIfErr "failed to read destination file info: %s" dst.Info.2
    match src.Info.1, dst.Info.1 with
    | some srcInfo, some dstInfo =>
      (s2, some (srcInfo.Size != dstInfo.Size || decide (srcInfo.ModTime > dstInfo.ModTime)))
    | _, _ => (s2, none)

/-- The method `syncFile`.  The outer `none` is a panic (nil entry or nil file status),
`some (some e)` is a returned error and `some none` is a nil error. -/
def syncFile (os : OS σ) (s : Synchronizer σ) (relPath : String) :
    Synchronizer σ × Option (Option String) :=
  let s := s.emit (Event.syncFile relPath)
  let srcPath := Join s.src relPath
  let dstPath := Join s.dst relPath
  match mapGet s.srcFS relPath with
  | none => (s, none)
  | some srcEntry =>
    match srcEntry.Info with
    | (_, some err) => (s, some (some ("failed to read file info: " ++ err)))
    | (none, none) => (s, none)
    | (some srcInfo, none) =>
      if srcInfo.IsDir then
        let r1 := s.call (Event.MkdirAll dstPath srcInfo.Mode) (os.MkdirAll dstPath srcInfo.Mode)
        match r1.1 with
        | some err => (r1.2, some (some ("failed to create parent directory: " ++ err)))
        | none => (r1.2, some none)
      else
        let r1 := s.call (Event.Open srcPath) (os.Open srcPath)
        match r1.1 with
        | some err => (r1.2, some (some ("failed to open source file: " ++ err)))
        | none =>
          let r2 := r1.2.call (Event.Create dstPath) (os.Create dstPath)
          match r2.1 with
          | some err => (r2.2, some (some ("failed to create destination file: " ++ err)))
          | none =>
            let r3 := r2.2.call (Event.Copy dstPath srcPath) (os.Copy dstPath srcPath)
            match r3.1 with
            | some err => (r3.2, some (some ("failed to copy file content: " ++ err)))
            | none =>
              let r4 := r3.2.call (Event.Chtimes dstPath (os.Now r3.2.world) srcInfo.ModTime)
                (os.Chtimes dstPath (os.Now r3.2.world) srcInfo.ModTime)
              match r4.1 with
              | some err => (r4.2, some (some ("failed to set modification time: " ++ err)))
              | none => (r4.2, some none)

/-- The builtin `delete(s.dstFS, relPath)`. -/
def Synchronizer.deleteDst (s : Synchronizer σ) (relPath : String) : Synchronizer σ :=
  { s with dstFS := mapDelete s.dstFS relPath }

/-- The body of the loop `for _, relPath := range paths` of `processSync`, for one
path.  The flag is `false` when the iteration panicked. -/
def visit (os : OS σ) (s : Synchronizer σ) (relPath : String) : Synchronizer σ × Bool :=
  match mapGet s.dstFS relPath with
  | some dstEntry =>
    match mapGet s.srcFS relPath with
    | none => (s, false)
    | some srcEntry =>
      let u := needsUpdate s srcEntry dstEntry
      match u.2 with
      | none => (u.1, false)
      | some true =>
        let r := syncFile os (u.1.emit (Event.Info "overwriting  %s" relPath)) relPath
        match r.2 with
        | none => (r.1, false)
        | some err => ((r.1.logIfErr "failed to overwrite: %s" err).deleteDst relPath, true)
      | some false => (u.1.deleteDst relPath, true)
  | none =>
    let r := syncFile os (s.emit (Event.Info "copying  %s" relPath)) relPath
    match r.2 with
    | none => (r.1, false)
    | some err => ((r.1.logIfErr "failed to copy: %s" err).deleteDst relPath, true)

/-- The loop `for _, relPath := range paths` of `processSync`.  The flag is `true`
when the loop ran to its end and `false` when it panicked. -/
def syncLoop (os : OS σ) : List String → Synchronizer σ → Synchronizer σ × Bool
  | [], s => (s, true)
  | relPath :: rest, s =>
    if (visit os s relPath).2 then syncLoop os rest (visit os s relPath).1
    else ((visit os s relPath).1, false)

/-- First loop of `purgeMissing`: every non-directory entry is removed from the
destination and from the map.  The loop ranges over the entries of the map; only the
entry being visited is ever deleted, so the entries visited are those of the map at
the start. -/
def purgeFiles (os : OS σ) : ScanResult → Synchronizer σ → Synchronizer σ
  | [], s => s
  | (relPath, entry) :: rest, s =>
    if entry.IsDir then purgeFiles os rest s
    else
      let dstPath := Join s.dst relPath
      let r := (s.emit (Event.Info "deleting  %s" dstPath.render)).call
        (Event.Remove dstPath) (os.Remove dstPath)
      purgeFiles os rest ((r.2.logIfErr "failed to delete file: %s" r.1).deleteDst relPath)

/-- Second loop of `purgeMissing`: move every remaining key into `dirsToDel`. -/
def collectDirs : List String → Synchronizer σ → List String → Synchronizer σ × List String
  | [], s, dirsToDel => (s, dirsToDel)
  | k :: rest, s, dirsToDel => collectDirs rest (s.deleteDst k) (dirsToDel ++ [k])

/-- Third loop of `purgeMissing`: remove the directories in the given order. -/
def purgeDirs (os : OS σ) : List String → Synchronizer σ → Synchronizer σ
  | [], s => s
  | dir :: rest, s =>
    let dstPath := Join s.dst dir
    let r := (s.emit (Event.Info "deleting  %s" dir)).call
      (Event.Remove dstPath) (os.Remove dstPath)
    purgeDirs os rest (r.2.logIfErr "failed to delete directory: %s" r.1)

/-- The method `purgeMissing`. -/
def purgeMissing (os : OS σ) (s : Synchronizer σ) : Synchronizer σ :=
  let s0 := s.emit Event.purgeMissing
  let s1 := purgeFiles os s0.dstFS s0
  let r := collectDirs (mapKeys s1.dstFS) s1 []
  purgeDirs os (sortStrings r.2).reverse r.1

/-- The sorted slice `paths` built at the start of `processSync`. -/
def sortedPaths (srcFS : ScanResult) : List String := sortStrings (mapKeys srcFS)

/-- The method `processSync`.  The flag is `false` when the run panicked. -/
def processSync (os : OS σ) (s : Synchronizer σ) : Synchronizer σ × Bool :=
  match syncLoop os (sortedPaths s.srcFS) s with
  | (s1, false) => (s1, false)
  | (s1, true) =>
    if s1.deleteMissing && decide (s1.dstFS.length > 0) then (purgeMissing os s1, true)
    else (s1, true)

/-! ## Observations on a trace -/

/-- Type bits of a directory, `fs.ModeDir`. -/
def ModeDir : Nat := 2147483648

/-- The events that make up an apply step: the log line announcing a copy or an
overwrite, and the entry into `syncFile`. -/
def isApplyEvent : Event → Bool
  | Event.Info format _ => format == "copying  %s" || format == "overwriting  %s"
  | Event.syncFile _ => true
  | _ => false

/-- The apply steps of a trace, in order. -/
def applyLog (t : List Event) : List Event := t.filter isApplyEvent

/-- The relative paths for which `syncFile` was entered, in order. -/
def syncedPaths (t : List Event) : List String :=
  t.filterMap (fun e => match e with
    | Event.syncFile p => some p
    | _ => none)

/-- The paths handed to `os.Remove`, in order. -/
def removes (t : List Event) : List FullPath :=
  t.filterMap (fun e => match e with
    | Event.Remove p => some p
    | _ => none)

/-- The operating-system calls that `syncFile` may issue. -/
def isApplyCall : Event → Bool
  | Event.MkdirAll _ _ => true
  | Event.Open _ => true
  | Event.Create _ => true
  | Event.Copy _ _ => true
  | Event.Chtimes _ _ _ => true
  | _ => false

/-- The error lines of the log. -/
def isErrorEvent : Event → Bool
  | Event.Error _ _ => true
  | _ => false

/-- The events that the reconciliation loop may add to the trace. -/
def isLoopEvent (e : Event) : Bool := isApplyEvent e || isApplyCall e || isErrorEvent e

/-- No status read of the scan returns a nil `fs.FileInfo`. -/
def StatusPresent (m : ScanResult) : Prop := ∀ kv ∈ m, kv.2.Info.1.isSome = true

/-- Keys of the entries that are not directories, in iteration order. -/
def fileKeys (m : ScanResult) : List String :=
  (m.filter (fun kv => !kv.2.IsDir)).map Prod.fst

/-- Keys of the entries that are directories, in iteration order. -/
def dirKeys (m : ScanResult) : List String :=
  (m.filter (fun kv => kv.2.IsDir)).map Prod.fst

/-- Keys still in the map after the first loop of `purgeMissing`. -/
def remainingKeys (m : ScanResult) : List String :=
  mapKeys (m.filter (fun kv => decide (kv.1 ∉ fileKeys m)))

/-- The relative paths in the order in which `purgeMissing` removes them: the
non-directories in iteration order, then the remaining keys sorted and reversed. -/
def purgeOrder (m : ScanResult) : List String :=
  fileKeys m ++ (sortStrings (remainingKeys m)).reverse

/-- The world after `os.Remove` has been called on each path of a list in turn. -/
def removeAll (os : OS σ) (paths : List FullPath) (w : σ) : σ :=
  paths.foldl (fun w fp => (os.Remove fp w).2) w

/-- Two synchronizer states with the same configuration and scan results. -/
def SameMaps (s t : Synchronizer σ) : Prop :=
  t.src = s.src ∧ t.dst = s.dst ∧ t.deleteMissing = s.deleteMissing ∧
    t.srcFS = s.srcFS ∧ t.dstFS = s.dstFS

/-- The events that the deletion pass may add to the trace. -/
def isPurgeEvent : Event → Bool
  | Event.Info format _ => format == "deleting  %s"
  | Event.Error _ _ => true
  | Event.Remove _ => true
  | Event.purgeMissing => true
  | _ => false

/-- The events a run added to the trace it started from. -/
def newEvents (before after : Synchronizer σ) : List Event :=
  after.trace.drop before.trace.length

/-! ## Decisions and planned steps -/

/-- The decision of `needsUpdate` alone, without the log lines (`none` is the panic). -/
def updateDecision (src dst : DirEntry) : Option Bool :=
  (needsUpdate (σ := Unit) ⟨"", "", false, [], [], (), []⟩ src dst).2

/-- The apply step that the reconciliation pass owes to one source path: a copy when
the path is not a key of the destination scan, an overwrite when it is and the update
decision is `true`, nothing otherwise. -/
def plannedStep (srcFS dstFS : ScanResult) (p : String) : List Event :=
  match mapGet dstFS p with
  | none => [Event.Info "copying  %s" p, Event.syncFile p]
  | some d =>
    match mapGet srcFS p with
    | none => []
    | some e =>
      if updateDecision e d = some true then [Event.Info "overwriting  %s" p, Event.syncFile p]
      else []

/-- The update criterion in the words of the specification: directory-ness differs,
type differs, sizes differ for entries that are not directories, or the source was
modified strictly after the destination. -/
def updateRequiredSpec (s d : DirEntry) (si di : FileInfo) : Prop :=
  s.IsDir ≠ d.IsDir ∨ s.Typ ≠ d.Typ ∨
    (s.IsDir = false ∧ d.IsDir = false ∧ si.Size ≠ di.Size) ∨ si.ModTime > di.ModTime

/-- The update criterion that the code computes: the size test applies to every
pair of entries, directories included. -/
def updateRequiredCode (s d : DirEntry) (si di : FileInfo) : Prop :=
  s.IsDir ≠ d.IsDir ∨ s.Typ ≠ d.Typ ∨ si.Size ≠ di.Size ∨ si.ModTime > di.ModTime

instance (s d : DirEntry) (si di : FileInfo) : Decidable (updateRequiredSpec s d si di) := by
  unfold updateRequiredSpec; infer_instance

instance (s d : DirEntry) (si di : FileInfo) : Decidable (updateRequiredCode s d si di) := by
  unfold updateRequiredCode; infer_instance

/-! ## Sample inputs -/

/-- A synchronizer over a world without content, for statements about decisions and
traces alone. -/
def bare (srcFS dstFS : ScanResult) (deleteMissing : Bool) : Synchronizer Unit :=
  ⟨"src", "dst", deleteMissing, srcFS, dstFS, (), []⟩

/-- An operating system on which every call succeeds and nothing is stored. -/
def nullOS : OS Unit where
  MkdirAll := fun _ _ w => (none, w)
  Open := fun _ w => (none, w)
  Create := fun _ w => (none, w)
  Copy := fun _ _ w => (none, w)
  Chtimes := fun _ _ _ w => (none, w)
  Remove := fun _ w => (none, w)
  Now := fun _ => 0

/-- A regular file of 8 bytes, last modified at time 10, whose status read succeeds. -/
def fileEntry : DirEntry := ⟨false, 0, (some ⟨8, 10, false, 420⟩, none)⟩

/-- A regular file whose `Info()` fails (the file vanished after the scan): the
status is nil and the error is not. -/
def staleEntry : DirEntry := ⟨false, 0, (none, some "no such file or directory")⟩

/-- A directory of size 4096 last modified at time 10. -/
def dirEntrySmall : DirEntry := ⟨true, ModeDir, (some ⟨4096, 10, true, 493⟩, none)⟩

/-- A directory of size 8192 last modified at time 10. -/
def dirEntryLarge : DirEntry := ⟨true, ModeDir, (some ⟨8192, 10, true, 493⟩, none)⟩

/-! ## A model of the file system -/

/-- A file-system object as `lstat` reports it: a directory or a regular file. -/
structure Node where
  isDir : Bool
  size : Int
  mtime : Int
  mode : Nat
deriving DecidableEq, Repr

/-- The file system: the objects by path, the clock read by `time.Now`, the calls that
fail for a reason outside the model (permissions, input/output errors), and the
modification time that is stored when `os.Chtimes` is given one (a file system may keep
times with less precision than it is given). -/
structure World where
  nodes : List (FullPath × Node)
  clock : Int
  fault : Event → Bool
  stamp : Int → Int

/-- The object at a path, if any. -/
def World.find (w : World) (fp : FullPath) : Option Node := w.nodes.lookup fp

/-- Store an object at a path, replacing what was there. -/
def World.put (w : World) (fp : FullPath) (n : Node) : World :=
  { w with nodes := (fp, n) :: w.nodes.filter (fun kv => kv.1 != fp) }

/-- Delete the object at a path. -/
def World.erase (w : World) (fp : FullPath) : World :=
  { w with nodes := w.nodes.filter (fun kv => kv.1 != fp) }

/-- The proper ancestors of a path given by its characters, shortest first: the parts
before each separator. -/
def ancestorsChars : List Char → List (List Char)
  | [] => []
  | c :: t => (if c = '/' then [[]] else []) ++ (ancestorsChars t).map (fun a => c :: a)

/-- The proper ancestors of a relative path, shortest first. -/
def ancestors (rel : String) : List String := (ancestorsChars rel.toList).map String.mk

/-- Whether some object lies beneath the path. -/
def World.hasChild (w : World) (fp : FullPath) : Bool :=
  w.nodes.any (fun kv => kv.1.root == fp.root && decide (fp.rel ∈ ancestors kv.1.rel))

/-- Adding or removing a name updates the modification time of the parent directory
(the root of a tree is not stored). -/
def World.touchParent (w : World) (fp : FullPath) : World :=
  match (ancestors fp.rel).getLast? with
  | none => w
  | some q =>
    match w.find ⟨fp.root, q⟩ with
    | some n => if n.isDir then w.put ⟨fp.root, q⟩ { n with mtime := w.clock } else w
    | none => w

/-- Size that `lstat` reports for a new directory. -/
def newDirSize : Int := 4096

/-- Permission bits of a file made by `os.Create`, `0644`. -/
def newFileMode : Nat := 420

/-- The system call `mkdir` along a chain of paths, each the parent of the next: a path
that is a directory is skipped, a path that is a file is an error, a missing path is
created. -/
def mkdirChain (root : String) (mode : Nat) : List String → World → Option String × World
  | [], w => (none, w)
  | q :: rest, w =>
    match w.find ⟨root, q⟩ with
    | some n =>
      if n.isDir then mkdirChain root mode rest w else (some "mkdir: not a directory", w)
    | none =>
      if w.fault (Event.MkdirAll ⟨root, q⟩ mode) then (some "mkdir: permission denied", w)
      else mkdirChain root mode rest
        ((w.put ⟨root, q⟩ ⟨true, newDirSize, w.clock, mode⟩).touchParent ⟨root, q⟩)

/-- Model of `os.MkdirAll`: nothing to do for a directory, an error for a file,
otherwise the missing ancestors and the path are created. -/
def World.MkdirAll (fp : FullPath) (mode : Nat) (w : World) : Option String × World :=
  match w.find fp with
  | some n => if n.isDir then (none, w) else (some "mkdir: not a directory", w)
  | none => mkdirChain fp.root mode (ancestors fp.rel ++ [fp.rel]) w

/-- Model of `os.Open`: the path has to exist. -/
def World.Open (fp : FullPath) (w : World) : Option String × World :=
  if w.fault (Event.Open fp) then (some "open: permission denied", w)
  else
    match w.find fp with
    | some _ => (none, w)
    | none => (some "open: no such file or directory", w)

/-- Every proper ancestor of the path is a directory. -/
def World.ancestorsAreDirs (w : World) (fp : FullPath) : Bool :=
  (ancestors fp.rel).all (fun q =>
    match w.find ⟨fp.root, q⟩ with
    | some n => n.isDir
    | none => false)

/-- Model of `os.Create`: the ancestors have to be directories and the path must not be
one; an existing file is truncated, a missing one is created empty. -/
def World.Create (fp : FullPath) (w : World) : Option String × World :=
  if w.fault (Event.Create fp) then (some "open: permission denied", w)
  else if !w.ancestorsAreDirs fp then (some "open: no such file or directory", w)
  else
    match w.find fp with
    | some n =>
      if n.isDir then (some "open: is a directory", w)
      else (none, w.put fp { n with size := 0, mtime := w.clock })
    | none => (none, (w.put fp ⟨false, 0, w.clock, newFileMode⟩).touchParent fp)

/-- Model of `io.Copy` between the files opened at two paths: the bytes of the source
file are written to the destination file. -/
def World.Copy (dst src : FullPath) (w : World) : Option String × World :=
  if w.fault (Event.Copy dst src) then (some "copy: input/output error", w)
  else
    match w.find src, w.find dst with
    | some sn, some dn =>
      if sn.isDir then (some "read: is a directory", w)
      else if dn.isDir then (some "write: bad file descriptor", w)
      else (none, w.put dst { dn with size := sn.size, mtime := w.clock })
    | _, _ => (some "copy: bad file descriptor", w)

/-- Model of `os.Chtimes`: sets the modification time of an existing object to the time
that the file system stores for the given one. -/
def World.Chtimes (fp : FullPath) (atime mtime : Int) (w : World) : Option String × World :=
  if w.fault (Event.Chtimes fp atime mtime) then (some "chtimes: operation not permitted", w)
  else
    match w.find fp with
    | some n => (none, w.put fp { n with mtime := w.stamp mtime })
    | none => (some "chtimes: no such file or directory", w)

/-- Model of `os.Remove`: a file or an empty directory is removed; a directory with
something beneath it is not. -/
def World.Remove (fp : FullPath) (w : World) : Option String × World :=
  if w.fault (Event.Remove fp) then (some "remove: permission denied", w)
  else
    match w.find fp with
    | none => (some "remove: no such file or directory", w)
    | some n =>
      if n.isDir && w.hasChild fp then (some "remove: directory not empty", w)
      else (none, (w.erase fp).touchParent fp)

/-- The operating system acting on the model of the file system. -/
def modelOS : OS World where
  MkdirAll := World.MkdirAll
  Open := World.Open
  Create := World.Create
  Copy := World.Copy
  Chtimes := World.Chtimes
  Remove := World.Remove
  Now := fun w => w.clock

/-! ## Scans and runs on the model -/

/-- The file status of an object. -/
def infoOf (n : Node) : FileInfo := ⟨n.size, n.mtime, n.isDir, n.mode⟩

/-- The directory entry that a walk reports for an object whose status can be read. -/
def entryOf (n : Node) : DirEntry :=
  ⟨n.isDir, if n.isDir then ModeDir else 0, (some (infoOf n), none)⟩

/-- Model of the walk of `mapDirs` over one tree when no entry fails: one entry per
object of the tree, keyed by relative path. -/
def scanTree (w : World) (root : String) : ScanResult :=
  (w.nodes.filter (fun kv => kv.1.root == root)).map (fun kv => (kv.1.rel, entryOf kv.2))

/-- A scan result is an accurate scan of a tree: distinct keys, every entry is the
entry of the object at its path, and every object of the tree has a key. -/
def IsScan (w : World) (root : String) (m : ScanResult) : Prop :=
  (mapKeys m).Nodup ∧
  (∀ kv ∈ m, (w.find ⟨root, kv.1⟩).map entryOf = some kv.2) ∧
  (∀ kv ∈ w.nodes, kv.1.root = root → kv.1.rel ∈ mapKeys m)

/-- No call fails for a reason outside the model. -/
def World.NoFault (w : World) : Prop := ∀ e, w.fault e = false

/-- The file system stores every modification time that it is given as it is. -/
def World.Exact (w : World) : Prop := ∀ t, w.stamp t = t

/-- A world with the given objects, clock 1000, no faults and exact times. -/
def worldOf (nodes : List (FullPath × Node)) : World :=
  ⟨nodes, 1000, fun _ => false, fun t => t⟩

/-- A synchronizer before `mapDirs`, as `NewSynchronizer` builds it. -/
def NewSynchronizer (src dst : String) (deleteMissing : Bool) (w : World) : Synchronizer World :=
  ⟨src, dst, deleteMissing, [], [], w, []⟩

/-- Model of `mapDirs` when both roots exist and both walks succeed without a failing
entry: the two scan results are filled from the trees, one entry per object, keyed by
the path relative to the root. -/
def mapDirs (s : Synchronizer World) : Synchronizer World :=
  { s with srcFS := scanTree s.world s.src, dstFS := scanTree s.world s.dst }

/-- The method `Run` on the model: `mapDirs` followed by `processSync`. -/
def Run (s : Synchronizer World) : Synchronizer World × Bool :=
  processSync modelOS (mapDirs s)

/-- A second synchronizer started on the world that a first one left. -/
def rerun (s : Synchronizer World) : Synchronizer World × Bool :=
  Run (NewSynchronizer s.src s.dst s.deleteMissing (Run s).1.world)

/-- Whether an object exists at a path, and whether it is a directory. -/
def World.kind (w : World) (fp : FullPath) : Option Bool := (w.find fp).map (fun n => n.isDir)

/-! ## Invariants used in the proofs -/

/-- A world extends another one when every object of the first still exists in the
second, with the same kind. -/
def World.Extends (w' w : World) : Prop := ∀ x b, w.kind x = some b → w'.kind x = some b

/-- A property of the world is kept by the calls of the apply step. -/
def ApplyInvariant (os : OS σ) (P : σ → Prop) : Prop :=
  (∀ fp m w, P w → P (os.MkdirAll fp m w).2) ∧ (∀ fp w, P w → P (os.Open fp w).2) ∧
  (∀ fp w, P w → P (os.Create fp w).2) ∧ (∀ d c w, P w → P (os.Copy d c w).2) ∧
  (∀ fp a m w, P w → P (os.Chtimes fp a m w).2)

/-- A regular file with the given status is at the path. -/
def World.FileAt (w : World) (x : FullPath) (n : Node) : Prop :=
  w.find x = some n ∧ n.isDir = false

/-- The source scan lists regular files and directories whose status reads succeed,
under distinct keys, and with every ancestor of a key listed as a directory. -/
structure SourceOK (srcFS : ScanResult) : Prop where
  nodup : (mapKeys srcFS).Nodup
  info : ∀ kv ∈ srcFS, ∃ fi, kv.2.Info = (some fi, none) ∧ fi.IsDir = kv.2.IsDir
  anc : ∀ kv ∈ srcFS, ∀ q ∈ ancestors kv.1, ∃ e, (q, e) ∈ srcFS ∧ e.IsDir = true

/-- What the reconciliation loop relies on at each iteration: no call fails from
outside, no source path is occupied in the destination by an object of another kind,
the source files exist, and the entries of the destination scan describe existing
objects whose status reads succeed. -/
structure LoopInv (s : Synchronizer World) : Prop where
  nofault : s.world.NoFault
  compat : ∀ kv ∈ s.srcFS, s.world.kind (Join s.dst kv.1) = none ∨
    s.world.kind (Join s.dst kv.1) = some kv.2.IsDir
  srcfile : ∀ kv ∈ s.srcFS, kv.2.IsDir = false → s.world.kind (Join s.src kv.1) = some false
  dstscan : ∀ kv ∈ s.dstFS, s.world.kind (Join s.dst kv.1) = some kv.2.IsDir ∧
    kv.2.Info.1.isSome = true

/-- A property of the world is kept by the calls that the apply step makes for the
destination path `d`. -/
def ApplyInvariantAt (os : OS σ) (P : σ → Prop) (d : FullPath) : Prop :=
  (∀ m w, P w → P (os.MkdirAll d m w).2) ∧ (∀ fp w, P w → P (os.Open fp w).2) ∧
  (∀ w, P w → P (os.Create d w).2) ∧ (∀ c w, P w → P (os.Copy d c w).2) ∧
  (∀ a m w, P w → P (os.Chtimes d a m w).2)

/-- What is new in a world `w` compared with `w0`: nothing changed kind, and the new
objects are directories or files at the path `d` or at its ancestors. -/
def NewOnlyAt (w0 : World) (d : FullPath) (w : World) : Prop :=
  ∀ x, w.kind x = w0.kind x ∨
    (w0.kind x = none ∧ x.root = d.root ∧ (x.rel ∈ ancestors d.rel ∨ x.rel = d.rel))

/-- The destination holds, at the path, a regular file of the size of the source entry
and not modified before it. -/
def InSync (w : World) (dst p : String) (e : DirEntry) : Prop :=
  ∃ fi n, e.Info.1 = some fi ∧ w.FileAt (Join dst p) n ∧ n.size = fi.Size ∧
    fi.ModTime ≤ n.mtime

/-- What the loop carries from path to path about the regular files: the roots differ,
times are stored as given, every source file is where its scan entry says, the files of
the destination scan that are still to be compared are where their entries say, and the
source files already visited are in sync in the destination. -/
def FilesInv (ps : List String) (s : Synchronizer World) : Prop :=
  s.src ≠ s.dst ∧ s.world.Exact ∧
  (∀ kv ∈ s.srcFS, kv.2.IsDir = false →
    ∃ sn, s.world.FileAt (Join s.src kv.1) sn ∧ kv.2.Info = (some (infoOf sn), none)) ∧
  (∀ p ∈ ps, ∀ d, mapGet s.dstFS p = some d → d.IsDir = false →
    ∃ dn, d = entryOf dn ∧ s.world.FileAt (Join s.dst p) dn) ∧
  (∀ kv ∈ s.srcFS, kv.2.IsDir = false → kv.1 ∉ ps → InSync s.world s.dst kv.1 kv.2)

/-- The assumptions on the first of two runs: both scans are accurate, every ancestor
of a source key is listed as a directory, no source path is occupied in the
destination by an object of another kind, no call fails for a reason outside the
model, modification times are stored as given, and the two roots are apart. -/
structure FirstRun (s : Synchronizer World) : Prop where
  srcScan : IsScan s.world s.src s.srcFS
  dstScan : IsScan s.world s.dst s.dstFS
  anc : ∀ kv ∈ s.srcFS, ∀ q ∈ ancestors kv.1,
    (mapGet s.srcFS q).map (fun e => e.IsDir) = some true
  compat : ∀ kv ∈ s.srcFS, s.world.kind (Join s.dst kv.1) = none ∨
    s.world.kind (Join s.dst kv.1) = some kv.2.IsDir
  nofault : s.world.NoFault
  exactTimes : s.world.Exact
  roots : RootsApart s.src s.dst

instance (w : World) (root : String) (m : ScanResult) : Decidable (IsScan w root m) := by
  unfold IsScan; infer_instance

/-! ## Sample states of the model -/

/-- The state of the test `dir delete`: a directory with one file in the destination,
and a working set that also names a file that does not exist.  The entries are the
mocks of the test, of which only `IsDir()` is ever called. -/
def dirDeleteState : Synchronizer World :=
  ⟨"", "dst", true, [],
    [("target_only.txt", ⟨false, 0, (none, none)⟩),
     ("target_only_dir", ⟨true, 0, (none, none)⟩),
     ("target_only_dir/target_only2.txt", ⟨false, 0, (none, none)⟩)],
    worldOf [(⟨"dst", "target_only_dir"⟩, ⟨true, 4096, 10, 493⟩),
      (⟨"dst", "target_only_dir/target_only2.txt"⟩, ⟨false, 0, 10, 420⟩)], []⟩

/-- A source tree with `file1.txt` and a destination tree with `target_only.txt`, as in
the scenario of the specification; deletion is off. -/
def targetOnlyState : Synchronizer World :=
  mapDirs (NewSynchronizer "src" "dst" false
    (worldOf [(⟨"src", "file1.txt"⟩, ⟨false, 8, 10, 420⟩),
      (⟨"dst", "target_only.txt"⟩, ⟨false, 3, 5, 420⟩)]))

/-- A source tree with the regular file `x` and a destination tree that holds a
directory at `x`. -/
def conflictFileState : Synchronizer World :=
  NewSynchronizer "src" "dst" false
    (worldOf [(⟨"src", "x"⟩, ⟨false, 7, 80, 420⟩), (⟨"dst", "x"⟩, ⟨true, 4096, 50, 493⟩)])

/-- A source tree with the directory `d` and the file `d/f`, and a destination tree
that holds a regular file at `d`. -/
def conflictDirState : Synchronizer World :=
  NewSynchronizer "src" "dst" false
    (worldOf [(⟨"src", "d"⟩, ⟨true, 4096, 80, 493⟩), (⟨"src", "d/f"⟩, ⟨false, 7, 80, 420⟩),
      (⟨"dst", "d"⟩, ⟨false, 3, 50, 420⟩)])

/-- A source tree with a file, a directory and a file in the directory, and a
destination tree that has the first file already and one file of its own. -/
def mirrorState : Synchronizer World :=
  mapDirs (NewSynchronizer "src" "dst" true
    (worldOf [(⟨"src", "file1.txt"⟩, ⟨false, 8, 10, 420⟩),
      (⟨"src", "subdir"⟩, ⟨true, 4096, 10, 493⟩),
      (⟨"src", "subdir/file3.txt"⟩, ⟨false, 8, 10, 420⟩),
      (⟨"dst", "file1.txt"⟩, ⟨false, 8, 10, 420⟩),
      (⟨"dst", "target_only.txt"⟩, ⟨false, 3, 5, 420⟩)]))

/-- A source tree whose directory `d` was modified after the directory `d` of the
destination tree; both directories are empty and of the same size. -/
def staleDirState : Synchronizer World :=
  NewSynchronizer "src" "dst" false
    (worldOf [(⟨"src", "d"⟩, ⟨true, 4096, 100, 493⟩), (⟨"dst", "d"⟩, ⟨true, 4096, 50, 493⟩)])

/-- A source tree with one file last modified at time 11, an empty destination tree,
and a file system that stores modification times in steps of two. -/
def coarseState : Synchronizer World :=
  NewSynchronizer "src" "dst" false
    ⟨[(⟨"src", "f"⟩, ⟨false, 8, 11, 420⟩)], 1000, fun _ => false, fun t => t - t % 2⟩

/-- The second synchronizer for `mirrorState`: a rescan of the trees that the first run
left. -/
def mirrorSecond : Synchronizer World :=
  mapDirs (NewSynchronizer "src" "dst" true (processSync modelOS mirrorState).1.world)

/-! # Theorems -/

/-! ## Basic facts -/

section Basic

variable (s : Synchronizer σ)

@[simp] theorem emit_src (e : Event) : (s.emit e).src = s.src := rfl
@[simp] theorem emit_dst (e : Event) : (s.emit e).dst = s.dst := rfl
@[simp] theorem emit_deleteMissing (e : Event) : (s.emit e).deleteMissing = s.deleteMissing := rfl
@[simp] theorem emit_srcFS (e : Event) : (s.emit e).srcFS = s.srcFS := rfl
@[simp] theorem emit_dstFS (e : Event) : (s.emit e).dstFS = s.dstFS := rfl
@[simp] theorem emit_world (e : Event) : (s.emit e).world = s.world := rfl
@[simp] theorem emit_trace (e : Event) : (s.emit e).trace = s.trace ++ [e] := rfl

@[simp] theorem call_fst (e : Event) (f : σ → Option String × σ) :
    (s.call e f).1 = (f s.world).1 := rfl
@[simp] theorem call_src (e : Event) (f : σ → Option String × σ) :
    (s.call e f).2.src = s.src := rfl
@[simp] theorem call_dst (e : Event) (f : σ → Option String × σ) :
    (s.call e f).2.dst = s.dst := rfl
@[simp] theorem call_deleteMissing (e : Event) (f : σ → Option String × σ) :
    (s.call e f).2.deleteMissing = s.deleteMissing := rfl
@[simp] theorem call_srcFS (e : Event) (f : σ → Option String × σ) :
    (s.call e f).2.srcFS = s.srcFS := rfl
@[simp] theorem call_dstFS (e : Event) (f : σ → Option String × σ) :
    (s.call e f).2.dstFS = s.dstFS := rfl
@[simp] theorem call_world (e : Event) (f : σ → Option String × σ) :
    (s.call e f).2.world = (f s.world).2 := rfl
@[simp] theorem call_trace (e : Event) (f : σ → Option String × σ) :
    (s.call e f).2.trace = s.trace ++ [e] := rfl

@[simp] theorem logIfErr_src (fmt : String) (err : Option String) :
    (s.logIfErr fmt err).src = s.src := by cases err <;> rfl
@[simp] theorem logIfErr_dst (fmt : String) (err : Option String) :
    (s.logIfErr fmt err).dst = s.dst := by cases err <;> rfl
@[simp] theorem logIfErr_deleteMissing (fmt : String) (err : Option String) :
    (s.logIfErr fmt err).deleteMissing = s.deleteMissing := by cases err <;> rfl
@[simp] theorem logIfErr_srcFS (fmt : String) (err : Option String) :
    (s.logIfErr fmt err).srcFS = s.srcFS := by cases err <;> rfl
@[simp] theorem logIfErr_dstFS (fmt : String) (err : Option String) :
    (s.logIfErr fmt err).dstFS = s.dstFS := by cases err <;> rfl
@[simp] theorem logIfErr_world (fmt : String) (err : Option String) :
    (s.logIfErr fmt err).world = s.world := by cases err <;> rfl

theorem logIfErr_trace (fmt : String) (err : Option String) :
    (s.logIfErr fmt err).trace =
      s.trace ++ (match err with | some e => [Event.Error fmt e] | none => []) := by
  cases err <;> simp [Synchronizer.logIfErr]

@[simp] theorem deleteDst_src (k : String) : (s.deleteDst k).src = s.src := rfl
@[simp] theorem deleteDst_dst (k : String) : (s.deleteDst k).dst = s.dst := rfl
@[simp] theorem deleteDst_deleteMissing (k : String) :
    (s.deleteDst k).deleteMissing = s.deleteMissing := rfl
@[simp] theorem deleteDst_srcFS (k : String) : (s.deleteDst k).srcFS = s.srcFS := rfl
@[simp] theorem deleteDst_dstFS (k : String) :
    (s.deleteDst k).dstFS = mapDelete s.dstFS k := rfl
@[simp] theorem deleteDst_world (k : String) : (s.deleteDst k).world = s.world := rfl
@[simp] theorem deleteDst_trace (k : String) : (s.deleteDst k).trace = s.trace := rfl

end Basic

/-! ## The update decision -/

/-- The decision of `needsUpdate` does not depend on the synchronizer it logs to. -/
theorem needsUpdate_snd (s : Synchronizer σ) (a b : DirEntry) :
    (needsUpdate s a b).2 = updateDecision a b := by
  unfold updateDecision needsUpdate
  split
  · rfl
  · rcases a.Info.1 with _ | ai <;> rcases b.Info.1 with _ | bi <;> rfl

/-- The decision computed by `needsUpdate` when both status reads succeed. -/
theorem updateDecision_of_info (s d : DirEntry) (si di : FileInfo) (es ed : Option String)
    (hs : s.Info = (some si, es)) (hd : d.Info = (some di, ed)) :
    updateDecision s d = some (decide (updateRequiredCode s d si di)) := by
  unfold updateDecision needsUpdate updateRequiredCode
  by_cases h1 : s.IsDir = d.IsDir <;> by_cases h2 : s.Typ = d.Typ <;>
    by_cases h3 : si.Size = di.Size <;> simp [h1, h2, h3, hs, hd]

/-! ## Frame of `syncFile` and of the reconciliation loop -/

/-- The method `syncFile` changes neither the configuration nor the scan results, and
adds to the trace its own entry followed by calls other than `os.Remove`. -/
theorem syncFile_frame (os : OS σ) (s : Synchronizer σ) (p : String) :
    SameMaps s (syncFile os s p).1 ∧
    ∃ evs, (syncFile os s p).1.trace = s.trace ++ Event.syncFile p :: evs ∧
      ∀ e ∈ evs, isApplyCall e = true := by
  unfold syncFile SameMaps
  simp only []
  repeat' split
  all_goals simp [isApplyCall]

/-- The method `needsUpdate` changes nothing but the log, to which it adds error lines. -/
theorem needsUpdate_frame (s : Synchronizer σ) (a b : DirEntry) :
    SameMaps s (needsUpdate s a b).1 ∧ (needsUpdate s a b).1.world = s.world ∧
    ∃ errs, (needsUpdate s a b).1.trace = s.trace ++ errs ∧
      ∀ e ∈ errs, isErrorEvent e = true := by
  unfold needsUpdate SameMaps
  split
  · exact ⟨⟨rfl, rfl, rfl, rfl, rfl⟩, rfl, [], by simp, by simp⟩
  · rcases ha : a.Info.2 with _ | ea <;> rcases hb : b.Info.2 with _ | eb <;>
      rcases a.Info.1 with _ | ai <;> rcases b.Info.1 with _ | bi <;>
      simp [Synchronizer.logIfErr, isErrorEvent]

theorem applyLog_append (t u : List Event) : applyLog (t ++ u) = applyLog t ++ applyLog u := by
  simp [applyLog]

theorem syncedPaths_append (t u : List Event) :
    syncedPaths (t ++ u) = syncedPaths t ++ syncedPaths u := by
  simp [syncedPaths]

theorem removes_append (t u : List Event) : removes (t ++ u) = removes t ++ removes u := by
  simp [removes]

/-- Events of the reconciliation loop contain no call of `os.Remove`. -/
theorem removes_of_loopEvents (t : List Event) (h : ∀ e ∈ t, isLoopEvent e = true) :
    removes t = [] := by
  unfold removes
  rw [List.filterMap_eq_nil_iff]
  intro e he
  have := h e he
  cases e <;> first | rfl | simp [isLoopEvent, isApplyEvent, isApplyCall, isErrorEvent] at this

/-- Events of the reconciliation loop do not include the entry into `purgeMissing`. -/
theorem purge_not_mem_of_loopEvents (t : List Event) (h : ∀ e ∈ t, isLoopEvent e = true) :
    Event.purgeMissing ∉ t := by
  intro hm
  have := h _ hm
  simp [isLoopEvent, isApplyEvent, isApplyCall, isErrorEvent] at this

theorem applyLog_of_calls (t : List Event) (h : ∀ e ∈ t, isApplyCall e = true) :
    applyLog t = [] := by
  unfold applyLog
  rw [List.filter_eq_nil_iff]
  intro e he
  have := h e he
  cases e <;> first | (simp [isApplyCall] at this; done) | simp [isApplyEvent]

theorem syncedPaths_of_calls (t : List Event) (h : ∀ e ∈ t, isApplyCall e = true) :
    syncedPaths t = [] := by
  unfold syncedPaths
  rw [List.filterMap_eq_nil_iff]
  intro e he
  have := h e he
  cases e <;> first | rfl | simp [isApplyCall] at this

theorem applyLog_of_errors (t : List Event) (h : ∀ e ∈ t, isErrorEvent e = true) :
    applyLog t = [] := by
  unfold applyLog
  rw [List.filter_eq_nil_iff]
  intro e he
  have := h e he
  cases e <;> first | (simp [isErrorEvent] at this; done) | simp [isApplyEvent]

theorem syncedPaths_of_errors (t : List Event) (h : ∀ e ∈ t, isErrorEvent e = true) :
    syncedPaths t = [] := by
  unfold syncedPaths
  rw [List.filterMap_eq_nil_iff]
  intro e he
  have := h e he
  cases e <;> first | rfl | simp [isErrorEvent] at this

/-- What one apply step (a log line followed by `syncFile`) does: it keeps the
configuration and the scan results, and adds to the trace the log line, the entry into
`syncFile`, calls other than `os.Remove`, and possibly one error line. -/
theorem applyStep_spec (os : OS σ) (s : Synchronizer σ) (p fmt efmt : String)
    (hfmt : isApplyEvent (Event.Info fmt p) = true) :
    let r := syncFile os (s.emit (Event.Info fmt p)) p
    SameMaps s r.1 ∧
    ∀ err, ∃ t, (r.1.logIfErr efmt err).trace = s.trace ++ t ∧
      (∀ e ∈ t, isLoopEvent e = true) ∧ syncedPaths t = [p] ∧
      applyLog t = [Event.Info fmt p, Event.syncFile p] := by
  intro r
  obtain ⟨hm, evs, htr, hev⟩ := syncFile_frame os (s.emit (Event.Info fmt p)) p
  refine ⟨?_, ?_⟩
  · simpa [SameMaps] using hm
  · intro err
    refine ⟨Event.Info fmt p :: Event.syncFile p :: evs ++
      (match err with | some e => [Event.Error efmt e] | none => []), ?_, ?_, ?_, ?_⟩
    · rw [logIfErr_trace, htr]; simp
    · intro e he
      simp only [List.cons_append, List.mem_cons, List.mem_append] at he
      rcases he with rfl | rfl | he | he
      · simp [isLoopEvent, hfmt]
      · simp [isLoopEvent, isApplyEvent]
      · simp [isLoopEvent, hev e he]
      · cases err <;> simp_all [isLoopEvent, isErrorEvent]
    · have h1 := syncedPaths_of_calls evs hev
      cases err <;> simp_all [syncedPaths]
    · have h1 := applyLog_of_calls evs hev
      cases err <;> simp_all [applyLog, isApplyEvent]

/-- One iteration of the reconciliation loop: the configuration and the source scan are
kept; when the iteration does not panic the path is deleted from the destination scan
and the apply steps added to the trace are those planned for the path. -/
theorem visit_spec (os : OS σ) (s : Synchronizer σ) (p : String) :
    (visit os s p).1.src = s.src ∧ (visit os s p).1.dst = s.dst ∧
    (visit os s p).1.deleteMissing = s.deleteMissing ∧ (visit os s p).1.srcFS = s.srcFS ∧
    ((visit os s p).2 = true → (visit os s p).1.dstFS = mapDelete s.dstFS p) ∧
    ∃ t, (visit os s p).1.trace = s.trace ++ t ∧ (∀ e ∈ t, isLoopEvent e = true) ∧
      (syncedPaths t).Sublist [p] ∧
      ((visit os s p).2 = true → applyLog t = plannedStep s.srcFS s.dstFS p) := by
  cases hd : mapGet s.dstFS p with
  | none =>
    obtain ⟨hm, ht⟩ := applyStep_spec os s p "copying  %s" "failed to copy: %s"
      (by simp [isApplyEvent])
    obtain ⟨h1, h2, h3, h4, h5⟩ := hm
    cases hr : (syncFile os (s.emit (Event.Info "copying  %s" p)) p).2 with
    | none =>
      obtain ⟨t, e1, e2, e3, e4⟩ := ht none
      simp only [visit, hd, hr]
      refine ⟨h1, h2, h3, h4, by simp, t, by simpa [Synchronizer.logIfErr] using e1, e2,
        by rw [e3], by simp⟩
    | some err =>
      obtain ⟨t, e1, e2, e3, e4⟩ := ht err
      simp only [visit, hd, hr]
      refine ⟨by simpa using h1, by simpa using h2, by simpa using h3, by simpa using h4,
        by simp [h5], t, by simpa using e1, e2, by rw [e3], ?_⟩
      intro _
      rw [e4]; simp [plannedStep, hd]
  | some dstEntry =>
    cases hs : mapGet s.srcFS p with
    | none =>
      simp only [visit, hd, hs]
      refine ⟨?_, ?_, ?_, ?_, ?_, [], ?_, ?_, ?_, ?_⟩ <;> simp [syncedPaths]
    | some srcEntry =>
      obtain ⟨hm, hw, errs, hte, herr⟩ := needsUpdate_frame s srcEntry dstEntry
      obtain ⟨g1, g2, g3, g4, g5⟩ := hm
      have hdec := needsUpdate_snd s srcEntry dstEntry
      cases hu : (needsUpdate s srcEntry dstEntry).2 with
      | none =>
        simp only [visit, hd, hs, hu]
        refine ⟨g1, g2, g3, g4, by simp, errs, hte, ?_, ?_, by simp⟩
        · intro e he; simp [isLoopEvent, herr e he]
        · rw [syncedPaths_of_errors errs herr]; simp
      | some b =>
        cases b with
        | false =>
          simp only [visit, hd, hs, hu]
          refine ⟨by simpa using g1, by simpa using g2, by simpa using g3, by simpa using g4,
            by simp [g5], errs, by simpa using hte, ?_, ?_, ?_⟩
          · intro e he; simp [isLoopEvent, herr e he]
          · rw [syncedPaths_of_errors errs herr]; simp
          · intro _
            rw [applyLog_of_errors errs herr]
            simp [plannedStep, hd, hs, ← hdec, hu]
        | true =>
          obtain ⟨hm, ht⟩ := applyStep_spec os (needsUpdate s srcEntry dstEntry).1 p
            "overwriting  %s" "failed to overwrite: %s" (by simp [isApplyEvent])
          obtain ⟨h1, h2, h3, h4, h5⟩ := hm
          have hplan : plannedStep s.srcFS s.dstFS p =
              [Event.Info "overwriting  %s" p, Event.syncFile p] := by
            simp [plannedStep, hd, hs, ← hdec, hu]
          cases hr : (syncFile os ((needsUpdate s srcEntry dstEntry).1.emit
              (Event.Info "overwriting  %s" p)) p).2 with
          | none =>
            obtain ⟨t, e1, e2, e3, e4⟩ := ht none
            simp only [visit, hd, hs, hu, hr]
            refine ⟨h1.trans g1, h2.trans g2, h3.trans g3, h4.trans g4, by simp, errs ++ t,
              ?_, ?_, ?_, by simp⟩
            · rw [← List.append_assoc, ← hte]; simpa [Synchronizer.logIfErr] using e1
            · intro e he
              rcases List.mem_append.1 he with he | he
              · simp [isLoopEvent, herr e he]
              · exact e2 e he
            · rw [syncedPaths_append, syncedPaths_of_errors errs herr, e3]; simp
          | some err =>
            obtain ⟨t, e1, e2, e3, e4⟩ := ht err
            simp only [visit, hd, hs, hu, hr]
            refine ⟨by simpa using h1.trans g1, by simpa using h2.trans g2,
              by simpa using h3.trans g3, by simpa using h4.trans g4, by simp [h5, g5],
              errs ++ t, ?_, ?_, ?_, ?_⟩
            · rw [← List.append_assoc, ← hte]; simpa using e1
            · intro e he
              rcases List.mem_append.1 he with he | he
              · simp [isLoopEvent, herr e he]
              · exact e2 e he
            · rw [syncedPaths_append, syncedPaths_of_errors errs herr, e3]; simp
            · intro _
              rw [applyLog_append, applyLog_of_errors errs herr, e4, hplan]; simp

/-! ## Facts about maps -/

theorem mapGet_mapDelete (m : ScanResult) (k p : String) :
    mapGet (mapDelete m k) p = if p = k then none else mapGet m p := by
  induction m with
  | nil => simp [mapGet, mapDelete]
  | cons kv m ih =>
    obtain ⟨a, e⟩ := kv
    unfold mapGet mapDelete at ih ⊢
    by_cases hak : a = k
    · subst hak
      by_cases hpa : p = a
      · subst hpa; simpa [List.filter, List.lookup] using ih
      · have : (p == a) = false := by simpa using hpa
        simpa [List.filter, List.lookup, this, hpa] using ih
    · have hne : (a != k) = true := by simpa using hak
      by_cases hpa : p = a
      · subst hpa; simp [List.filter, List.lookup, hne, hak]
      · have : (p == a) = false := by simpa using hpa
        simpa [List.filter, List.lookup, hne, this] using ih

theorem mapGet_eq_none_iff (m : ScanResult) (p : String) :
    mapGet m p = none ↔ p ∉ mapKeys m := by
  induction m with
  | nil => simp [mapGet, mapKeys]
  | cons kv m ih =>
    obtain ⟨a, e⟩ := kv
    unfold mapGet mapKeys at ih ⊢
    by_cases hpa : p = a
    · subst hpa; simp [List.lookup]
    · have : (p == a) = false := by simpa using hpa
      simp [List.lookup, this, hpa, ih]

theorem mapGet_isSome_iff (m : ScanResult) (p : String) :
    (mapGet m p).isSome = true ↔ p ∈ mapKeys m := by
  have := mapGet_eq_none_iff m p
  cases h : mapGet m p <;> simp_all

/-- A value read from a map is one of its entries. -/
theorem mem_of_mapGet (m : ScanResult) (p : String) (e : DirEntry) (h : mapGet m p = some e) :
    (p, e) ∈ m := by
  induction m with
  | nil => simp [mapGet] at h
  | cons kv m ih =>
    obtain ⟨a, x⟩ := kv
    unfold mapGet at ih h
    by_cases hpa : p = a
    · subst hpa; simp [List.lookup] at h; simp [h]
    · have : (p == a) = false := by simpa using hpa
      simp [List.lookup, this] at h
      exact List.mem_cons_of_mem _ (ih h)

theorem statusPresent_mapDelete (m : ScanResult) (k : String) (h : StatusPresent m) :
    StatusPresent (mapDelete m k) := by
  intro kv hkv
  exact h kv (List.mem_filter.1 hkv).1

theorem plannedStep_mapDelete (srcFS dstFS : ScanResult) (k p : String) (h : p ≠ k) :
    plannedStep srcFS (mapDelete dstFS k) p = plannedStep srcFS dstFS p := by
  simp [plannedStep, mapGet_mapDelete, h]

/-- An iteration does not panic when the status reads of the entries it compares do
not return a nil `fs.FileInfo`. -/
theorem visit_completes_of_entries (os : OS σ) (s : Synchronizer σ) (p : String)
    (srcEntry : DirEntry) (hs : mapGet s.srcFS p = some srcEntry)
    (hsi : srcEntry.Info.1.isSome = true)
    (hD : ∀ d, mapGet s.dstFS p = some d → d.Info.1.isSome = true) :
    (visit os s p).2 = true := by
  obtain ⟨si, hsi⟩ := Option.isSome_iff_exists.1 hsi
  have hfile : ∀ t : Synchronizer σ, t.srcFS = s.srcFS → (syncFile os t p).2 ≠ none := by
    intro t ht
    unfold syncFile
    simp only [emit_srcFS, ht, hs]
    rcases hI : srcEntry.Info with ⟨i, e⟩
    rw [hI] at hsi
    simp only at hsi
    subst hsi
    cases e with
    | some err => simp
    | none =>
      simp only []
      repeat' split
      all_goals simp
  cases hd : mapGet s.dstFS p with
  | none =>
    have := hfile (s.emit (Event.Info "copying  %s" p)) rfl
    cases hr : (syncFile os (s.emit (Event.Info "copying  %s" p)) p).2 with
    | none => exact absurd hr this
    | some err => simp [visit, hd, hr]
  | some dstEntry =>
    have hdi := hD _ hd
    obtain ⟨di, hdi⟩ := Option.isSome_iff_exists.1 hdi
    have hdec := needsUpdate_snd s srcEntry dstEntry
    have hsome : ∃ b, (needsUpdate s srcEntry dstEntry).2 = some b := by
      rw [hdec]
      exact ⟨_, updateDecision_of_info srcEntry dstEntry si di _ _
        (Prod.ext hsi rfl) (Prod.ext hdi rfl)⟩
    obtain ⟨b, hb⟩ := hsome
    cases b with
    | false => simp [visit, hd, hs, hb]
    | true =>
      obtain ⟨hm, -⟩ := needsUpdate_frame s srcEntry dstEntry
      have := hfile ((needsUpdate s srcEntry dstEntry).1.emit (Event.Info "overwriting  %s" p))
        (by simpa using hm.2.2.2.1)
      cases hr : (syncFile os ((needsUpdate s srcEntry dstEntry).1.emit
          (Event.Info "overwriting  %s" p)) p).2 with
      | none => exact absurd hr this
      | some err => simp [visit, hd, hs, hb, hr]

/-- An iteration does not panic when the path is a key of the source scan and no
status read returns a nil `fs.FileInfo`. -/
theorem visit_completes (os : OS σ) (s : Synchronizer σ) (p : String)
    (hp : p ∈ mapKeys s.srcFS) (hS : StatusPresent s.srcFS) (hD : StatusPresent s.dstFS) :
    (visit os s p).2 = true := by
  obtain ⟨srcEntry, hs⟩ := Option.isSome_iff_exists.1 ((mapGet_isSome_iff _ _).2 hp)
  exact visit_completes_of_entries os s p srcEntry hs (hS _ (mem_of_mapGet _ _ _ hs))
    (fun d hd => hD _ (mem_of_mapGet _ _ _ hd))

/-! ## The reconciliation loop -/

theorem syncLoop_cons (os : OS σ) (p : String) (ps : List String) (s : Synchronizer σ) :
    syncLoop os (p :: ps) s =
      if (visit os s p).2 then syncLoop os ps (visit os s p).1
      else ((visit os s p).1, false) := rfl

/-- The loop keeps the configuration and the source scan; it adds to the trace only
loop events, with `syncFile` entered for a sublist of the paths; when it runs to its
end the destination scan has lost exactly the paths of the loop. -/
theorem syncLoop_frame (os : OS σ) (ps : List String) (s : Synchronizer σ) :
    (syncLoop os ps s).1.src = s.src ∧ (syncLoop os ps s).1.dst = s.dst ∧
    (syncLoop os ps s).1.deleteMissing = s.deleteMissing ∧
    (syncLoop os ps s).1.srcFS = s.srcFS ∧
    ((syncLoop os ps s).2 = true →
      (syncLoop os ps s).1.dstFS = s.dstFS.filter (fun kv => decide (kv.1 ∉ ps))) ∧
    ∃ t, (syncLoop os ps s).1.trace = s.trace ++ t ∧ (∀ e ∈ t, isLoopEvent e = true) ∧
      (syncedPaths t).Sublist ps := by
  induction ps generalizing s with
  | nil => exact ⟨rfl, rfl, rfl, rfl, by simp [syncLoop], [], by simp [syncLoop], by simp,
      by simp [syncedPaths]⟩
  | cons p ps ih =>
    obtain ⟨v1, v2, v3, v4, v5, t, vt, vl, vs, -⟩ := visit_spec os s p
    rw [syncLoop_cons]
    cases hv : (visit os s p).2 with
    | false =>
      simp only [Bool.false_eq_true, if_false]
      exact ⟨v1, v2, v3, v4, by simp, t, vt, vl, vs.trans (by simp)⟩
    | true =>
      simp only [if_true]
      obtain ⟨i1, i2, i3, i4, i5, u, iu, il, is⟩ := ih (visit os s p).1
      refine ⟨i1.trans v1, i2.trans v2, i3.trans v3, i4.trans v4, ?_, t ++ u, ?_, ?_, ?_⟩
      · intro h
        rw [i5 h, v5 hv, mapDelete, List.filter_filter]
        congr 1
        funext kv
        by_cases h1 : kv.1 = p <;> by_cases h2 : kv.1 ∈ ps <;> simp [h1, h2]
      · rw [iu, vt, List.append_assoc]
      · intro e he
        rcases List.mem_append.1 he with he | he
        · exact vl e he
        · exact il e he
      · rw [syncedPaths_append]
        exact vs.append is

/-- The loop runs to its end when its paths are keys of the source scan and no status
read returns a nil `fs.FileInfo`. -/
theorem syncLoop_completes (os : OS σ) (ps : List String) (s : Synchronizer σ)
    (hp : ∀ p ∈ ps, p ∈ mapKeys s.srcFS) (hS : StatusPresent s.srcFS)
    (hD : StatusPresent s.dstFS) : (syncLoop os ps s).2 = true := by
  induction ps generalizing s with
  | nil => rfl
  | cons p ps ih =>
    have hv := visit_completes os s p (hp p (List.mem_cons_self _ _)) hS hD
    obtain ⟨-, -, -, v4, v5, -⟩ := visit_spec os s p
    rw [syncLoop_cons, hv]
    simp only [if_true]
    apply ih
    · intro q hq; rw [v4]; exact hp q (List.mem_cons_of_mem _ hq)
    · rw [v4]; exact hS
    · rw [v5 hv]; exact statusPresent_mapDelete _ _ hD

/-- When the loop runs to its end over distinct paths, the apply steps it added to the
trace are the planned steps of its paths, in the order of the paths. -/
theorem syncLoop_applyLog (os : OS σ) (ps : List String) (s : Synchronizer σ)
    (hnd : ps.Nodup) (hc : (syncLoop os ps s).2 = true) :
    ∃ t, (syncLoop os ps s).1.trace = s.trace ++ t ∧
      applyLog t = ps.flatMap (plannedStep s.srcFS s.dstFS) := by
  induction ps generalizing s with
  | nil => exact ⟨[], by simp [syncLoop], by simp [applyLog]⟩
  | cons p ps ih =>
    obtain ⟨-, -, -, v4, v5, t, vt, -, -, va⟩ := visit_spec os s p
    rw [syncLoop_cons] at hc ⊢
    cases hv : (visit os s p).2 with
    | false => simp [hv] at hc
    | true =>
      simp only [hv, if_true] at hc ⊢
      obtain ⟨u, iu, ia⟩ := ih (visit os s p).1 (List.nodup_cons.1 hnd).2 hc
      refine ⟨t ++ u, by rw [iu, vt, List.append_assoc], ?_⟩
      rw [applyLog_append, va hv, ia, List.flatMap_cons, v4, v5 hv]
      congr 1
      apply List.flatMap_congr
      intro q hq
      apply plannedStep_mapDelete
      rintro rfl
      exact (List.nodup_cons.1 hnd).1 hq

theorem newEvents_eq (s r : Synchronizer σ) (t : List Event) (h : r.trace = s.trace ++ t) :
    newEvents s r = t := by
  simp [newEvents, h]

/-! ## Sorting and ancestors -/

theorem sortStrings_perm (l : List String) : (sortStrings l).Perm l :=
  List.perm_insertionSort strLe l

theorem sortStrings_sorted (l : List String) : (sortStrings l).Pairwise strLe :=
  List.sorted_insertionSort strLe l

theorem mem_sortStrings (l : List String) (x : String) : x ∈ sortStrings l ↔ x ∈ l :=
  (sortStrings_perm l).mem_iff

theorem sortStrings_nodup (l : List String) (h : l.Nodup) : (sortStrings l).Nodup :=
  (sortStrings_perm l).nodup_iff.2 h

/-- A list is strictly below each of its proper extensions. -/
theorem chars_lt_append (a : List Char) (c : Char) (r : List Char) : a < a ++ c :: r := by
  induction a with
  | nil => exact List.Lex.nil
  | cons x t ih => exact List.Lex.cons ih

/-- A path is strictly below every path that extends it by a separator and a
remainder: `strLe` fails from the descendant to the ancestor. -/
theorem not_strLe_descendant (q r : String) : ¬ strLe (q ++ "/" ++ r) q := by
  unfold strLe
  have h : (q ++ "/" ++ r).toList = q.toList ++ '/' :: r.toList := by
    simp [String.toList, String.data_append]
  rw [h]
  exact not_le.2 (chars_lt_append _ _ _)

/-- In a sorted list, an element that is not above another one comes before it. -/
theorem sublist_pair_of_sorted (l : List String) (hs : l.Pairwise strLe) (q p : String)
    (hq : q ∈ l) (hp : p ∈ l) (hlt : ¬ strLe p q) : [q, p].Sublist l := by
  induction l with
  | nil => simp at hq
  | cons a t ih =>
    obtain ⟨ha, ht⟩ := List.pairwise_cons.1 hs
    rcases List.mem_cons.1 hq with rfl | hq'
    · rcases List.mem_cons.1 hp with rfl | hp'
      · exact absurd (le_refl (α := List Char) _) hlt
      · exact List.Sublist.cons₂ _ (List.singleton_sublist.2 hp')
    · rcases List.mem_cons.1 hp with rfl | hp'
      · exact absurd (ha q hq') hlt
      · exact List.Sublist.cons _ (ih ht hq' hp')

/-- In a sorted list, an element never comes before one that is strictly below it. -/
theorem not_sublist_pair_of_sorted (l : List String) (hs : l.Pairwise strLe) (q p : String)
    (hlt : ¬ strLe p q) : ¬ [p, q].Sublist l := by
  intro h
  have := hs.sublist h
  simp at this
  exact hlt this

/-! ## The deletion pass -/

theorem removeAll_append (os : OS σ) (a b : List FullPath) (w : σ) :
    removeAll os (a ++ b) w = removeAll os b (removeAll os a w) := by
  simp [removeAll, List.foldl_append]

/-- First loop of `purgeMissing`: it calls `os.Remove` on the non-directory entries in
iteration order and deletes their keys from the destination scan. -/
theorem purgeFiles_spec (os : OS σ) (m : ScanResult) (s : Synchronizer σ) :
    (purgeFiles os m s).dst = s.dst ∧ (purgeFiles os m s).srcFS = s.srcFS ∧
    (purgeFiles os m s).dstFS = s.dstFS.filter (fun kv => decide (kv.1 ∉ fileKeys m)) ∧
    (purgeFiles os m s).world = removeAll os ((fileKeys m).map (Join s.dst)) s.world ∧
    ∃ t, (purgeFiles os m s).trace = s.trace ++ t ∧
      removes t = (fileKeys m).map (Join s.dst) := by
  induction m generalizing s with
  | nil => exact ⟨rfl, rfl, by simp [purgeFiles, fileKeys], rfl, [], by simp [purgeFiles],
      by simp [removes, fileKeys]⟩
  | cons kv m ih =>
    obtain ⟨k, e⟩ := kv
    cases hdir : e.IsDir with
    | true =>
      have hk : fileKeys ((k, e) :: m) = fileKeys m := by simp [fileKeys, List.filter, hdir]
      simp only [purgeFiles, hdir, if_true, hk]
      exact ih s
    | false =>
      have hk : fileKeys ((k, e) :: m) = k :: fileKeys m := by simp [fileKeys, List.filter, hdir]
      simp only [purgeFiles, hdir, Bool.false_eq_true, if_false, hk]
      obtain ⟨i1, i2, i3, i4, t, it, ir⟩ := ih
        ((((s.emit (Event.Info "deleting  %s" (Join s.dst k).render)).call
          (Event.Remove (Join s.dst k)) (os.Remove (Join s.dst k))).2.logIfErr
          "failed to delete file: %s"
          ((s.emit (Event.Info "deleting  %s" (Join s.dst k).render)).call
          (Event.Remove (Join s.dst k)) (os.Remove (Join s.dst k))).1).deleteDst k)
      refine ⟨by simpa using i1, by simpa using i2, ?_, ?_, ?_⟩
      · rw [i3]
        simp only [deleteDst_dstFS, logIfErr_dstFS, call_dstFS, emit_dstFS, mapDelete,
          List.filter_filter]
        congr 1
        funext kv
        by_cases h1 : kv.1 = k <;> by_cases h2 : kv.1 ∈ fileKeys m <;> simp [h1, h2]
      · rw [i4]
        simp [removeAll]
      · refine ⟨Event.Info "deleting  %s" (Join s.dst k).render :: Event.Remove (Join s.dst k) ::
          ((match (os.Remove (Join s.dst k) s.world).1 with
            | some e => [Event.Error "failed to delete file: %s" e]
            | none => []) ++ t), ?_, ?_⟩
        · rw [it]
          simp only [deleteDst_trace, logIfErr_trace, call_trace, emit_trace, call_fst,
            emit_world]
          simp
        · rw [show ∀ (a b : Event) (l : List Event), a :: b :: l = [a, b] ++ l from
            fun _ _ _ => rfl, removes_append, removes_append, ir]
          cases (os.Remove (Join s.dst k) s.world).1 <;> simp [removes]

/-- Second loop of `purgeMissing`: the keys are appended to `dirsToDel` and deleted from
the destination scan. -/
theorem collectDirs_spec (ks : List String) (s : Synchronizer σ) (acc : List String) :
    (collectDirs ks s acc).2 = acc ++ ks ∧ (collectDirs ks s acc).1.dst = s.dst ∧
    (collectDirs ks s acc).1.srcFS = s.srcFS ∧
    (collectDirs ks s acc).1.world = s.world ∧ (collectDirs ks s acc).1.trace = s.trace ∧
    (collectDirs ks s acc).1.dstFS = s.dstFS.filter (fun kv => decide (kv.1 ∉ ks)) := by
  induction ks generalizing s acc with
  | nil => simp [collectDirs]
  | cons k ks ih =>
    obtain ⟨i1, i2, i3, i4, i5, i6⟩ := ih (s.deleteDst k) (acc ++ [k])
    refine ⟨by simp [collectDirs, i1], by simpa [collectDirs] using i2,
      by simpa [collectDirs] using i3, by simpa [collectDirs] using i4,
      by simpa [collectDirs] using i5, ?_⟩
    simp only [collectDirs, i6, deleteDst_dstFS, mapDelete, List.filter_filter]
    congr 1
    funext kv
    by_cases h1 : kv.1 = k <;> by_cases h2 : kv.1 ∈ ks <;> simp [h1, h2]

/-- Third loop of `purgeMissing`: it calls `os.Remove` on the directories in the given
order. -/
theorem purgeDirs_spec (os : OS σ) (ds : List String) (s : Synchronizer σ) :
    (purgeDirs os ds s).dst = s.dst ∧ (purgeDirs os ds s).srcFS = s.srcFS ∧
    (purgeDirs os ds s).dstFS = s.dstFS ∧
    (purgeDirs os ds s).world = removeAll os (ds.map (Join s.dst)) s.world ∧
    ∃ t, (purgeDirs os ds s).trace = s.trace ++ t ∧ removes t = ds.map (Join s.dst) := by
  induction ds generalizing s with
  | nil => exact ⟨rfl, rfl, rfl, rfl, [], by simp [purgeDirs], by simp [removes]⟩
  | cons d ds ih =>
    simp only [purgeDirs]
    obtain ⟨i1, i2, i3, i4, t, it, ir⟩ := ih
      (((s.emit (Event.Info "deleting  %s" d)).call
        (Event.Remove (Join s.dst d)) (os.Remove (Join s.dst d))).2.logIfErr
        "failed to delete directory: %s"
        ((s.emit (Event.Info "deleting  %s" d)).call
        (Event.Remove (Join s.dst d)) (os.Remove (Join s.dst d))).1)
    refine ⟨by simpa using i1, by simpa using i2, by simpa using i3, ?_, ?_⟩
    · rw [i4]; simp [removeAll]
    · refine ⟨Event.Info "deleting  %s" d :: Event.Remove (Join s.dst d) ::
        ((match (os.Remove (Join s.dst d) s.world).1 with
          | some e => [Event.Error "failed to delete directory: %s" e]
          | none => []) ++ t), ?_, ?_⟩
      · rw [it]
        simp only [logIfErr_trace, call_trace, emit_trace, call_fst, emit_world]
        simp
      · rw [show ∀ (a b : Event) (l : List Event), a :: b :: l = [a, b] ++ l from
          fun _ _ _ => rfl, removes_append, removes_append, ir]
        cases (os.Remove (Join s.dst d) s.world).1 <;> simp [removes]

/-- The method `purgeMissing`: it calls `os.Remove` on the paths of `purgeOrder`, in
that order, and leaves the destination scan empty. -/
theorem purgeMissing_spec (os : OS σ) (s : Synchronizer σ) :
    (purgeMissing os s).dst = s.dst ∧ (purgeMissing os s).srcFS = s.srcFS ∧
    (purgeMissing os s).dstFS = [] ∧
    (purgeMissing os s).world =
      removeAll os ((purgeOrder s.dstFS).map (Join s.dst)) s.world ∧
    ∃ t, (purgeMissing os s).trace = s.trace ++ Event.purgeMissing :: t ∧
      removes t = (purgeOrder s.dstFS).map (Join s.dst) := by
  obtain ⟨f1, f2, f3, f4, t1, ft, fr⟩ := purgeFiles_spec os s.dstFS (s.emit Event.purgeMissing)
  obtain ⟨c1, c2, c3, c4, c5, c6⟩ :=
    collectDirs_spec (mapKeys (purgeFiles os s.dstFS (s.emit Event.purgeMissing)).dstFS)
      (purgeFiles os s.dstFS (s.emit Event.purgeMissing)) []
  obtain ⟨d1, d2, d3, d4, t2, dt, dr⟩ := purgeDirs_spec os
    (sortStrings (collectDirs (mapKeys (purgeFiles os s.dstFS (s.emit Event.purgeMissing)).dstFS)
      (purgeFiles os s.dstFS (s.emit Event.purgeMissing)) []).2).reverse
    (collectDirs (mapKeys (purgeFiles os s.dstFS (s.emit Event.purgeMissing)).dstFS)
      (purgeFiles os s.dstFS (s.emit Event.purgeMissing)) []).1
  simp only [emit_dst, emit_srcFS, emit_dstFS, emit_world, emit_trace] at f1 f2 f3 f4 ft fr
  have hkeys : (collectDirs (mapKeys (purgeFiles os s.dstFS (s.emit Event.purgeMissing)).dstFS)
      (purgeFiles os s.dstFS (s.emit Event.purgeMissing)) []).2 = remainingKeys s.dstFS := by
    rw [c1, f3]; simp [remainingKeys]
  rw [hkeys, c2, f1] at d1 d4 dr
  rw [hkeys] at d2 d3 dt
  unfold purgeMissing
  simp only [emit_dstFS]
  rw [hkeys]
  refine ⟨d1, d2.trans (c3.trans f2), ?_, ?_, t1 ++ t2, ?_, ?_⟩
  · rw [d3, c6]
    apply List.filter_eq_nil_iff.2
    intro kv hkv
    simp only [decide_eq_true_eq, not_not, mapKeys]
    exact List.mem_map_of_mem _ hkv
  · rw [d4, c4, f4, purgeOrder, List.map_append, removeAll_append]
  · rw [dt, c5, ft]; simp
  · rw [removes_append, fr, dr, purgeOrder, List.map_append]

/-- With distinct keys, the keys left after the first loop of `purgeMissing` are the
keys of the directory entries. -/
theorem remainingKeys_eq_dirKeys (m : ScanResult) (h : (mapKeys m).Nodup) :
    remainingKeys m = dirKeys m := by
  unfold remainingKeys dirKeys mapKeys
  congr 1
  apply List.filter_congr
  intro kv hkv
  cases hd : kv.2.IsDir with
  | true =>
    simp only [decide_eq_true_eq]
    intro hmem
    obtain ⟨kv2, h2, hk⟩ := List.mem_map.1 hmem
    obtain ⟨h3, h4⟩ := List.mem_filter.1 h2
    have : kv2 = kv := by
      have hinj := List.inj_on_of_nodup_map h
      exact hinj h3 hkv hk
    subst this
    simp [hd] at h4
  | false =>
    simp only [decide_eq_false_iff_not, not_not]
    exact List.mem_map.2 ⟨kv, List.mem_filter.2 ⟨hkv, by simp [hd]⟩, rfl⟩

/-- The paths removed by `purgeMissing` are a permutation of the keys. -/
theorem purgeOrder_perm (m : ScanResult) (h : (mapKeys m).Nodup) :
    (purgeOrder m).Perm (mapKeys m) := by
  unfold purgeOrder
  rw [remainingKeys_eq_dirKeys m h]
  have h1 : ((sortStrings (dirKeys m)).reverse).Perm (dirKeys m) :=
    (List.reverse_perm _).trans (sortStrings_perm _)
  have h2 : (fileKeys m ++ dirKeys m).Perm (mapKeys m) := by
    unfold fileKeys dirKeys mapKeys
    rw [← List.map_append]
    apply List.Perm.map
    have := List.filter_append_perm (fun kv : String × DirEntry => kv.2.IsDir) m
    refine (List.perm_append_comm).trans ?_
    simpa using this
  exact (List.Perm.append_left _ h1).trans h2

theorem applyLog_of_purgeEvents (t : List Event) (h : ∀ e ∈ t, isPurgeEvent e = true) :
    applyLog t = [] := by
  unfold applyLog
  rw [List.filter_eq_nil_iff]
  intro e he
  have := h e he
  cases e with
  | Info f a =>
    simp only [isPurgeEvent, beq_iff_eq] at this
    subst this
    simp [isApplyEvent]
  | syncFile p => simp [isPurgeEvent] at this
  | _ => simp [isApplyEvent]

theorem syncedPaths_of_purgeEvents (t : List Event) (h : ∀ e ∈ t, isPurgeEvent e = true) :
    syncedPaths t = [] := by
  unfold syncedPaths
  rw [List.filterMap_eq_nil_iff]
  intro e he
  have := h e he
  cases e <;> first | rfl | simp [isPurgeEvent] at this

theorem purgeFiles_events (os : OS σ) (m : ScanResult) (s : Synchronizer σ) :
    ∃ t, (purgeFiles os m s).trace = s.trace ++ t ∧ ∀ e ∈ t, isPurgeEvent e = true := by
  induction m generalizing s with
  | nil => exact ⟨[], by simp [purgeFiles], by simp⟩
  | cons kv m ih =>
    obtain ⟨k, e⟩ := kv
    cases hdir : e.IsDir with
    | true => simpa [purgeFiles, hdir] using ih s
    | false =>
      simp only [purgeFiles, hdir, Bool.false_eq_true, if_false]
      obtain ⟨t, it, ie⟩ := ih
        ((((s.emit (Event.Info "deleting  %s" (Join s.dst k).render)).call
          (Event.Remove (Join s.dst k)) (os.Remove (Join s.dst k))).2.logIfErr
          "failed to delete file: %s"
          ((s.emit (Event.Info "deleting  %s" (Join s.dst k).render)).call
          (Event.Remove (Join s.dst k)) (os.Remove (Join s.dst k))).1).deleteDst k)
      refine ⟨Event.Info "deleting  %s" (Join s.dst k).render :: Event.Remove (Join s.dst k) ::
          ((match (os.Remove (Join s.dst k) s.world).1 with
            | some e => [Event.Error "failed to delete file: %s" e]
            | none => []) ++ t), ?_, ?_⟩
      · rw [it]
        simp only [deleteDst_trace, logIfErr_trace, call_trace, emit_trace, call_fst,
          emit_world]
        simp
      · intro x hx
        simp only [List.mem_cons, List.mem_append] at hx
        rcases hx with rfl | rfl | hx | hx
        · simp [isPurgeEvent]
        · simp [isPurgeEvent]
        · revert hx
          cases (os.Remove (Join s.dst k) s.world).1 with
          | none => simp
          | some err => simp only [List.mem_singleton]; rintro rfl; rfl
        · exact ie x hx

theorem purgeDirs_events (os : OS σ) (ds : List String) (s : Synchronizer σ) :
    ∃ t, (purgeDirs os ds s).trace = s.trace ++ t ∧ ∀ e ∈ t, isPurgeEvent e = true := by
  induction ds generalizing s with
  | nil => exact ⟨[], by simp [purgeDirs], by simp⟩
  | cons d ds ih =>
    simp only [purgeDirs]
    obtain ⟨t, it, ie⟩ := ih
      (((s.emit (Event.Info "deleting  %s" d)).call
        (Event.Remove (Join s.dst d)) (os.Remove (Join s.dst d))).2.logIfErr
        "failed to delete directory: %s"
        ((s.emit (Event.Info "deleting  %s" d)).call
        (Event.Remove (Join s.dst d)) (os.Remove (Join s.dst d))).1)
    refine ⟨Event.Info "deleting  %s" d :: Event.Remove (Join s.dst d) ::
        ((match (os.Remove (Join s.dst d) s.world).1 with
          | some e => [Event.Error "failed to delete directory: %s" e]
          | none => []) ++ t), ?_, ?_⟩
    · rw [it]
      simp only [logIfErr_trace, call_trace, emit_trace, call_fst, emit_world]
      simp
    · intro x hx
      simp only [List.mem_cons, List.mem_append] at hx
      rcases hx with rfl | rfl | hx | hx
      · simp [isPurgeEvent]
      · simp [isPurgeEvent]
      · revert hx
        cases (os.Remove (Join s.dst d) s.world).1 with
        | none => simp
        | some err => simp only [List.mem_singleton]; rintro rfl; rfl
      · exact ie x hx

/-- Every event added by `purgeMissing` is an event of the deletion pass. -/
theorem purgeMissing_events (os : OS σ) (s : Synchronizer σ) :
    ∃ t, (purgeMissing os s).trace = s.trace ++ t ∧ ∀ e ∈ t, isPurgeEvent e = true := by
  obtain ⟨t1, ft, fe⟩ := purgeFiles_events os (s.emit Event.purgeMissing).dstFS
    (s.emit Event.purgeMissing)
  obtain ⟨-, -, -, -, c5, -⟩ :=
    collectDirs_spec (mapKeys (purgeFiles os (s.emit Event.purgeMissing).dstFS
      (s.emit Event.purgeMissing)).dstFS)
      (purgeFiles os (s.emit Event.purgeMissing).dstFS (s.emit Event.purgeMissing)) []
  obtain ⟨t2, dt, de⟩ := purgeDirs_events os
    (sortStrings (collectDirs (mapKeys (purgeFiles os (s.emit Event.purgeMissing).dstFS
      (s.emit Event.purgeMissing)).dstFS)
      (purgeFiles os (s.emit Event.purgeMissing).dstFS (s.emit Event.purgeMissing)) []).2).reverse
    (collectDirs (mapKeys (purgeFiles os (s.emit Event.purgeMissing).dstFS
      (s.emit Event.purgeMissing)).dstFS)
      (purgeFiles os (s.emit Event.purgeMissing).dstFS (s.emit Event.purgeMissing)) []).1
  unfold purgeMissing
  simp only []
  refine ⟨Event.purgeMissing :: (t1 ++ t2), ?_, ?_⟩
  · rw [dt, c5, ft]; simp
  · intro x hx
    simp only [List.mem_cons, List.mem_append] at hx
    rcases hx with rfl | hx | hx
    · rfl
    · exact fe x hx
    · exact de x hx

/-! ## The whole of `processSync` -/

/-- The three ways in which `processSync` ends: a panic in the loop, the loop alone, or
the loop followed by the deletion pass. -/
theorem processSync_cases (os : OS σ) (s : Synchronizer σ) :
    ((syncLoop os (sortedPaths s.srcFS) s).2 = false ∧
      processSync os s = ((syncLoop os (sortedPaths s.srcFS) s).1, false)) ∨
    ((syncLoop os (sortedPaths s.srcFS) s).2 = true ∧
      ¬ (s.deleteMissing = true ∧ (syncLoop os (sortedPaths s.srcFS) s).1.dstFS ≠ []) ∧
      processSync os s = ((syncLoop os (sortedPaths s.srcFS) s).1, true)) ∨
    ((syncLoop os (sortedPaths s.srcFS) s).2 = true ∧
      s.deleteMissing = true ∧ (syncLoop os (sortedPaths s.srcFS) s).1.dstFS ≠ [] ∧
      processSync os s = (purgeMissing os (syncLoop os (sortedPaths s.srcFS) s).1, true)) := by
  obtain ⟨-, -, h3, -⟩ := syncLoop_frame os (sortedPaths s.srcFS) s
  unfold processSync
  rcases hl : syncLoop os (sortedPaths s.srcFS) s with ⟨s1, b⟩
  rw [hl] at h3
  simp only at h3
  cases b with
  | false => left; simp
  | true =>
    right
    by_cases hdm : s.deleteMissing = true
    · by_cases hne : s1.dstFS = []
      · left; simp [h3, hdm, hne]
      · right
        have : s1.dstFS.length > 0 := List.length_pos.2 hne
        simp [h3, hdm, hne, this]
    · left
      simp [h3, hdm]

/-- The trace of `processSync` is the trace of the loop followed by the trace of the
deletion pass; the latter is empty unless deletion is enabled, the loop ran to its end
and left a non-empty destination scan. -/
theorem processSync_trace (os : OS σ) (s : Synchronizer σ) :
    ∃ t u, (processSync os s).1.trace = s.trace ++ (t ++ u) ∧
      (syncLoop os (sortedPaths s.srcFS) s).1.trace = s.trace ++ t ∧
      (∀ e ∈ t, isLoopEvent e = true) ∧ (syncedPaths t).Sublist (sortedPaths s.srcFS) ∧
      (∀ e ∈ u, isPurgeEvent e = true) ∧
      (u = [] ∨ (s.deleteMissing = true ∧ (syncLoop os (sortedPaths s.srcFS) s).2 = true ∧
        (syncLoop os (sortedPaths s.srcFS) s).1.dstFS ≠ [] ∧
        processSync os s = (purgeMissing os (syncLoop os (sortedPaths s.srcFS) s).1, true) ∧
        (purgeMissing os (syncLoop os (sortedPaths s.srcFS) s).1).trace =
          (syncLoop os (sortedPaths s.srcFS) s).1.trace ++ u)) := by
  obtain ⟨-, -, -, -, -, t, lt, ll, ls⟩ := syncLoop_frame os (sortedPaths s.srcFS) s
  rcases processSync_cases os s with ⟨-, h⟩ | ⟨-, -, h⟩ | ⟨h1, h2, h3, h⟩
  · exact ⟨t, [], by rw [h]; simpa using lt, lt, ll, ls, by simp, Or.inl rfl⟩
  · exact ⟨t, [], by rw [h]; simpa using lt, lt, ll, ls, by simp, Or.inl rfl⟩
  · obtain ⟨u, pu, pe⟩ := purgeMissing_events os (syncLoop os (sortedPaths s.srcFS) s).1
    refine ⟨t, u, ?_, lt, ll, ls, pe, Or.inr ⟨h2, h1, h3, h, pu⟩⟩
    rw [h]
    simp only
    rw [pu, lt, List.append_assoc]

theorem mem_purgeOrder (m : ScanResult) (k : String) (h : k ∈ purgeOrder m) :
    k ∈ mapKeys m := by
  unfold purgeOrder at h
  rcases List.mem_append.1 h with h | h
  · obtain ⟨kv, h1, rfl⟩ := List.mem_map.1 h
    exact List.mem_map_of_mem _ (List.mem_filter.1 h1).1
  · rw [List.mem_reverse, mem_sortStrings] at h
    obtain ⟨kv, h1, rfl⟩ := List.mem_map.1 h
    exact List.mem_map_of_mem _ (List.mem_filter.1 h1).1

theorem mapGet_filter_key (m : ScanResult) (P : String → Bool) (k : String) :
    mapGet (m.filter (fun kv => P kv.1)) k = if P k = true then mapGet m k else none := by
  induction m with
  | nil => simp [mapGet]
  | cons kv m ih =>
    obtain ⟨a, e⟩ := kv
    unfold mapGet at ih ⊢
    by_cases hka : k = a
    · subst hka
      cases hP : P k <;> simp [List.filter, List.lookup, hP]
      simpa [hP] using ih
    · have hb : (k == a) = false := by simpa using hka
      cases hPa : P a <;> simp [List.filter, List.lookup, hPa, hb, ih]

theorem mapKeys_filter_key (m : ScanResult) (P : String → Bool) (k : String) :
    k ∈ mapKeys (m.filter (fun kv => P kv.1)) ↔ k ∈ mapKeys m ∧ P k = true := by
  unfold mapKeys
  constructor
  · intro h
    obtain ⟨kv, h1, rfl⟩ := List.mem_map.1 h
    obtain ⟨h2, h3⟩ := List.mem_filter.1 h1
    exact ⟨List.mem_map_of_mem _ h2, h3⟩
  · rintro ⟨h1, h2⟩
    obtain ⟨kv, h3, rfl⟩ := List.mem_map.1 h1
    exact List.mem_map_of_mem _ (List.mem_filter.2 ⟨h3, h2⟩)

theorem mem_sortedPaths (m : ScanResult) (k : String) : k ∈ sortedPaths m ↔ k ∈ mapKeys m :=
  mem_sortStrings _ _

theorem pathParts_ne_nil (l : List Char) : pathParts l ≠ [] := by
  cases l with
  | nil => simp [pathParts]
  | cons c t =>
    unfold pathParts
    split
    · simp
    · split <;> simp

theorem pathParts_sep (t : List Char) : pathParts ('/' :: t) = [] :: pathParts t := by
  rw [pathParts]; simp

theorem pathParts_cons (c : Char) (t : List Char) (hc : c ≠ '/') (n : List Char)
    (ns : List (List Char)) (h : pathParts t = n :: ns) :
    pathParts (c :: t) = (c :: n) :: ns := by
  rw [pathParts, if_neg hc, h]

/-- The names of `a/b` are the names of `a` followed by the names of `b`. -/
theorem pathParts_append (a b : List Char) :
    pathParts (a ++ '/' :: b) = pathParts a ++ pathParts b := by
  induction a with
  | nil => rw [List.nil_append, pathParts_sep]; rfl
  | cons c a ih =>
    rw [List.cons_append]
    by_cases hc : c = '/'
    · rw [hc, pathParts_sep, pathParts_sep, ih]; rfl
    · cases hp : pathParts a with
      | nil => exact absurd hp (pathParts_ne_nil a)
      | cons n ns =>
        rw [pathParts_cons c a hc n ns hp,
          pathParts_cons c _ hc n (ns ++ pathParts b) (by rw [ih, hp]; rfl)]
        rfl

theorem render_toList (x : FullPath) :
    x.render.toList = x.root.toList ++ '/' :: x.rel.toList := by
  simp [FullPath.render]

/-- Roots that are apart are different. -/
theorem rootsApart_ne {a b : String} (h : RootsApart a b) : a ≠ b := by
  intro hab
  have h4 := h.2.2.2.1
  rw [hab] at h4
  have : (pathParts b.toList).isPrefixOf (pathParts b.toList) = true :=
    List.isPrefixOf_iff_prefix.2 (List.prefix_refl _)
  rw [this] at h4
  cases h4

/-- A root and a path beneath it are not apart. -/
theorem not_rootsApart_beneath (a r : String) : ¬ RootsApart a (a ++ "/" ++ r) := by
  intro h
  have h4 := h.2.2.2.1
  have : (a ++ "/" ++ r).toList = a.toList ++ '/' :: r.toList := by simp
  rw [this, pathParts_append, List.isPrefixOf_iff_prefix.2 (List.prefix_append _ _)] at h4
  cases h4

/-- Under roots that are apart the pairs stand for the strings: two joined paths that
`filepath.Join` renders as the same string are the same pair. -/
theorem render_injective {a b : String} (h : RootsApart a b) (x y : FullPath)
    (hx : x.root = a ∨ x.root = b) (hy : y.root = a ∨ y.root = b)
    (hr : x.render = y.render) : x = y := by
  have hparts : pathParts x.root.toList ++ pathParts x.rel.toList =
      pathParts y.root.toList ++ pathParts y.rel.toList := by
    rw [← pathParts_append, ← pathParts_append, ← render_toList, ← render_toList, hr]
  have hcmp : pathParts x.root.toList <+: pathParts y.root.toList ∨
      pathParts y.root.toList <+: pathParts x.root.toList :=
    List.prefix_or_prefix_of_prefix
      (hparts ▸ List.prefix_append (pathParts x.root.toList) (pathParts x.rel.toList))
      (List.prefix_append (pathParts y.root.toList) (pathParts y.rel.toList))
  have hroot : x.root = y.root := by
    have h4 := h.2.2.2.1
    have h5 := h.2.2.2.2
    rcases hx with hx | hx <;> rcases hy with hy | hy
    · rw [hx, hy]
    · exfalso
      rw [hx, hy] at hcmp
      rcases hcmp with hc | hc
      · rw [List.isPrefixOf_iff_prefix.2 hc] at h4; cases h4
      · rw [List.isPrefixOf_iff_prefix.2 hc] at h5; cases h5
    · exfalso
      rw [hx, hy] at hcmp
      rcases hcmp with hc | hc
      · rw [List.isPrefixOf_iff_prefix.2 hc] at h5; cases h5
      · rw [List.isPrefixOf_iff_prefix.2 hc] at h4; cases h4
    · rw [hx, hy]
  have hl : x.root.toList ++ '/' :: x.rel.toList = y.root.toList ++ '/' :: y.rel.toList := by
    rw [← render_toList, ← render_toList, hr]
  rw [hroot] at hl
  have hrel : x.rel = y.rel := by
    have := List.append_cancel_left hl
    exact String.toList_inj.1 (List.cons.inj this).2
  cases x; cases y
  simp only at hroot hrel
  rw [hroot, hrel]

theorem join_injective (dst : String) : Function.Injective (Join dst) := by
  intro a b h
  simpa [Join] using h

theorem mem_fileKeys (m : ScanResult) (k : String) (e : DirEntry) (h : (k, e) ∈ m)
    (hd : e.IsDir = false) : k ∈ fileKeys m :=
  List.mem_map.2 ⟨(k, e), List.mem_filter.2 ⟨h, by simp [hd]⟩, rfl⟩

theorem mem_dirKeys (m : ScanResult) (k : String) (e : DirEntry) (h : (k, e) ∈ m)
    (hd : e.IsDir = true) : k ∈ dirKeys m :=
  List.mem_map.2 ⟨(k, e), List.mem_filter.2 ⟨h, by simp [hd]⟩, rfl⟩

/-- The directories are removed in descending order. -/
theorem reverse_sortStrings_sorted (l : List String) :
    (sortStrings l).reverse.Pairwise (fun a b => strLe b a) :=
  List.pairwise_reverse.2 (sortStrings_sorted l)

/-- In a list sorted in descending order, an element that is not below another one
comes before it. -/
theorem sublist_pair_of_sorted_desc (l : List String)
    (hs : l.Pairwise (fun a b => strLe b a)) (q p : String)
    (hq : q ∈ l) (hp : p ∈ l) (hlt : ¬ strLe p q) : [p, q].Sublist l := by
  have h := sublist_pair_of_sorted l.reverse (List.pairwise_reverse.2 hs) q p
    (List.mem_reverse.2 hq) (List.mem_reverse.2 hp) hlt
  have := h.reverse
  simpa using this

/-! ## Facts about the model of the file system -/

theorem find_put (w : World) (fp x : FullPath) (n : Node) :
    (w.put fp n).find x = if x = fp then some n else w.find x := by
  unfold World.put World.find
  by_cases h : x = fp
  · subst h; simp [List.lookup]
  · have hb : (x == fp) = false := by simpa using h
    simp only [List.lookup, hb, h, if_false]
    induction w.nodes with
    | nil => rfl
    | cons kv l ih =>
      obtain ⟨k, v⟩ := kv
      by_cases hk : k = fp
      · subst hk; simp [List.filter, List.lookup, hb, ih]
      · have hkb : (k != fp) = true := by simpa using hk
        simp only [List.filter, hkb, List.lookup]
        rw [ih]

theorem find_erase (w : World) (fp x : FullPath) :
    (w.erase fp).find x = if x = fp then none else w.find x := by
  unfold World.erase World.find
  simp only
  induction w.nodes with
  | nil => simp [List.lookup]
  | cons kv l ih =>
    obtain ⟨k, v⟩ := kv
    by_cases hk : k = fp
    · subst hk
      by_cases h : x = k
      · subst h; simpa [List.filter, List.lookup] using ih
      · have hb : (x == k) = false := by simpa using h
        simpa [List.filter, List.lookup, hb, h] using ih
    · have hkb : (k != fp) = true := by simpa using hk
      by_cases h : x = k
      · subst h; simp [List.filter, List.lookup, hkb, hk]
      · have hb : (x == k) = false := by simpa using h
        simp only [List.filter, hkb, List.lookup, hb]
        exact ih

theorem find_isSome_of_mem (w : World) (kv : FullPath × Node) (h : kv ∈ w.nodes) :
    (w.find kv.1).isSome = true := by
  unfold World.find
  generalize w.nodes = l at h
  induction l with
  | nil => simp at h
  | cons a l ih =>
    obtain ⟨k, v⟩ := a
    by_cases hk : kv.1 = k
    · simp [List.lookup, hk]
    · have hb : (kv.1 == k) = false := by simpa using hk
      rcases List.mem_cons.1 h with rfl | h'
      · exact absurd rfl hk
      · simpa [List.lookup, hb] using ih h'

theorem mem_of_find (w : World) (fp : FullPath) (n : Node) (h : w.find fp = some n) :
    (fp, n) ∈ w.nodes := by
  unfold World.find at h
  generalize w.nodes = l at h
  induction l with
  | nil => simp [List.lookup] at h
  | cons a l ih =>
    obtain ⟨k, v⟩ := a
    by_cases hk : fp = k
    · subst hk; simp [List.lookup] at h; simp [h]
    · have hb : (fp == k) = false := by simpa using hk
      simp [List.lookup, hb] at h
      exact List.mem_cons_of_mem _ (ih h)

/-- A directory has something beneath it exactly when some existing path of its tree
has it as an ancestor. -/
theorem hasChild_iff (w : World) (fp : FullPath) :
    w.hasChild fp = true ↔
      ∃ x, (w.find x).isSome = true ∧ x.root = fp.root ∧ fp.rel ∈ ancestors x.rel := by
  unfold World.hasChild
  rw [List.any_eq_true]
  constructor
  · rintro ⟨kv, hkv, h⟩
    simp only [Bool.and_eq_true, beq_iff_eq, decide_eq_true_eq] at h
    exact ⟨kv.1, find_isSome_of_mem w kv hkv, h.1, h.2⟩
  · rintro ⟨x, hx, h1, h2⟩
    obtain ⟨n, hn⟩ := Option.isSome_iff_exists.1 hx
    exact ⟨(x, n), mem_of_find w x n hn, by simp [h1, h2]⟩

@[simp] theorem put_clock (w : World) (fp : FullPath) (n : Node) : (w.put fp n).clock = w.clock := rfl
@[simp] theorem put_fault (w : World) (fp : FullPath) (n : Node) : (w.put fp n).fault = w.fault := rfl
@[simp] theorem erase_clock (w : World) (fp : FullPath) : (w.erase fp).clock = w.clock := rfl
@[simp] theorem erase_fault (w : World) (fp : FullPath) : (w.erase fp).fault = w.fault := rfl

@[simp] theorem touchParent_clock (w : World) (fp : FullPath) :
    (w.touchParent fp).clock = w.clock := by
  unfold World.touchParent
  repeat' split
  all_goals rfl

@[simp] theorem touchParent_fault (w : World) (fp : FullPath) :
    (w.touchParent fp).fault = w.fault := by
  unfold World.touchParent
  repeat' split
  all_goals rfl

@[simp] theorem put_stamp (w : World) (fp : FullPath) (n : Node) : (w.put fp n).stamp = w.stamp := rfl
@[simp] theorem erase_stamp (w : World) (fp : FullPath) : (w.erase fp).stamp = w.stamp := rfl

@[simp] theorem touchParent_stamp (w : World) (fp : FullPath) :
    (w.touchParent fp).stamp = w.stamp := by
  unfold World.touchParent
  repeat' split
  all_goals rfl

/-- Touching the parent changes at most the modification time of a directory. -/
theorem find_touchParent (w : World) (fp x : FullPath) :
    (w.touchParent fp).find x = w.find x ∨
    ∃ n, w.find x = some n ∧ n.isDir = true ∧
      (w.touchParent fp).find x = some { n with mtime := w.clock } := by
  unfold World.touchParent
  split
  · exact Or.inl rfl
  · rename_i q _
    split
    · rename_i n hn
      split
      · rename_i hd
        rw [find_put]
        by_cases hx : x = ⟨fp.root, q⟩
        · subst hx
          exact Or.inr ⟨n, hn, hd, by simp⟩
        · exact Or.inl (by simp [hx])
      · exact Or.inl rfl
    · exact Or.inl rfl

theorem kind_touchParent (w : World) (fp x : FullPath) :
    (w.touchParent fp).kind x = w.kind x := by
  unfold World.kind
  rcases find_touchParent w fp x with h | ⟨n, h1, h2, h3⟩
  · rw [h]
  · rw [h1, h3]; rfl

theorem kind_put (w : World) (fp x : FullPath) (n : Node) :
    (w.put fp n).kind x = if x = fp then some n.isDir else w.kind x := by
  unfold World.kind
  rw [find_put]
  split <;> rfl

theorem kind_erase (w : World) (fp x : FullPath) :
    (w.erase fp).kind x = if x = fp then none else w.kind x := by
  unfold World.kind
  rw [find_erase]
  split <;> rfl

theorem kind_eq_none_iff (w : World) (x : FullPath) : w.kind x = none ↔ w.find x = none := by
  unfold World.kind
  cases w.find x <;> simp

theorem kind_eq_some_iff (w : World) (x : FullPath) (b : Bool) :
    w.kind x = some b ↔ ∃ n, w.find x = some n ∧ n.isDir = b := by
  unfold World.kind
  cases w.find x <;> simp

theorem hasChild_iff_kind (w : World) (fp : FullPath) :
    w.hasChild fp = true ↔
      ∃ x, w.kind x ≠ none ∧ x.root = fp.root ∧ fp.rel ∈ ancestors x.rel := by
  rw [hasChild_iff]
  constructor
  · rintro ⟨x, h1, h2⟩
    refine ⟨x, ?_, h2⟩
    rw [Ne, kind_eq_none_iff]
    intro h; simp [h] at h1
  · rintro ⟨x, h1, h2⟩
    refine ⟨x, ?_, h2⟩
    rw [Ne, kind_eq_none_iff] at h1
    exact Option.isSome_iff_ne_none.2 h1

theorem mem_ancestorsChars (p q : List Char) :
    q ∈ ancestorsChars p ↔ ∃ r, p = q ++ '/' :: r := by
  induction p generalizing q with
  | nil => simp [ancestorsChars]
  | cons c t ih =>
    simp only [ancestorsChars, List.mem_append, List.mem_map]
    constructor
    · rintro (h | ⟨a, ha, rfl⟩)
      · by_cases hc : c = '/'
        · subst hc
          simp only [if_true, List.mem_singleton] at h
          subst h
          exact ⟨t, rfl⟩
        · simp [hc] at h
      · obtain ⟨r, hr⟩ := (ih a).1 ha
        exact ⟨r, by rw [hr]; rfl⟩
    · rintro ⟨r, hr⟩
      cases q with
      | nil =>
        simp only [List.nil_append, List.cons.injEq] at hr
        left
        simp [hr.1]
      | cons d q' =>
        simp only [List.cons_append, List.cons.injEq] at hr
        right
        exact ⟨q', (ih q').2 ⟨r, hr.2⟩, by rw [hr.1]⟩

/-- The ancestors of a path are the paths that it extends by a separator and a
remainder. -/
theorem mem_ancestors (p q : String) : q ∈ ancestors p ↔ ∃ r : String, p = q ++ "/" ++ r := by
  unfold ancestors
  rw [List.mem_map]
  constructor
  · rintro ⟨a, ha, rfl⟩
    obtain ⟨r, hr⟩ := (mem_ancestorsChars _ _).1 ha
    refine ⟨String.mk r, ?_⟩
    apply String.ext
    simp only [String.data_append]
    rw [show p.data = p.toList from rfl, hr]
    simp
  · rintro ⟨r, rfl⟩
    refine ⟨q.toList, (mem_ancestorsChars _ _).2 ⟨r.toList, ?_⟩, rfl⟩
    simp [String.toList, String.data_append]

/-- An ancestor is strictly below its descendants in the order of the sort. -/
theorem not_strLe_of_mem_ancestors (p q : String) (h : q ∈ ancestors p) : ¬ strLe p q := by
  obtain ⟨r, rfl⟩ := (mem_ancestors _ _).1 h
  exact not_strLe_descendant q r

/-! ## `os.Remove` on the model -/

theorem remove_fault (w : World) (fp : FullPath) : (World.Remove fp w).2.fault = w.fault := by
  unfold World.Remove
  repeat' split
  all_goals simp

/-- A call of `os.Remove` changes the kind of no path, except that the path removed may
cease to exist. -/
theorem remove_kind (w : World) (fp x : FullPath) :
    (World.Remove fp w).2.kind x = w.kind x ∨
      (x = fp ∧ (World.Remove fp w).2.kind x = none) := by
  unfold World.Remove
  split
  · exact Or.inl rfl
  · split
    · exact Or.inl rfl
    · split
      · exact Or.inl rfl
      · simp only [kind_touchParent, kind_erase]
        by_cases hx : x = fp
        · exact Or.inr ⟨hx, by simp [hx]⟩
        · exact Or.inl (by simp [hx])

/-- When no call fails from outside, `os.Remove` leaves nothing at a path that is not a
directory or has nothing beneath it. -/
theorem remove_gone (w : World) (fp : FullPath) (hf : w.fault (Event.Remove fp) = false)
    (h : w.kind fp ≠ some true ∨ w.hasChild fp = false) :
    (World.Remove fp w).2.kind fp = none := by
  unfold World.Remove
  simp only [hf, Bool.false_eq_true, if_false]
  cases hn : w.find fp with
  | none => simpa [kind_eq_none_iff] using hn
  | some n =>
    simp only
    have hk : w.kind fp = some n.isDir := by simp [World.kind, hn]
    have hcond : (n.isDir && w.hasChild fp) = false := by
      rcases h with h | h
      · rw [hk] at h
        cases hd : n.isDir
        · rfl
        · exact absurd (by rw [hd]) h
      · simp [h]
    simp [hcond, kind_touchParent, kind_erase]

theorem removeAll_nil (os : OS σ) (w : σ) : removeAll os [] w = w := rfl

theorem removeAll_cons (os : OS σ) (fp : FullPath) (l : List FullPath) (w : σ) :
    removeAll os (fp :: l) w = removeAll os l (os.Remove fp w).2 := rfl

theorem removeAll_fault (l : List FullPath) (w : World) :
    (removeAll modelOS l w).fault = w.fault := by
  induction l generalizing w with
  | nil => rfl
  | cons fp l ih => rw [removeAll_cons, ih]; exact remove_fault w fp

/-- A sequence of calls of `os.Remove` changes the kind of no path, except that paths
may cease to exist. -/
theorem removeAll_kind (l : List FullPath) (w : World) (x : FullPath) :
    (removeAll modelOS l w).kind x = w.kind x ∨ (removeAll modelOS l w).kind x = none := by
  induction l generalizing w with
  | nil => exact Or.inl rfl
  | cons fp l ih =>
    rw [removeAll_cons]
    rcases ih (modelOS.Remove fp w).2 with h | h
    · rcases remove_kind w fp x with h' | ⟨-, h'⟩
      · exact Or.inl (h.trans h')
      · exact Or.inr (h.trans h')
    · exact Or.inr h

/-- Removing paths that are not directories leaves none of them. -/
theorem removeAll_files_gone (dst : String) (fs : List String) (w : World) (hf : w.NoFault)
    (hk : ∀ f ∈ fs, w.kind (Join dst f) ≠ some true) :
    ∀ f ∈ fs, (removeAll modelOS (fs.map (Join dst)) w).kind (Join dst f) = none := by
  induction fs generalizing w with
  | nil => simp
  | cons a fs ih =>
    have hstep : ∀ x, (World.Remove (Join dst a) w).2.kind x ≠ some true ∨
        w.kind x = some true := by
      intro x
      rcases remove_kind w (Join dst a) x with h | ⟨-, h⟩
      · by_cases hx : w.kind x = some true
        · exact Or.inr hx
        · exact Or.inl (by rw [h]; exact hx)
      · exact Or.inl (by rw [h]; simp)
    have hf' : (World.Remove (Join dst a) w).2.NoFault := by
      intro e; rw [remove_fault]; exact hf e
    have hk' : ∀ f ∈ fs, (World.Remove (Join dst a) w).2.kind (Join dst f) ≠ some true := by
      intro f hfm
      rcases hstep (Join dst f) with h | h
      · exact h
      · exact absurd h (hk f (List.mem_cons_of_mem _ hfm))
    intro f hfm
    rw [List.map_cons, removeAll_cons]
    rcases List.mem_cons.1 hfm with rfl | hfm'
    · have hg := remove_gone w (Join dst f) (hf _) (Or.inl (hk f (List.mem_cons_self _ _)))
      rcases removeAll_kind (fs.map (Join dst)) (World.Remove (Join dst f) w).2 (Join dst f)
        with h | h
      · exact h.trans hg
      · exact h
    · exact ih _ hf' hk' f hfm'

/-- Removing, in descending order, a list of paths that contains every existing
descendant of each of its members leaves none of them. -/
theorem removeAll_dirs_gone (dst : String) (ds : List String) (w : World) (hf : w.NoFault)
    (hs : ds.Pairwise (fun a b => strLe b a))
    (hc : ∀ d ∈ ds, ∀ x, w.kind x ≠ none → x.root = dst → d ∈ ancestors x.rel → x.rel ∈ ds) :
    ∀ d ∈ ds, (removeAll modelOS (ds.map (Join dst)) w).kind (Join dst d) = none := by
  induction ds generalizing w with
  | nil => simp
  | cons a ds ih =>
    obtain ⟨ha, hs'⟩ := List.pairwise_cons.1 hs
    have hnochild : w.hasChild (Join dst a) = false := by
      cases hh : w.hasChild (Join dst a) with
      | false => rfl
      | true =>
        obtain ⟨x, hx1, hx2, hx3⟩ := (hasChild_iff_kind w (Join dst a)).1 hh
        have hmem := hc a (List.mem_cons_self _ _) x hx1 hx2 hx3
        have hnot := not_strLe_of_mem_ancestors _ _ hx3
        rcases List.mem_cons.1 hmem with h | h
        · rw [h] at hnot
          exact absurd (le_refl (α := List Char) _) hnot
        · exact absurd (ha _ h) hnot
    have hg := remove_gone w (Join dst a) (hf _) (Or.inr hnochild)
    have hf' : (World.Remove (Join dst a) w).2.NoFault := by
      intro e; rw [remove_fault]; exact hf e
    have hc' : ∀ d ∈ ds, ∀ x, (World.Remove (Join dst a) w).2.kind x ≠ none → x.root = dst →
        d ∈ ancestors x.rel → x.rel ∈ ds := by
      intro d hd x hx1 hx2 hx3
      have hx1' : w.kind x ≠ none := by
        rcases remove_kind w (Join dst a) x with h | ⟨-, h⟩
        · rw [← h]; exact hx1
        · exact absurd h hx1
      rcases List.mem_cons.1 (hc d (List.mem_cons_of_mem _ hd) x hx1' hx2 hx3) with h | h
      · have : x = Join dst a := by
          cases x; simp only [Join] at hx2 h ⊢; simp [hx2, h]
        rw [this] at hx1
        exact absurd hg hx1
      · exact h
    intro d hd
    rw [List.map_cons, removeAll_cons]
    rcases List.mem_cons.1 hd with rfl | hd'
    · rcases removeAll_kind (ds.map (Join dst)) (World.Remove (Join dst d) w).2 (Join dst d)
        with h | h
      · exact h.trans hg
      · exact h
    · exact ih _ hf' hs' hc' d hd'

theorem mem_dirKeys_iff (m : ScanResult) (k : String) :
    k ∈ dirKeys m ↔ ∃ e, (k, e) ∈ m ∧ e.IsDir = true := by
  unfold dirKeys
  rw [List.mem_map]
  constructor
  · rintro ⟨kv, h, rfl⟩
    obtain ⟨h1, h2⟩ := List.mem_filter.1 h
    exact ⟨kv.2, h1, h2⟩
  · rintro ⟨e, h1, h2⟩
    exact ⟨(k, e), List.mem_filter.2 ⟨h1, h2⟩, rfl⟩

theorem mem_fileKeys_iff (m : ScanResult) (k : String) :
    k ∈ fileKeys m ↔ ∃ e, (k, e) ∈ m ∧ e.IsDir = false := by
  unfold fileKeys
  rw [List.mem_map]
  constructor
  · rintro ⟨kv, h, rfl⟩
    obtain ⟨h1, h2⟩ := List.mem_filter.1 h
    exact ⟨kv.2, h1, by simpa using h2⟩
  · rintro ⟨e, h1, h2⟩
    exact ⟨(k, e), List.mem_filter.2 ⟨h1, by simp [h2]⟩, rfl⟩

theorem mem_mapKeys_iff (m : ScanResult) (k : String) : k ∈ mapKeys m ↔ ∃ e, (k, e) ∈ m := by
  unfold mapKeys
  rw [List.mem_map]
  constructor
  · rintro ⟨kv, h, rfl⟩; exact ⟨kv.2, h⟩
  · rintro ⟨e, h⟩; exact ⟨(k, e), h, rfl⟩

/-! ## The calls of the apply step on the model -/

theorem extends_refl (w : World) : w.Extends w := fun _ _ h => h

theorem extends_trans {w1 w2 w3 : World} (h12 : w2.Extends w1) (h23 : w3.Extends w2) :
    w3.Extends w1 := fun x b h => h23 x b (h12 x b h)

theorem extends_touchParent (w : World) (fp : FullPath) : (w.touchParent fp).Extends w := by
  intro x b h; rw [kind_touchParent]; exact h

theorem extends_put_new (w : World) (fp : FullPath) (n : Node) (h : w.kind fp = none) :
    (w.put fp n).Extends w := by
  intro x b hx
  rw [kind_put]
  by_cases hxf : x = fp
  · subst hxf; rw [h] at hx; cases hx
  · simp [hxf, hx]

theorem extends_put_same (w : World) (fp : FullPath) (n : Node)
    (h : w.kind fp = some n.isDir) : (w.put fp n).Extends w := by
  intro x b hx
  rw [kind_put]
  by_cases hxf : x = fp
  · subst hxf; rw [h] at hx; simp [hx]
  · simp [hxf, hx]

theorem kind_of_find {w : World} {fp : FullPath} {n : Node} (h : w.find fp = some n) :
    w.kind fp = some n.isDir := by simp [World.kind, h]

theorem kind_of_find_none {w : World} {fp : FullPath} (h : w.find fp = none) :
    w.kind fp = none := by simp [World.kind, h]

theorem mkdirChain_extends (root : String) (mode : Nat) (l : List String) (w : World) :
    (mkdirChain root mode l w).2.Extends w := by
  induction l generalizing w with
  | nil => exact extends_refl w
  | cons q l ih =>
    unfold mkdirChain
    split
    · split
      · exact ih w
      · exact extends_refl w
    · rename_i hn
      split
      · exact extends_refl w
      · exact extends_trans
          (extends_trans (extends_put_new w _ _ (kind_of_find_none hn)) (extends_touchParent _ _))
          (ih _)

theorem mkdirAll_extends (fp : FullPath) (mode : Nat) (w : World) :
    (World.MkdirAll fp mode w).2.Extends w := by
  unfold World.MkdirAll
  split
  · split <;> exact extends_refl w
  · exact mkdirChain_extends _ _ _ _

theorem open_world (fp : FullPath) (w : World) : (World.Open fp w).2 = w := by
  unfold World.Open
  repeat' split
  all_goals rfl

theorem create_extends (fp : FullPath) (w : World) : (World.Create fp w).2.Extends w := by
  unfold World.Create
  split
  · exact extends_refl w
  · split
    · exact extends_refl w
    · split
      · rename_i n hn
        split
        · exact extends_refl w
        · exact extends_put_same w fp _ (kind_of_find (n := n) hn)
      · rename_i hn
        exact extends_trans (extends_put_new w _ _ (kind_of_find_none hn))
          (extends_touchParent _ _)

theorem copy_extends (dst src : FullPath) (w : World) : (World.Copy dst src w).2.Extends w := by
  unfold World.Copy
  split
  · exact extends_refl w
  · split
    · rename_i sn dn hs hd
      split
      · exact extends_refl w
      · split
        · exact extends_refl w
        · exact extends_put_same w dst _ (kind_of_find (n := dn) hd)
    · exact extends_refl w

theorem chtimes_extends (fp : FullPath) (a m : Int) (w : World) :
    (World.Chtimes fp a m w).2.Extends w := by
  unfold World.Chtimes
  split
  · exact extends_refl w
  · split
    · rename_i n hn
      exact extends_put_same w fp _ (kind_of_find (n := n) hn)
    · exact extends_refl w

/-- A property kept by the calls of the apply step is kept by `syncFile`. -/
theorem syncFile_invariant (os : OS σ) (P : σ → Prop) (hP : ApplyInvariant os P)
    (s : Synchronizer σ) (p : String) (h0 : P s.world) : P (syncFile os s p).1.world := by
  obtain ⟨hM, hO, hC, hCp, hCh⟩ := hP
  unfold syncFile
  simp only []
  repeat' split
  all_goals simp only [call_world, emit_world]
  all_goals repeat (first | exact h0 | apply hM | apply hO | apply hC | apply hCp | apply hCh)

theorem needsUpdate_world (s : Synchronizer σ) (a b : DirEntry) :
    (needsUpdate s a b).1.world = s.world := (needsUpdate_frame s a b).2.1

/-- The world after one iteration of the loop is the world before it, or the world
after `syncFile` on a state with the same world and configuration. -/
theorem visit_world (os : OS σ) (s : Synchronizer σ) (p : String) :
    (visit os s p).1.world = s.world ∨
    ∃ t : Synchronizer σ, t.world = s.world ∧ t.srcFS = s.srcFS ∧ t.src = s.src ∧
      t.dst = s.dst ∧ (visit os s p).1.world = (syncFile os t p).1.world := by
  cases hd : mapGet s.dstFS p with
  | none =>
    right
    refine ⟨s.emit (Event.Info "copying  %s" p), rfl, rfl, rfl, rfl, ?_⟩
    cases hr : (syncFile os (s.emit (Event.Info "copying  %s" p)) p).2 <;>
      simp [visit, hd, hr]
  | some dstEntry =>
    cases hs : mapGet s.srcFS p with
    | none => left; simp [visit, hd, hs]
    | some srcEntry =>
      obtain ⟨hm, hw, -⟩ := needsUpdate_frame s srcEntry dstEntry
      cases hu : (needsUpdate s srcEntry dstEntry).2 with
      | none => left; simp [visit, hd, hs, hu, hw]
      | some b =>
        cases b with
        | false => left; simp [visit, hd, hs, hu, hw]
        | true =>
          right
          refine ⟨(needsUpdate s srcEntry dstEntry).1.emit (Event.Info "overwriting  %s" p),
            by simpa using hw, by simpa using hm.2.2.2.1, by simpa using hm.1,
            by simpa using hm.2.1, ?_⟩
          cases hr : (syncFile os ((needsUpdate s srcEntry dstEntry).1.emit
            (Event.Info "overwriting  %s" p)) p).2 <;> simp [visit, hd, hs, hu, hr]

/-- A property kept by the calls of the apply step is kept by one iteration of the
reconciliation loop. -/
theorem visit_invariant (os : OS σ) (P : σ → Prop) (hP : ApplyInvariant os P)
    (s : Synchronizer σ) (p : String) (h0 : P s.world) : P (visit os s p).1.world := by
  rcases visit_world os s p with h | ⟨t, ht, -, -, -, h⟩
  · rw [h]; exact h0
  · rw [h]; exact syncFile_invariant os P hP t p (by rw [ht]; exact h0)

/-- A property kept by the calls of the apply step is kept by the reconciliation
loop. -/
theorem syncLoop_invariant (os : OS σ) (P : σ → Prop) (hP : ApplyInvariant os P)
    (ps : List String) (s : Synchronizer σ) (h0 : P s.world) :
    P (syncLoop os ps s).1.world := by
  induction ps generalizing s with
  | nil => exact h0
  | cons p ps ih =>
    rw [syncLoop_cons]
    split
    · exact ih _ (visit_invariant os P hP s p h0)
    · exact visit_invariant os P hP s p h0

/-- On the model, the calls of the apply step remove nothing and change the kind of
nothing. -/
theorem extends_applyInvariant (w0 : World) :
    ApplyInvariant modelOS (fun w => w.Extends w0) :=
  ⟨fun fp m w h => extends_trans h (mkdirAll_extends fp m w),
   fun fp w h => by rw [show (modelOS.Open fp w).2 = w from open_world fp w]; exact h,
   fun fp w h => extends_trans h (create_extends fp w),
   fun d c w h => extends_trans h (copy_extends d c w),
   fun fp a m w h => extends_trans h (chtimes_extends fp a m w)⟩

/-- When the loop has run to its end, the keys of the destination scan are the initial
keys that are not keys of the source scan. -/
theorem syncLoop_remaining_keys (os : OS σ) (s : Synchronizer σ)
    (hc : (syncLoop os (sortedPaths s.srcFS) s).2 = true) (k : String) :
    k ∈ mapKeys (syncLoop os (sortedPaths s.srcFS) s).1.dstFS ↔
      k ∈ mapKeys s.dstFS ∧ k ∉ mapKeys s.srcFS := by
  obtain ⟨-, -, -, -, l5, -⟩ := syncLoop_frame os (sortedPaths s.srcFS) s
  rw [l5 hc, mapKeys_filter_key s.dstFS (fun k => decide (k ∉ sortedPaths s.srcFS)) k]
  simp [mem_sortedPaths]

theorem mkdirChain_fault (root : String) (mode : Nat) (l : List String) (w : World) :
    (mkdirChain root mode l w).2.fault = w.fault := by
  induction l generalizing w with
  | nil => rfl
  | cons q l ih =>
    unfold mkdirChain
    repeat' split
    all_goals first | rfl | exact ih w | (rw [ih]; simp)

theorem mkdirAll_fault (fp : FullPath) (mode : Nat) (w : World) :
    (World.MkdirAll fp mode w).2.fault = w.fault := by
  unfold World.MkdirAll
  repeat' split
  all_goals first | rfl | exact mkdirChain_fault _ _ _ _

theorem create_fault (fp : FullPath) (w : World) : (World.Create fp w).2.fault = w.fault := by
  unfold World.Create
  repeat' split
  all_goals simp

theorem copy_fault (d c : FullPath) (w : World) : (World.Copy d c w).2.fault = w.fault := by
  unfold World.Copy
  repeat' split
  all_goals simp

theorem chtimes_fault (fp : FullPath) (a m : Int) (w : World) :
    (World.Chtimes fp a m w).2.fault = w.fault := by
  unfold World.Chtimes
  repeat' split
  all_goals simp

theorem mkdirChain_stamp (root : String) (mode : Nat) (l : List String) (w : World) :
    (mkdirChain root mode l w).2.stamp = w.stamp := by
  induction l generalizing w with
  | nil => rfl
  | cons q l ih =>
    unfold mkdirChain
    repeat' split
    all_goals first | rfl | exact ih w | (rw [ih]; simp)

theorem mkdirAll_stamp (fp : FullPath) (mode : Nat) (w : World) :
    (World.MkdirAll fp mode w).2.stamp = w.stamp := by
  unfold World.MkdirAll
  repeat' split
  all_goals first | rfl | exact mkdirChain_stamp _ _ _ _

theorem create_stamp (fp : FullPath) (w : World) : (World.Create fp w).2.stamp = w.stamp := by
  unfold World.Create
  repeat' split
  all_goals simp

theorem copy_stamp (d c : FullPath) (w : World) : (World.Copy d c w).2.stamp = w.stamp := by
  unfold World.Copy
  repeat' split
  all_goals simp

theorem chtimes_stamp (fp : FullPath) (a m : Int) (w : World) :
    (World.Chtimes fp a m w).2.stamp = w.stamp := by
  unfold World.Chtimes
  repeat' split
  all_goals simp

/-- The calls of the apply step do not change how modification times are stored. -/
theorem stamp_applyInvariant (f : Int → Int) :
    ApplyInvariant modelOS (fun w => w.stamp = f) :=
  ⟨fun fp m w h => (mkdirAll_stamp fp m w).trans h,
   fun fp w h => by rw [show (modelOS.Open fp w).2 = w from open_world fp w]; exact h,
   fun fp w h => (create_stamp fp w).trans h,
   fun d c w h => (copy_stamp d c w).trans h,
   fun fp a m w h => (chtimes_stamp fp a m w).trans h⟩

/-- The calls of the apply step do not change which calls fail from outside. -/
theorem fault_applyInvariant (f : Event → Bool) :
    ApplyInvariant modelOS (fun w => w.fault = f) :=
  ⟨fun fp m w h => (mkdirAll_fault fp m w).trans h,
   fun fp w h => by rw [show (modelOS.Open fp w).2 = w from open_world fp w]; exact h,
   fun fp w h => (create_fault fp w).trans h,
   fun d c w h => (copy_fault d c w).trans h,
   fun fp a m w h => (chtimes_fault fp a m w).trans h⟩

/-- A chain of `mkdir` changes the kind of no path, except that missing paths of the
chain become directories. -/
theorem mkdirChain_kind (root : String) (mode : Nat) (l : List String) (w : World)
    (x : FullPath) :
    (mkdirChain root mode l w).2.kind x = w.kind x ∨
      (w.kind x = none ∧ (mkdirChain root mode l w).2.kind x = some true ∧
        x.root = root ∧ x.rel ∈ l) := by
  induction l generalizing w with
  | nil => exact Or.inl rfl
  | cons q l ih =>
    unfold mkdirChain
    split
    · split
      · rcases ih w with h | ⟨h1, h2, h3, h4⟩
        · exact Or.inl h
        · exact Or.inr ⟨h1, h2, h3, List.mem_cons_of_mem _ h4⟩
      · exact Or.inl rfl
    · rename_i hn
      split
      · exact Or.inl rfl
      · have hstep : ∀ y, ((w.put ⟨root, q⟩ ⟨true, newDirSize, w.clock, mode⟩).touchParent
            ⟨root, q⟩).kind y = if y = ⟨root, q⟩ then some true else w.kind y := by
          intro y; rw [kind_touchParent, kind_put]
        have hext := mkdirChain_extends root mode l
          ((w.put ⟨root, q⟩ ⟨true, newDirSize, w.clock, mode⟩).touchParent ⟨root, q⟩)
        by_cases hx : x = ⟨root, q⟩
        · right
          refine ⟨by rw [hx]; exact kind_of_find_none hn, ?_, by rw [hx], by rw [hx]; simp⟩
          exact hext x true (by rw [hstep]; simp [hx])
        · rcases ih ((w.put ⟨root, q⟩ ⟨true, newDirSize, w.clock, mode⟩).touchParent
            ⟨root, q⟩) with h | ⟨h1, h2, h3, h4⟩
          · left; rw [h, hstep]; simp [hx]
          · right
            rw [hstep] at h1
            simp only [hx, if_false] at h1
            exact ⟨h1, h2, h3, List.mem_cons_of_mem _ h4⟩

/-- When no call fails from outside and no path of the chain is a file, the chain of
`mkdir` succeeds and every path of the chain is a directory afterwards. -/
theorem mkdirChain_ok (root : String) (mode : Nat) (l : List String) (w : World)
    (hf : w.NoFault) (hk : ∀ q ∈ l, w.kind ⟨root, q⟩ ≠ some false) :
    (mkdirChain root mode l w).1 = none ∧
      ∀ q ∈ l, (mkdirChain root mode l w).2.kind ⟨root, q⟩ = some true := by
  induction l generalizing w with
  | nil => exact ⟨rfl, by simp⟩
  | cons q l ih =>
    unfold mkdirChain
    cases hn : w.find ⟨root, q⟩ with
    | some n =>
      have hkq : w.kind ⟨root, q⟩ = some n.isDir := kind_of_find hn
      have hd : n.isDir = true := by
        cases hd : n.isDir with
        | true => rfl
        | false => rw [hd] at hkq; exact absurd hkq (hk q (List.mem_cons_self _ _))
      simp only [hd, if_true]
      obtain ⟨i1, i2⟩ := ih w hf (fun r hr => hk r (List.mem_cons_of_mem _ hr))
      refine ⟨i1, ?_⟩
      intro r hr
      rcases List.mem_cons.1 hr with rfl | hr'
      · exact mkdirChain_extends root mode l w _ true (by rw [hkq, hd])
      · exact i2 r hr'
    | none =>
      simp only [hf _, Bool.false_eq_true, if_false]
      have hstep : ∀ y, ((w.put ⟨root, q⟩ ⟨true, newDirSize, w.clock, mode⟩).touchParent
          ⟨root, q⟩).kind y = if y = ⟨root, q⟩ then some true else w.kind y := by
        intro y; rw [kind_touchParent, kind_put]
      obtain ⟨i1, i2⟩ := ih ((w.put ⟨root, q⟩ ⟨true, newDirSize, w.clock, mode⟩).touchParent
        ⟨root, q⟩) (by intro e; simp [hf e]) (by
          intro r hr
          rw [hstep]
          split
          · simp
          · exact hk r (List.mem_cons_of_mem _ hr))
      refine ⟨i1, ?_⟩
      intro r hr
      rcases List.mem_cons.1 hr with rfl | hr'
      · exact mkdirChain_extends root mode l _ _ true (by rw [hstep]; simp)
      · exact i2 r hr'

/-- The call `os.MkdirAll` changes the kind of no path, except that the path and its
ancestors become directories where they were missing. -/
theorem mkdirAll_kind (fp : FullPath) (mode : Nat) (w : World) (x : FullPath) :
    (World.MkdirAll fp mode w).2.kind x = w.kind x ∨
      (w.kind x = none ∧ (World.MkdirAll fp mode w).2.kind x = some true ∧
        x.root = fp.root ∧ (x.rel ∈ ancestors fp.rel ∨ x.rel = fp.rel)) := by
  unfold World.MkdirAll
  split
  · split <;> exact Or.inl rfl
  · rcases mkdirChain_kind fp.root mode (ancestors fp.rel ++ [fp.rel]) w x with h | ⟨h1, h2, h3, h4⟩
    · exact Or.inl h
    · exact Or.inr ⟨h1, h2, h3, by simpa using h4⟩

/-- When no call fails from outside and neither the path nor an ancestor is a file,
`os.MkdirAll` succeeds and the path is a directory afterwards. -/
theorem mkdirAll_ok (fp : FullPath) (mode : Nat) (w : World) (hf : w.NoFault)
    (hk : ∀ q, q ∈ ancestors fp.rel ∨ q = fp.rel → w.kind ⟨fp.root, q⟩ ≠ some false) :
    (World.MkdirAll fp mode w).1 = none ∧ (World.MkdirAll fp mode w).2.kind fp = some true := by
  unfold World.MkdirAll
  cases hn : w.find fp with
  | some n =>
    have hkq : w.kind fp = some n.isDir := kind_of_find hn
    have hd : n.isDir = true := by
      cases hd : n.isDir with
      | true => rfl
      | false =>
        rw [hd] at hkq
        exact absurd hkq (hk fp.rel (Or.inr rfl))
    simp [hd, hkq]
  | none =>
    obtain ⟨h1, h2⟩ := mkdirChain_ok fp.root mode (ancestors fp.rel ++ [fp.rel]) w hf
      (fun q hq => hk q (by simpa using hq))
    exact ⟨h1, h2 fp.rel (by simp)⟩

theorem fileAt_touchParent (w : World) (fp x : FullPath) (n : Node) (h : w.FileAt x n) :
    (w.touchParent fp).FileAt x n := by
  obtain ⟨h1, h2⟩ := h
  rcases find_touchParent w fp x with h | ⟨n0, h3, h4, -⟩
  · exact ⟨h.trans h1, h2⟩
  · rw [h1] at h3
    cases h3
    rw [h2] at h4
    cases h4

theorem fileAt_put_other (w : World) (fp x : FullPath) (m n : Node) (hx : x ≠ fp)
    (h : w.FileAt x n) : (w.put fp m).FileAt x n := by
  refine ⟨?_, h.2⟩
  rw [find_put]
  simp [hx, h.1]

theorem fileAt_erase_other (w : World) (fp x : FullPath) (n : Node) (hx : x ≠ fp)
    (h : w.FileAt x n) : (w.erase fp).FileAt x n := by
  refine ⟨?_, h.2⟩
  rw [find_erase]
  simp [hx, h.1]

theorem mkdirChain_fileAt (root : String) (mode : Nat) (l : List String) (w : World)
    (x : FullPath) (n : Node) (h : w.FileAt x n) : (mkdirChain root mode l w).2.FileAt x n := by
  induction l generalizing w with
  | nil => exact h
  | cons q l ih =>
    unfold mkdirChain
    split
    · split
      · exact ih w h
      · exact h
    · rename_i hn
      split
      · exact h
      · apply ih
        apply fileAt_touchParent
        apply fileAt_put_other _ _ _ _ _ _ h
        rintro rfl
        rw [h.1] at hn
        cases hn

theorem mkdirAll_fileAt (fp : FullPath) (mode : Nat) (w : World) (x : FullPath) (n : Node)
    (h : w.FileAt x n) : (World.MkdirAll fp mode w).2.FileAt x n := by
  unfold World.MkdirAll
  split
  · split <;> exact h
  · exact mkdirChain_fileAt _ _ _ _ _ _ h

theorem create_fileAt (fp : FullPath) (w : World) (x : FullPath) (n : Node) (hx : x ≠ fp)
    (h : w.FileAt x n) : (World.Create fp w).2.FileAt x n := by
  unfold World.Create
  split
  · exact h
  · split
    · exact h
    · split
      · split
        · exact h
        · exact fileAt_put_other _ _ _ _ _ hx h
      · exact fileAt_touchParent _ _ _ _ (fileAt_put_other _ _ _ _ _ hx h)

theorem copy_fileAt (d c : FullPath) (w : World) (x : FullPath) (n : Node) (hx : x ≠ d)
    (h : w.FileAt x n) : (World.Copy d c w).2.FileAt x n := by
  unfold World.Copy
  split
  · exact h
  · split
    · split
      · exact h
      · split
        · exact h
        · exact fileAt_put_other _ _ _ _ _ hx h
    · exact h

theorem chtimes_fileAt (fp : FullPath) (a m : Int) (w : World) (x : FullPath) (n : Node)
    (hx : x ≠ fp) (h : w.FileAt x n) : (World.Chtimes fp a m w).2.FileAt x n := by
  unfold World.Chtimes
  split
  · exact h
  · split
    · exact fileAt_put_other _ _ _ _ _ hx h
    · exact h

theorem remove_fileAt (fp : FullPath) (w : World) (x : FullPath) (n : Node) (hx : x ≠ fp)
    (h : w.FileAt x n) : (World.Remove fp w).2.FileAt x n := by
  unfold World.Remove
  split
  · exact h
  · split
    · exact h
    · split
      · exact h
      · exact fileAt_touchParent _ _ _ _ (fileAt_erase_other _ _ _ _ hx h)

/-- The call `os.Create` changes the kind of no path, except that the path becomes a
file when it was missing. -/
theorem create_kind (fp : FullPath) (w : World) (x : FullPath) :
    (World.Create fp w).2.kind x = w.kind x ∨
      (x = fp ∧ w.kind x = none ∧ (World.Create fp w).2.kind x = some false) := by
  unfold World.Create
  split
  · exact Or.inl rfl
  · split
    · exact Or.inl rfl
    · split
      · rename_i n hn
        split
        · exact Or.inl rfl
        · rename_i hd
          left
          rw [kind_put]
          split
          · rename_i hx; rw [hx, kind_of_find hn]
          · rfl
      · rename_i hn
        rw [kind_touchParent, kind_put]
        by_cases hx : x = fp
        · right
          exact ⟨hx, by rw [hx]; exact kind_of_find_none hn, by simp [hx]⟩
        · left; simp [hx]

theorem ancestorsAreDirs_iff (w : World) (fp : FullPath) :
    w.ancestorsAreDirs fp = true ↔ ∀ q ∈ ancestors fp.rel, w.kind ⟨fp.root, q⟩ = some true := by
  unfold World.ancestorsAreDirs
  rw [List.all_eq_true]
  constructor
  · intro h q hq
    have := h q hq
    cases hn : w.find ⟨fp.root, q⟩ with
    | none => simp [hn] at this
    | some n => simp [hn] at this; simp [World.kind, hn, this]
  · intro h q hq
    obtain ⟨n, hn, hd⟩ := (kind_eq_some_iff _ _ _).1 (h q hq)
    simp [hn, hd]

/-- When no call fails from outside, the ancestors are directories and the path is not
a directory, `os.Create` succeeds and leaves an empty file stamped with the clock. -/
theorem create_ok (fp : FullPath) (w : World) (hf : w.NoFault)
    (ha : ∀ q ∈ ancestors fp.rel, w.kind ⟨fp.root, q⟩ = some true)
    (hk : w.kind fp ≠ some true) :
    (World.Create fp w).1 = none ∧
      ∃ mode, (World.Create fp w).2.find fp = some ⟨false, 0, w.clock, mode⟩ := by
  unfold World.Create
  have hanc := (ancestorsAreDirs_iff w fp).2 ha
  simp only [hf _, hanc, Bool.false_eq_true, if_false, Bool.not_true]
  cases hn : w.find fp with
  | some n =>
    have hd : n.isDir = false := by
      cases hd : n.isDir with
      | false => rfl
      | true => exact absurd (by rw [kind_of_find hn, hd]) hk
    simp only [hd, Bool.false_eq_true, if_false]
    refine ⟨trivial, n.mode, ?_⟩
    rw [find_put]; simp [hd]
  | none =>
    simp only
    refine ⟨trivial, newFileMode, ?_⟩
    have : (w.put fp ⟨false, 0, w.clock, newFileMode⟩).FileAt fp ⟨false, 0, w.clock, newFileMode⟩ :=
      ⟨by rw [find_put]; simp, rfl⟩
    exact (fileAt_touchParent _ fp _ _ this).1

theorem copy_kind (d c : FullPath) (w : World) (x : FullPath) :
    (World.Copy d c w).2.kind x = w.kind x := by
  unfold World.Copy
  split
  · rfl
  · split
    · rename_i sn dn hs hd
      split
      · rfl
      · split
        · rfl
        · rw [kind_put]
          split
          · rename_i hx; rw [hx, kind_of_find hd]
          · rfl
    · rfl

/-- When no call fails from outside and both paths hold files, `io.Copy` succeeds and
the destination file gets the size of the source file. -/
theorem copy_ok (d c : FullPath) (w : World) (hf : w.NoFault) (sn dn : Node)
    (hs : w.FileAt c sn) (hd : w.FileAt d dn) :
    (World.Copy d c w).1 = none ∧
      (World.Copy d c w).2.find d = some ⟨false, sn.size, w.clock, dn.mode⟩ := by
  unfold World.Copy
  simp only [hf _, Bool.false_eq_true, if_false, hs.1, hd.1, hs.2, hd.2]
  refine ⟨trivial, ?_⟩
  rw [find_put]; simp [hd.2]

theorem chtimes_kind (fp : FullPath) (a m : Int) (w : World) (x : FullPath) :
    (World.Chtimes fp a m w).2.kind x = w.kind x := by
  unfold World.Chtimes
  split
  · rfl
  · split
    · rename_i n hn
      rw [kind_put]
      split
      · rename_i hx; rw [hx, kind_of_find hn]
      · rfl
    · rfl

/-- When no call fails from outside, `os.Chtimes` on an existing object succeeds and
sets its modification time to the stored form of the given time. -/
theorem chtimes_ok (fp : FullPath) (a m : Int) (w : World) (hf : w.NoFault) (n : Node)
    (hn : w.find fp = some n) :
    (World.Chtimes fp a m w).1 = none ∧
      (World.Chtimes fp a m w).2.find fp = some { n with mtime := w.stamp m } := by
  unfold World.Chtimes
  simp only [hf _, Bool.false_eq_true, if_false, hn]
  refine ⟨trivial, ?_⟩
  rw [find_put]; simp

theorem open_ok (fp : FullPath) (w : World) (hf : w.NoFault) (h : w.kind fp ≠ none) :
    (World.Open fp w).1 = none := by
  unfold World.Open
  simp only [hf _, Bool.false_eq_true, if_false]
  cases hn : w.find fp with
  | none => exact absurd (kind_of_find_none hn) h
  | some n => rfl

theorem noFault_of_eq {w w' : World} (h : w'.fault = w.fault) (hf : w.NoFault) : w'.NoFault :=
  fun e => by rw [h]; exact hf e

/-! ## The apply step on the model -/

/-- The apply step for a directory: when no call fails from outside and neither the
path nor an ancestor is a file in the destination, `syncFile` returns no error, the
path is a directory afterwards, and nothing else changes kind except that missing
ancestors become directories. -/
theorem syncFile_dir_ok (s : Synchronizer World) (p : String) (e : DirEntry) (fi : FileInfo)
    (hs : mapGet s.srcFS p = some e) (hI : e.Info = (some fi, none)) (hd : fi.IsDir = true)
    (hf : s.world.NoFault)
    (hk : ∀ q, q ∈ ancestors p ∨ q = p → s.world.kind (Join s.dst q) ≠ some false) :
    (syncFile modelOS s p).2 = some none ∧
    (syncFile modelOS s p).1.world.kind (Join s.dst p) = some true ∧
    (∀ x, (syncFile modelOS s p).1.world.kind x = s.world.kind x ∨
      (s.world.kind x = none ∧ (syncFile modelOS s p).1.world.kind x = some true ∧
        x.root = s.dst ∧ (x.rel ∈ ancestors p ∨ x.rel = p))) := by
  obtain ⟨h1, h2⟩ := mkdirAll_ok (Join s.dst p) fi.Mode s.world hf hk
  have h3 := mkdirAll_kind (Join s.dst p) fi.Mode s.world
  have hsync : syncFile modelOS s p =
      (((s.emit (Event.syncFile p)).call (Event.MkdirAll (Join s.dst p) fi.Mode)
        (World.MkdirAll (Join s.dst p) fi.Mode)).2, some none) := by
    simp only [syncFile, emit_srcFS, hs, hI, hd, if_true, emit_dst, call_fst, emit_world,
      modelOS, h1]
  rw [hsync]
  exact ⟨rfl, h2, h3⟩

/-- The apply step for a file: when no call fails from outside, the source file
exists, the ancestors of the path are directories in the destination and the path is
not a directory there, `syncFile` returns no error, the path is a file afterwards, and
nothing else changes kind. -/
theorem syncFile_file_ok (s : Synchronizer World) (p : String) (e : DirEntry) (fi : FileInfo)
    (hs : mapGet s.srcFS p = some e) (hI : e.Info = (some fi, none)) (hd : fi.IsDir = false)
    (hf : s.world.NoFault) (hsrc : s.world.kind (Join s.src p) = some false)
    (ha : ∀ q ∈ ancestors p, s.world.kind (Join s.dst q) = some true)
    (hk : s.world.kind (Join s.dst p) ≠ some true) :
    (syncFile modelOS s p).2 = some none ∧
    (syncFile modelOS s p).1.world.kind (Join s.dst p) = some false ∧
    (∀ x, (syncFile modelOS s p).1.world.kind x = s.world.kind x ∨
      (x = Join s.dst p ∧ s.world.kind x = none ∧
        (syncFile modelOS s p).1.world.kind x = some false)) ∧
    (s.src ≠ s.dst → ∀ sn, s.world.FileAt (Join s.src p) sn →
      ∃ mode, (syncFile modelOS s p).1.world.find (Join s.dst p) =
        some ⟨false, sn.size, s.world.stamp fi.ModTime, mode⟩) := by
  -- Open
  have hO1 : (World.Open (Join s.src p) s.world).1 = none :=
    open_ok _ _ hf (by rw [hsrc]; simp)
  have hOw : (World.Open (Join s.src p) s.world).2 = s.world := open_world _ _
  -- Create
  obtain ⟨hC1, cmode, hCf⟩ := create_ok (Join s.dst p) s.world hf ha hk
  have hCk := create_kind (Join s.dst p) s.world
  generalize hw1 : (World.Create (Join s.dst p) s.world).2 = w1 at hCf hCk
  have hf1 : w1.NoFault := by rw [← hw1]; exact noFault_of_eq (create_fault _ _) hf
  have hc1 : w1.clock = w1.clock := rfl
  -- Copy
  have hsrc1 : w1.kind (Join s.src p) = some false := by
    rw [← hw1]; exact create_extends _ _ _ _ hsrc
  obtain ⟨sn1, hsn1, hsd1⟩ := (kind_eq_some_iff _ _ _).1 hsrc1
  obtain ⟨hP1, hPf⟩ := copy_ok (Join s.dst p) (Join s.src p) w1 hf1 sn1 _ ⟨hsn1, hsd1⟩ ⟨hCf, rfl⟩
  have hPk := copy_kind (Join s.dst p) (Join s.src p) w1
  generalize hw2 : (World.Copy (Join s.dst p) (Join s.src p) w1).2 = w2 at hPf hPk
  have hf2 : w2.NoFault := by rw [← hw2]; exact noFault_of_eq (copy_fault _ _ _) hf1
  -- Chtimes
  obtain ⟨hT1, hTf⟩ := chtimes_ok (Join s.dst p) w2.clock fi.ModTime w2 hf2 _ hPf
  have hTk := chtimes_kind (Join s.dst p) w2.clock fi.ModTime w2
  have hsync : syncFile modelOS s p =
      ((((((s.emit (Event.syncFile p)).call (Event.Open (Join s.src p))
          (World.Open (Join s.src p))).2.call (Event.Create (Join s.dst p))
          (World.Create (Join s.dst p))).2.call (Event.Copy (Join s.dst p) (Join s.src p))
          (World.Copy (Join s.dst p) (Join s.src p))).2.call
          (Event.Chtimes (Join s.dst p) w2.clock fi.ModTime)
          (World.Chtimes (Join s.dst p) w2.clock fi.ModTime)).2, some none) := by
    simp only [syncFile, emit_srcFS, hs, hI, hd, Bool.false_eq_true, if_false, emit_dst,
      emit_src, call_fst, call_world, call_src, call_dst, emit_world, modelOS, hO1, hOw, hC1,
      hw1, hP1, hw2, hT1]
  rw [hsync]
  simp only [call_world, emit_world, hOw, hw1, hw2]
  refine ⟨trivial, ?_, ?_, ?_⟩
  · rw [kind_of_find hTf]
  · intro x
    rw [hTk, hPk]
    exact hCk x
  · intro hne sn hsn
    have hx : Join s.src p ≠ Join s.dst p := by
      intro h; apply hne; simpa [Join] using congrArg FullPath.root h
    have : w1.FileAt (Join s.src p) sn := by
      rw [← hw1]; exact create_fileAt _ _ _ _ hx hsn
    rw [this.1] at hsn1
    cases hsn1
    have hst : w2.stamp = s.world.stamp := by
      rw [← hw2, copy_stamp, ← hw1, create_stamp]
    rw [← hst]
    exact ⟨_, hTf⟩

/-! ## One source path established in the destination -/

/-- With distinct keys, an entry of the map is the value read at its key. -/
theorem mapGet_of_mem (m : ScanResult) (h : (mapKeys m).Nodup) (k : String) (e : DirEntry)
    (hm : (k, e) ∈ m) : mapGet m k = some e := by
  induction m with
  | nil => simp at hm
  | cons kv m ih =>
    obtain ⟨a, x⟩ := kv
    simp only [mapKeys, List.map_cons, List.nodup_cons] at h
    unfold mapGet
    rcases List.mem_cons.1 hm with heq | hm'
    · cases heq; simp [List.lookup]
    · have hne : k ≠ a := by
        rintro rfl
        exact h.1 (List.mem_map_of_mem Prod.fst hm')
      have hb : (k == a) = false := by simpa using hne
      simp only [List.lookup, hb]
      exact ih h.2 hm'

theorem entry_unique (m : ScanResult) (h : (mapKeys m).Nodup) (k : String) (e e' : DirEntry)
    (h1 : (k, e) ∈ m) (h2 : (k, e') ∈ m) : e = e' := by
  have a := mapGet_of_mem m h k e h1
  have b := mapGet_of_mem m h k e' h2
  rw [a] at b
  exact Option.some.inj b

theorem join_eq_iff (dst a b : String) : Join dst a = Join dst b ↔ a = b := by
  simp [Join]

theorem eq_join_of_root_rel (x : FullPath) (dst k : String) (h1 : x.root = dst)
    (h2 : x.rel = k) : x = Join dst k := by
  cases x; simp only [Join] at *; simp [h1, h2]

/-- The apply step establishes its path: under the invariant of the loop and with the
ancestors of the path in place, `syncFile` returns no error, the path exists in the
destination with the kind of the source entry, nothing that existed is lost, and the
invariant holds afterwards. -/
theorem syncFile_establishes (s : Synchronizer World) (hS : SourceOK s.srcFS) (hL : LoopInv s)
    (p : String) (e : DirEntry) (he : (p, e) ∈ s.srcFS)
    (ha : ∀ q ∈ ancestors p, s.world.kind (Join s.dst q) = some true) :
    (syncFile modelOS s p).2 = some none ∧
    (syncFile modelOS s p).1.world.kind (Join s.dst p) = some e.IsDir ∧
    (syncFile modelOS s p).1.world.Extends s.world ∧
    (syncFile modelOS s p).1.world.NoFault ∧
    (∀ kv ∈ s.srcFS, (syncFile modelOS s p).1.world.kind (Join s.dst kv.1) = none ∨
      (syncFile modelOS s p).1.world.kind (Join s.dst kv.1) = some kv.2.IsDir) := by
  have hget := mapGet_of_mem _ hS.nodup p e he
  obtain ⟨fi, hI, hfd⟩ := hS.info (p, e) he
  have hext : (syncFile modelOS s p).1.world.Extends s.world :=
    syncFile_invariant modelOS (fun w => w.Extends s.world) (extends_applyInvariant _) s p
      (extends_refl _)
  have hflt : (syncFile modelOS s p).1.world.NoFault :=
    noFault_of_eq (syncFile_invariant modelOS (fun w => w.fault = s.world.fault)
      (fault_applyInvariant _) s p rfl) hL.nofault
  have hcp := hL.compat (p, e) he
  cases hdir : e.IsDir with
  | true =>
    obtain ⟨h1, h2, h3⟩ := syncFile_dir_ok s p e fi hget hI (hfd.trans hdir) hL.nofault (by
      intro q hq
      rcases hq with hq | rfl
      · rw [ha q hq]; simp
      · rcases hcp with h | h
        · rw [h]; simp
        · rw [h]; simp [hdir])
    refine ⟨h1, h2, hext, hflt, ?_⟩
    intro kv hkv
    rcases h3 (Join s.dst kv.1) with h | ⟨-, h, -, h'⟩
    · rw [h]; exact hL.compat kv hkv
    · right
      rw [h]
      simp only [Join] at h'
      rcases h' with h' | h'
      · obtain ⟨e', he', hd'⟩ := hS.anc (p, e) he kv.1 h'
        rw [entry_unique _ hS.nodup kv.1 kv.2 e' hkv he', hd']
      · have : kv = (p, e) := by
          cases kv; simp only at h'; subst h'
          rw [entry_unique _ hS.nodup _ _ e hkv he]
        rw [this, hdir]
  | false =>
    obtain ⟨h1, h2, h3, -⟩ := syncFile_file_ok s p e fi hget hI (hfd.trans hdir) hL.nofault
      (hL.srcfile (p, e) he hdir) ha (by
        rcases hcp with h | h
        · rw [h]; simp
        · rw [h]; simp [hdir])
    refine ⟨h1, h2, hext, hflt, ?_⟩
    intro kv hkv
    rcases h3 (Join s.dst kv.1) with h | ⟨h', -, h⟩
    · rw [h]; exact hL.compat kv hkv
    · right
      rw [h]
      have hk : kv.1 = p := (join_eq_iff _ _ _).1 h'
      have : kv = (p, e) := by
        cases kv; simp only at hk; subst hk
        rw [entry_unique _ hS.nodup _ _ e hkv he]
      rw [this, hdir]

theorem loopInv_congr {s t : Synchronizer World} (hw : t.world = s.world)
    (h1 : t.srcFS = s.srcFS) (h2 : t.dstFS = s.dstFS) (h3 : t.src = s.src) (h4 : t.dst = s.dst)
    (hL : LoopInv s) : LoopInv t :=
  ⟨by rw [hw]; exact hL.nofault, by rw [hw, h1, h4]; exact hL.compat,
   by rw [hw, h1, h3]; exact hL.srcfile, by rw [hw, h2, h4]; exact hL.dstscan⟩

/-- The invariant of the loop after an apply step on a state that differs from `s` in
its trace only. -/
theorem loopInv_after_apply (s t : Synchronizer World) (hS : SourceOK s.srcFS) (hL : LoopInv s)
    (hw : t.world = s.world) (h1 : t.srcFS = s.srcFS) (h2 : t.dstFS = s.dstFS)
    (h3 : t.src = s.src) (h4 : t.dst = s.dst)
    (p : String) (e : DirEntry) (he : (p, e) ∈ s.srcFS)
    (ha : ∀ q ∈ ancestors p, s.world.kind (Join s.dst q) = some true)
    (r : Synchronizer World) (hrw : r.world = (syncFile modelOS t p).1.world)
    (hr1 : r.srcFS = s.srcFS) (hr2 : r.dstFS = mapDelete s.dstFS p) (hr3 : r.src = s.src)
    (hr4 : r.dst = s.dst) :
    (syncFile modelOS t p).2 = some none ∧ r.world.kind (Join s.dst p) = some e.IsDir ∧
    r.world.Extends s.world ∧ LoopInv r := by
  have hLt := loopInv_congr hw h1 h2 h3 h4 hL
  obtain ⟨g1, g2, g3, g4, g5⟩ := syncFile_establishes t (by rw [h1]; exact hS) hLt p e
    (by rw [h1]; exact he) (by rw [hw, h4]; exact ha)
  rw [hw] at g3
  rw [h4] at g2
  rw [h1, h4] at g5
  refine ⟨g1, by rw [hrw]; exact g2, by rw [hrw]; exact g3, ?_⟩
  refine ⟨by rw [hrw]; exact g4, by rw [hrw, hr1, hr4]; exact g5, ?_, ?_⟩
  · rw [hrw, hr1, hr3]
    intro kv hkv hd
    exact g3 _ _ (hL.srcfile kv hkv hd)
  · rw [hrw, hr2, hr4]
    intro kv hkv
    have hkv' : kv ∈ s.dstFS := (List.mem_filter.1 hkv).1
    exact ⟨g3 _ _ (hL.dstscan kv hkv').1, (hL.dstscan kv hkv').2⟩

/-- When `needsUpdate` decides that no update is needed, the two entries have the same
directory-ness. -/
theorem isDir_eq_of_no_update (a b : DirEntry) (h : updateDecision a b = some false) :
    a.IsDir = b.IsDir := by
  unfold updateDecision needsUpdate at h
  by_cases hd : a.IsDir = b.IsDir
  · exact hd
  · simp [hd] at h

/-- One iteration of the loop establishes its path: under the invariant of the loop and
with the ancestors of the path in place, the iteration does not panic, the path exists
in the destination with the kind of the source entry, nothing that existed is lost,
and the invariant holds afterwards. -/
theorem visit_establishes (s : Synchronizer World) (hS : SourceOK s.srcFS) (hL : LoopInv s)
    (p : String) (e : DirEntry) (he : (p, e) ∈ s.srcFS)
    (ha : ∀ q ∈ ancestors p, s.world.kind (Join s.dst q) = some true) :
    (visit modelOS s p).2 = true ∧
    (visit modelOS s p).1.world.kind (Join s.dst p) = some e.IsDir ∧
    (visit modelOS s p).1.world.Extends s.world ∧ LoopInv (visit modelOS s p).1 := by
  have hs := mapGet_of_mem _ hS.nodup p e he
  obtain ⟨v1, v2, -, v4, v5, -⟩ := visit_spec modelOS s p
  cases hd : mapGet s.dstFS p with
  | none =>
    have hv : visit modelOS s p =
        (((syncFile modelOS (s.emit (Event.Info "copying  %s" p)) p).1.logIfErr
          "failed to copy: %s" none).deleteDst p, true) ∨
        (syncFile modelOS (s.emit (Event.Info "copying  %s" p)) p).2 ≠ some none := by
      cases hr : (syncFile modelOS (s.emit (Event.Info "copying  %s" p)) p).2 with
      | none => right; simp
      | some err =>
        cases err with
        | none => left; simp [visit, hd, hr]
        | some x => right; simp
    obtain ⟨smaps, -⟩ := syncFile_frame modelOS (s.emit (Event.Info "copying  %s" p)) p
    obtain ⟨m1, m2, -, m4, m5⟩ := smaps
    have key := loopInv_after_apply s (s.emit (Event.Info "copying  %s" p)) hS hL rfl rfl rfl
      rfl rfl p e he ha
      (((syncFile modelOS (s.emit (Event.Info "copying  %s" p)) p).1.logIfErr
          "failed to copy: %s" none).deleteDst p) rfl (by simpa using m4)
      (by simp [m5]) (by simpa using m1) (by simpa using m2)
    rcases hv with hv | hv
    · rw [hv]; exact ⟨rfl, key.2.1, key.2.2.1, key.2.2.2⟩
    · exact absurd key.1 hv
  | some d =>
    have hdec := needsUpdate_snd s e d
    obtain ⟨⟨n1, n2, -, n4, n5⟩, nw, -⟩ := needsUpdate_frame s e d
    have hdst := hL.dstscan (p, d) (mem_of_mapGet _ _ _ hd)
    obtain ⟨fi, hI, -⟩ := hS.info (p, e) he
    obtain ⟨di, hdi⟩ := Option.isSome_iff_exists.1 hdst.2
    have hsome := updateDecision_of_info e d fi di none d.Info.2 hI (Prod.ext hdi rfl)
    cases hb : decide (updateRequiredCode e d fi di) with
    | false =>
      rw [hb] at hsome
      have hv : visit modelOS s p = ((needsUpdate s e d).1.deleteDst p, true) := by
        simp [visit, hd, hs, hdec, hsome]
      rw [hv]
      refine ⟨rfl, ?_, ?_, ?_⟩
      · simp only [deleteDst_world, nw]
        rw [isDir_eq_of_no_update e d hsome]
        exact hdst.1
      · simp only [deleteDst_world, nw]; exact extends_refl _
      · refine ⟨by simpa [nw] using hL.nofault, by simpa [nw, n4, n2] using hL.compat,
          by simpa [nw, n4, n1] using hL.srcfile, ?_⟩
        simp only [deleteDst_world, deleteDst_dstFS, deleteDst_dst, nw, n5, n2]
        intro kv hkv
        exact hL.dstscan kv (List.mem_filter.1 hkv).1
    | true =>
      rw [hb] at hsome
      have hv : visit modelOS s p =
          (((syncFile modelOS ((needsUpdate s e d).1.emit (Event.Info "overwriting  %s" p))
            p).1.logIfErr "failed to overwrite: %s" none).deleteDst p, true) ∨
          (syncFile modelOS ((needsUpdate s e d).1.emit (Event.Info "overwriting  %s" p))
            p).2 ≠ some none := by
        cases hr : (syncFile modelOS ((needsUpdate s e d).1.emit
            (Event.Info "overwriting  %s" p)) p).2 with
        | none => right; simp
        | some err =>
          cases err with
          | none => left; simp [visit, hd, hs, hdec, hsome, hr]
          | some x => right; simp
      obtain ⟨smaps, -⟩ := syncFile_frame modelOS
        ((needsUpdate s e d).1.emit (Event.Info "overwriting  %s" p)) p
      obtain ⟨m1, m2, -, m4, m5⟩ := smaps
      have key := loopInv_after_apply s
        ((needsUpdate s e d).1.emit (Event.Info "overwriting  %s" p)) hS hL
        (by simpa using nw) (by simpa using n4) (by simpa using n5) (by simpa using n1)
        (by simpa using n2) p e he ha
        (((syncFile modelOS ((needsUpdate s e d).1.emit (Event.Info "overwriting  %s" p))
            p).1.logIfErr "failed to overwrite: %s" none).deleteDst p) rfl
        (by simpa [n4] using m4) (by simp [m5, n5]) (by simpa [n1] using m1)
        (by simpa [n2] using m2)
      rcases hv with hv | hv
      · rw [hv]; exact ⟨rfl, key.2.1, key.2.2.1, key.2.2.2⟩
      · exact absurd key.1 hv

/-! ## The loop establishes every source path -/

theorem syncLoop_establishes (ps : List String) (s : Synchronizer World)
    (hS : SourceOK s.srcFS) (hL : LoopInv s) (hsorted : ps.Pairwise strLe)
    (hmem : ∀ p ∈ ps, p ∈ mapKeys s.srcFS)
    (hdone : ∀ kv ∈ s.srcFS, kv.1 ∉ ps → s.world.kind (Join s.dst kv.1) = some kv.2.IsDir) :
    (syncLoop modelOS ps s).2 = true ∧
    (∀ kv ∈ s.srcFS, (syncLoop modelOS ps s).1.world.kind (Join s.dst kv.1) = some kv.2.IsDir) ∧
    (syncLoop modelOS ps s).1.world.Extends s.world ∧ LoopInv (syncLoop modelOS ps s).1 := by
  induction ps generalizing s with
  | nil =>
    exact ⟨rfl, fun kv hkv => hdone kv hkv (by simp), extends_refl _, hL⟩
  | cons p ps ih =>
    obtain ⟨hp, hsorted'⟩ := List.pairwise_cons.1 hsorted
    obtain ⟨e, he⟩ := (mem_mapKeys_iff _ _).1 (hmem p (List.mem_cons_self _ _))
    have ha : ∀ q ∈ ancestors p, s.world.kind (Join s.dst q) = some true := by
      intro q hq
      obtain ⟨eq, heq, hqd⟩ := hS.anc (p, e) he q hq
      have hnot := not_strLe_of_mem_ancestors p q hq
      have := hdone (q, eq) heq (by
        intro hmemq
        rcases List.mem_cons.1 hmemq with h | h
        · simp only at h
          rw [h] at hnot
          exact hnot (le_refl (α := List Char) _)
        · exact hnot (hp q h))
      simpa [hqd] using this
    obtain ⟨b1, b2, b3, b4⟩ := visit_establishes s hS hL p e he ha
    obtain ⟨-, v2, -, v4, -⟩ := visit_spec modelOS s p
    rw [syncLoop_cons, b1]
    simp only [if_true]
    obtain ⟨i1, i2, i3, i4⟩ := ih (visit modelOS s p).1 (by rw [v4]; exact hS) b4 hsorted'
      (by rw [v4]; exact fun q hq => hmem q (List.mem_cons_of_mem _ hq))
      (by
        rw [v4, v2]
        intro kv hkv hnot
        by_cases hk : kv.1 = p
        · have : kv = (p, e) := by
            cases kv; simp only at hk; subst hk
            rw [entry_unique _ hS.nodup _ _ e hkv he]
          rw [this]; exact b2
        · exact b3 _ _ (hdone kv hkv (by simp [hk, hnot])))
    rw [v4, v2] at i2
    exact ⟨i1, i2, extends_trans b3 i3, i4⟩

theorem removeAll_kind_of_not_mem (l : List FullPath) (w : World) (x : FullPath) (h : x ∉ l) :
    (removeAll modelOS l w).kind x = w.kind x := by
  induction l generalizing w with
  | nil => rfl
  | cons fp l ih =>
    rw [removeAll_cons, ih _ (fun hm => h (List.mem_cons_of_mem _ hm))]
    rcases remove_kind w fp x with h' | ⟨h', -⟩
    · exact h'
    · exact absurd (by rw [h']; exact List.mem_cons_self _ _) h

/-! ## Invariants of the apply step at one destination path -/

theorem syncFile_invariant_at (os : OS σ) (P : σ → Prop) (s : Synchronizer σ) (p : String)
    (hP : ApplyInvariantAt os P (Join s.dst p)) (h0 : P s.world) :
    P (syncFile os s p).1.world := by
  obtain ⟨hM, hO, hC, hCp, hCh⟩ := hP
  unfold syncFile
  simp only []
  repeat' split
  all_goals simp only [call_world, emit_world, emit_dst]
  all_goals repeat (first | exact h0 | apply hM | apply hO | apply hC | apply hCp | apply hCh)

theorem visit_invariant_at (os : OS σ) (P : σ → Prop) (s : Synchronizer σ) (p : String)
    (hP : ApplyInvariantAt os P (Join s.dst p)) (h0 : P s.world) :
    P (visit os s p).1.world := by
  rcases visit_world os s p with h | ⟨t, ht, -, -, htd, h⟩
  · rw [h]; exact h0
  · rw [h]
    exact syncFile_invariant_at os P t p (by rw [htd]; exact hP) (by rw [ht]; exact h0)

theorem syncLoop_invariant_at (os : OS σ) (P : σ → Prop) (ps : List String)
    (s : Synchronizer σ) (hP : ∀ p ∈ ps, ApplyInvariantAt os P (Join s.dst p))
    (h0 : P s.world) : P (syncLoop os ps s).1.world := by
  induction ps generalizing s with
  | nil => exact h0
  | cons p ps ih =>
    have hv := visit_invariant_at os P s p (hP p (List.mem_cons_self _ _)) h0
    obtain ⟨-, v2, -⟩ := visit_spec os s p
    rw [syncLoop_cons]
    split
    · exact ih _ (by rw [v2]; exact fun q hq => hP q (List.mem_cons_of_mem _ hq)) hv
    · exact hv

/-- The calls of the apply step for another path leave a file as it is. -/
theorem fileAt_applyInvariantAt (x : FullPath) (n : Node) (d : FullPath) (hx : x ≠ d) :
    ApplyInvariantAt modelOS (fun w => w.FileAt x n) d :=
  ⟨fun m w h => mkdirAll_fileAt d m w x n h,
   fun fp w h => by rw [show (modelOS.Open fp w).2 = w from open_world fp w]; exact h,
   fun w h => create_fileAt d w x n hx h,
   fun c w h => copy_fileAt d c w x n hx h,
   fun a m w h => chtimes_fileAt d a m w x n hx h⟩

theorem newOnlyAt_step (w0 : World) (d : FullPath) (w w' : World) (h : NewOnlyAt w0 d w)
    (hstep : ∀ x, w'.kind x = w.kind x ∨
      (w.kind x = none ∧ x.root = d.root ∧ (x.rel ∈ ancestors d.rel ∨ x.rel = d.rel))) :
    NewOnlyAt w0 d w' := by
  intro x
  rcases hstep x with h1 | ⟨h1, h2, h3⟩
  · rcases h x with h4 | h4
    · exact Or.inl (h1.trans h4)
    · exact Or.inr h4
  · rcases h x with h4 | h4
    · exact Or.inr ⟨by rw [← h4]; exact h1, h2, h3⟩
    · exact Or.inr h4

theorem newOnlyAt_applyInvariantAt (w0 : World) (d : FullPath) :
    ApplyInvariantAt modelOS (NewOnlyAt w0 d) d := by
  refine ⟨?_, ?_, ?_, ?_, ?_⟩
  · intro m w h
    apply newOnlyAt_step w0 d w _ h
    intro x
    rcases mkdirAll_kind d m w x with h1 | ⟨h1, -, h2, h3⟩
    · exact Or.inl h1
    · exact Or.inr ⟨h1, h2, h3⟩
  · intro fp w h
    rw [show (modelOS.Open fp w).2 = w from open_world fp w]; exact h
  · intro w h
    apply newOnlyAt_step w0 d w _ h
    intro x
    rcases create_kind d w x with h1 | ⟨h1, h2, -⟩
    · exact Or.inl h1
    · exact Or.inr ⟨h2, by rw [h1], Or.inr (by rw [h1])⟩
  · intro c w h
    apply newOnlyAt_step w0 d w _ h
    intro x
    exact Or.inl (copy_kind d c w x)
  · intro a m w h
    apply newOnlyAt_step w0 d w _ h
    intro x
    exact Or.inl (chtimes_kind d a m w x)

/-- One iteration of the loop changes the kind of nothing and creates objects only at
its path and at the ancestors of its path, in the destination. -/
theorem visit_new (s : Synchronizer World) (p : String) (x : FullPath) :
    (visit modelOS s p).1.world.kind x = s.world.kind x ∨
      (s.world.kind x = none ∧ x.root = s.dst ∧ (x.rel ∈ ancestors p ∨ x.rel = p)) :=
  visit_invariant_at modelOS (NewOnlyAt s.world (Join s.dst p)) s p
    (newOnlyAt_applyInvariantAt _ _) (fun _ => Or.inl rfl) x

/-- The reconciliation loop changes the kind of nothing and creates objects only at
its paths and at their ancestors, in the destination. -/
theorem syncLoop_new (ps : List String) (s : Synchronizer World) (x : FullPath) :
    (syncLoop modelOS ps s).1.world.kind x = s.world.kind x ∨
      (s.world.kind x = none ∧ x.root = s.dst ∧
        ∃ p ∈ ps, x.rel ∈ ancestors p ∨ x.rel = p) := by
  induction ps generalizing s with
  | nil => exact Or.inl rfl
  | cons p ps ih =>
    obtain ⟨-, v2, -⟩ := visit_spec modelOS s p
    have hv := visit_new s p x
    rw [syncLoop_cons]
    split
    · rcases ih (visit modelOS s p).1 with h | ⟨h1, h2, q, hq, h3⟩
      · rcases hv with h' | ⟨h1', h2', h3'⟩
        · exact Or.inl (h.trans h')
        · exact Or.inr ⟨h1', h2', p, List.mem_cons_self _ _, h3'⟩
      · rcases hv with h' | ⟨h1', h2', h3'⟩
        · exact Or.inr ⟨by rw [← h']; exact h1, by rw [← v2]; exact h2, q,
            List.mem_cons_of_mem _ hq, h3⟩
        · exact Or.inr ⟨h1', h2', p, List.mem_cons_self _ _, h3'⟩
    · rcases hv with h' | ⟨h1', h2', h3'⟩
      · exact Or.inl h'
      · exact Or.inr ⟨h1', h2', p, List.mem_cons_self _ _, h3'⟩

/-- One iteration of the loop leaves the files at other paths as they are. -/
theorem visit_keeps_file (s : Synchronizer World) (p : String) (x : FullPath) (n : Node)
    (hx : x ≠ Join s.dst p) (h : s.world.FileAt x n) : (visit modelOS s p).1.world.FileAt x n :=
  visit_invariant_at modelOS (fun w => w.FileAt x n) s p (fileAt_applyInvariantAt x n _ hx) h

/-- The reconciliation loop leaves as they are the files that are not at one of its
paths in the destination. -/
theorem syncLoop_keeps_file (ps : List String) (s : Synchronizer World) (x : FullPath)
    (n : Node) (hx : ∀ p ∈ ps, x ≠ Join s.dst p) (h : s.world.FileAt x n) :
    (syncLoop modelOS ps s).1.world.FileAt x n :=
  syncLoop_invariant_at modelOS (fun w => w.FileAt x n) ps s
    (fun p hp => fileAt_applyInvariantAt x n _ (hx p hp)) h

theorem removeAll_keeps_file (l : List FullPath) (w : World) (x : FullPath) (n : Node)
    (hx : x ∉ l) (h : w.FileAt x n) : (removeAll modelOS l w).FileAt x n := by
  induction l generalizing w with
  | nil => exact h
  | cons fp l ih =>
    rw [removeAll_cons]
    apply ih _ (fun hm => hx (List.mem_cons_of_mem _ hm))
    exact remove_fileAt fp w x n (fun hxe => hx (by rw [hxe]; exact List.mem_cons_self _ _)) h

/-! ## Files after the first run -/

/-- The world after one iteration of the loop: either the world after an apply step
(a copy, or an overwrite decided by `needsUpdate`), or the world before, when the path
is matched and no update is required. -/
theorem visit_world_cases (os : OS σ) (s : Synchronizer σ) (p : String) :
    (∃ t : Synchronizer σ, t.world = s.world ∧ t.srcFS = s.srcFS ∧ t.src = s.src ∧
      t.dst = s.dst ∧ (visit os s p).1.world = (syncFile os t p).1.world) ∨
    ((visit os s p).1.world = s.world ∧ ∃ d, mapGet s.dstFS p = some d ∧
      ∀ e, mapGet s.srcFS p = some e → updateDecision e d ≠ some true) := by
  cases hd : mapGet s.dstFS p with
  | none =>
    left
    refine ⟨s.emit (Event.Info "copying  %s" p), rfl, rfl, rfl, rfl, ?_⟩
    cases hr : (syncFile os (s.emit (Event.Info "copying  %s" p)) p).2 <;>
      simp [visit, hd, hr]
  | some dstEntry =>
    cases hs : mapGet s.srcFS p with
    | none => right; exact ⟨by simp [visit, hd, hs], dstEntry, rfl, by simp⟩
    | some srcEntry =>
      obtain ⟨hm, hw, -⟩ := needsUpdate_frame s srcEntry dstEntry
      have hdec := needsUpdate_snd s srcEntry dstEntry
      cases hu : (needsUpdate s srcEntry dstEntry).2 with
      | none =>
        right
        refine ⟨by simp [visit, hd, hs, hu, hw], dstEntry, rfl, ?_⟩
        intro e he; cases he; rw [← hdec, hu]; simp
      | some b =>
        cases b with
        | false =>
          right
          refine ⟨by simp [visit, hd, hs, hu, hw], dstEntry, rfl, ?_⟩
          intro e he; cases he; rw [← hdec, hu]; simp
        | true =>
          left
          refine ⟨(needsUpdate s srcEntry dstEntry).1.emit (Event.Info "overwriting  %s" p),
            by simpa using hw, by simpa using hm.2.2.2.1, by simpa using hm.1,
            by simpa using hm.2.1, ?_⟩
          cases hr : (syncFile os ((needsUpdate s srcEntry dstEntry).1.emit
            (Event.Info "overwriting  %s" p)) p).2 <;> simp [visit, hd, hs, hu, hr]

/-- One iteration of the loop leaves a regular file of the source in sync: under the
invariant of the loop, with distinct roots, times stored as given, the ancestors in place, the source file and
its scan entry in agreement, and a matched destination entry that is the entry of the
file in the destination, the destination file has the size of the source file and is
not older. -/
theorem visit_file_insync (s : Synchronizer World) (hS : SourceOK s.srcFS) (hL : LoopInv s)
    (hne : s.src ≠ s.dst) (hex : s.world.Exact) (p : String) (e : DirEntry) (he : (p, e) ∈ s.srcFS)
    (hfile : e.IsDir = false)
    (ha : ∀ q ∈ ancestors p, s.world.kind (Join s.dst q) = some true)
    (sn : Node) (hsn : s.world.FileAt (Join s.src p) sn) (hinfo : e.Info = (some (infoOf sn), none))
    (hdn : ∀ d, mapGet s.dstFS p = some d → d.IsDir = false →
      ∃ dn, d = entryOf dn ∧ s.world.FileAt (Join s.dst p) dn) :
    InSync (visit modelOS s p).1.world s.dst p e := by
  have hget := mapGet_of_mem _ hS.nodup p e he
  rcases visit_world_cases modelOS s p with ⟨t, tw, ts, tsrc, tdst, hw⟩ | ⟨hw, d, hd, hdec⟩
  · obtain ⟨-, -, -, hcontent⟩ := syncFile_file_ok t p e (infoOf sn) (by rw [ts]; exact hget)
      hinfo (by simpa [infoOf] using hsn.2) (by rw [tw]; exact hL.nofault)
      (by rw [tw, tsrc]; exact hL.srcfile (p, e) he hfile)
      (by rw [tw, tdst]; exact ha)
      (by
        rw [tw, tdst]
        rcases hL.compat (p, e) he with h | h
        · rw [h]; simp
        · rw [h]; simp [hfile])
    obtain ⟨mode, hfind⟩ := hcontent (by rw [tsrc, tdst]; exact hne) sn
      (by rw [tw, tsrc]; exact hsn)
    rw [tdst, tw, hex] at hfind
    refine ⟨infoOf sn, ⟨false, sn.size, (infoOf sn).ModTime, mode⟩, by rw [hinfo], ?_, rfl,
      le_refl _⟩
    rw [hw]
    exact ⟨hfind, rfl⟩
  · have hdst := hL.dstscan (p, d) (mem_of_mapGet _ _ _ hd)
    obtain ⟨di, hdi⟩ := Option.isSome_iff_exists.1 hdst.2
    have hsome := updateDecision_of_info e d (infoOf sn) di none d.Info.2 hinfo
      (Prod.ext hdi rfl)
    have hfalse : decide (updateRequiredCode e d (infoOf sn) di) = false := by
      cases hb : decide (updateRequiredCode e d (infoOf sn) di) with
      | false => rfl
      | true => rw [hb] at hsome; exact absurd hsome (hdec e hget)
    have hnot : ¬ updateRequiredCode e d (infoOf sn) di := by simpa using hfalse
    unfold updateRequiredCode at hnot
    simp only [not_or, not_not, not_lt] at hnot
    obtain ⟨h1, -, h3, h4⟩ := hnot
    obtain ⟨dn, hdn1, hdn2⟩ := hdn d hd (by rw [← h1]; exact hfile)
    have hdi' : di = infoOf dn := by
      rw [hdn1] at hdi
      simpa [entryOf] using hdi.symm
    rw [hw]
    refine ⟨infoOf sn, dn, by rw [hinfo], hdn2, ?_, ?_⟩
    · rw [hdi'] at h3; simpa [infoOf] using h3.symm
    · rw [hdi'] at h4; simpa [infoOf] using h4

/-- Induction over the reconciliation loop with a property `J` of the paths that are
left and of the state: when each iteration, made under the invariant of the loop and
with the ancestors of its path in place, carries `J` to the rest of the paths, the
loop carries `J` to the end. -/
theorem syncLoop_induct (J : List String → Synchronizer World → Prop)
    (hstep : ∀ (p : String) (ps : List String) (s : Synchronizer World) (e : DirEntry),
      (p, e) ∈ s.srcFS → SourceOK s.srcFS → LoopInv s →
      (∀ q ∈ ancestors p, s.world.kind (Join s.dst q) = some true) → p ∉ ps →
      J (p :: ps) s → J ps (visit modelOS s p).1)
    (ps : List String) (s : Synchronizer World)
    (hS : SourceOK s.srcFS) (hL : LoopInv s) (hsorted : ps.Pairwise strLe) (hnd : ps.Nodup)
    (hmem : ∀ p ∈ ps, p ∈ mapKeys s.srcFS)
    (hdone : ∀ kv ∈ s.srcFS, kv.1 ∉ ps → s.world.kind (Join s.dst kv.1) = some kv.2.IsDir)
    (hJ : J ps s) : J [] (syncLoop modelOS ps s).1 := by
  induction ps generalizing s with
  | nil => exact hJ
  | cons p ps ih =>
    obtain ⟨hp, hsorted'⟩ := List.pairwise_cons.1 hsorted
    obtain ⟨hpn, hnd'⟩ := List.nodup_cons.1 hnd
    obtain ⟨e, he⟩ := (mem_mapKeys_iff _ _).1 (hmem p (List.mem_cons_self _ _))
    have ha : ∀ q ∈ ancestors p, s.world.kind (Join s.dst q) = some true := by
      intro q hq
      obtain ⟨eq, heq, hqd⟩ := hS.anc (p, e) he q hq
      have hnot := not_strLe_of_mem_ancestors p q hq
      have := hdone (q, eq) heq (by
        intro hmemq
        rcases List.mem_cons.1 hmemq with h | h
        · simp only at h
          rw [h] at hnot
          exact hnot (le_refl (α := List Char) _)
        · exact hnot (hp q h))
      simpa [hqd] using this
    obtain ⟨b1, b2, b3, b4⟩ := visit_establishes s hS hL p e he ha
    obtain ⟨-, v2, -, v4, -⟩ := visit_spec modelOS s p
    rw [syncLoop_cons, b1]
    simp only [if_true]
    apply ih (visit modelOS s p).1 (by rw [v4]; exact hS) b4 hsorted' hnd'
      (by rw [v4]; exact fun q hq => hmem q (List.mem_cons_of_mem _ hq))
    · rw [v4, v2]
      intro kv hkv hnot
      by_cases hk : kv.1 = p
      · have : kv = (p, e) := by
          cases kv; simp only at hk; subst hk
          rw [entry_unique _ hS.nodup _ _ e hkv he]
        rw [this]; exact b2
      · exact b3 _ _ (hdone kv hkv (by simp [hk, hnot]))
    · exact hstep p ps s e he hS hL ha hpn hJ

/-- The deletion pass on the model: when the working set has distinct keys, its flags
agree with the objects that exist, every object beneath one of its directories is one
of its keys and no call fails from outside, removing its paths in the order of
`purgeMissing` leaves none of them. -/
theorem removeAll_purgeOrder_gone (dst : String) (m : ScanResult) (w : World)
    (hnd : (mapKeys m).Nodup)
    (hflag : ∀ kv ∈ m, w.kind (Join dst kv.1) = none ∨ w.kind (Join dst kv.1) = some kv.2.IsDir)
    (hclosed : ∀ kv ∈ m, kv.2.IsDir = true → ∀ xn ∈ w.nodes,
      xn.1.root = dst → kv.1 ∈ ancestors xn.1.rel → xn.1.rel ∈ mapKeys m)
    (hf : w.NoFault) :
    ∀ k ∈ mapKeys m, (removeAll modelOS ((purgeOrder m).map (Join dst)) w).kind (Join dst k)
      = none := by
  have hord : purgeOrder m = fileKeys m ++ (sortStrings (dirKeys m)).reverse := by
    rw [purgeOrder, remainingKeys_eq_dirKeys _ hnd]
  rw [hord, List.map_append, removeAll_append]
  have hfiles := removeAll_files_gone dst (fileKeys m) w hf (by
    intro f hfm
    obtain ⟨e, he, hed⟩ := (mem_fileKeys_iff _ _).1 hfm
    rcases hflag (f, e) he with h | h
    · rw [h]; simp
    · rw [h, hed]; simp)
  generalize hw1 : removeAll modelOS ((fileKeys m).map (Join dst)) w = w1 at hfiles
  have hf1 : w1.NoFault := by
    intro e; rw [← hw1, removeAll_fault]; exact hf e
  have hk1 : ∀ x, w1.kind x = w.kind x ∨ w1.kind x = none := by
    intro x; rw [← hw1]; exact removeAll_kind _ _ x
  have hdirs := removeAll_dirs_gone dst (sortStrings (dirKeys m)).reverse w1 hf1
    (reverse_sortStrings_sorted _) (by
    intro d hd x hx1 hx2 hx3
    rw [List.mem_reverse, mem_sortStrings] at hd ⊢
    obtain ⟨e, he, hed⟩ := (mem_dirKeys_iff _ _).1 hd
    have hx0 : w.kind x ≠ none := by
      rcases hk1 x with h | h
      · rw [← h]; exact hx1
      · exact absurd h hx1
    obtain ⟨n, hn⟩ : ∃ n, w.find x = some n := by
      rw [Ne, kind_eq_none_iff] at hx0
      exact Option.ne_none_iff_exists'.1 hx0
    have hkey := hclosed (d, e) he hed (x, n) (mem_of_find _ _ _ hn) hx2 hx3
    obtain ⟨e', he'⟩ := (mem_mapKeys_iff _ _).1 hkey
    cases hd' : e'.IsDir with
    | true => exact (mem_dirKeys_iff _ _).2 ⟨e', he', hd'⟩
    | false =>
      have := hfiles x.rel ((mem_fileKeys_iff _ _).2 ⟨e', he', hd'⟩)
      rw [← eq_join_of_root_rel x dst x.rel hx2 rfl] at this
      exact absurd this hx1)
  intro k hk
  obtain ⟨e, he⟩ := (mem_mapKeys_iff _ _).1 hk
  cases hd : e.IsDir with
  | true =>
    exact hdirs k (List.mem_reverse.2 ((mem_sortStrings _ _).2 ((mem_dirKeys_iff _ _).2 ⟨e, he, hd⟩)))
  | false =>
    have h1 := hfiles k ((mem_fileKeys_iff _ _).2 ⟨e, he, hd⟩)
    rcases removeAll_kind ((sortStrings (dirKeys m)).reverse.map (Join dst)) w1
      (Join dst k) with h | h
    · exact h.trans h1
    · exact h

theorem join_ne_of_root_ne (a b p q : String) (h : a ≠ b) : Join a p ≠ Join b q := by
  intro he; apply h; simpa [Join] using congrArg FullPath.root he

theorem join_ne_of_rel_ne (a p q : String) (h : p ≠ q) : Join a p ≠ Join a q := by
  intro he; apply h; simpa [Join] using he

theorem filesInv_step (p : String) (ps : List String) (s : Synchronizer World) (e : DirEntry)
    (he : (p, e) ∈ s.srcFS) (hS : SourceOK s.srcFS) (hL : LoopInv s)
    (ha : ∀ q ∈ ancestors p, s.world.kind (Join s.dst q) = some true) (hp : p ∉ ps)
    (hJ : FilesInv (p :: ps) s) : FilesInv ps (visit modelOS s p).1 := by
  obtain ⟨j0, jx, j1, j2, j3⟩ := hJ
  obtain ⟨b1, -, -, -⟩ := visit_establishes s hS hL p e he ha
  obtain ⟨v1, v2, -, v4, v5, -⟩ := visit_spec modelOS s p
  have v5 := v5 b1
  have hst : (visit modelOS s p).1.world.stamp = s.world.stamp :=
    visit_invariant modelOS (fun w => w.stamp = s.world.stamp)
      (stamp_applyInvariant _) s p rfl
  refine ⟨by rw [v1, v2]; exact j0, fun t => by rw [hst]; exact jx t, ?_, ?_, ?_⟩
  · rw [v4, v1]
    intro kv hkv hd
    obtain ⟨sn, h1, h2⟩ := j1 kv hkv hd
    exact ⟨sn, visit_keeps_file s p _ sn (join_ne_of_root_ne _ _ _ _ j0) h1, h2⟩
  · rw [v5, v2]
    intro q hq d hd hdd
    have hqp : q ≠ p := fun h => hp (h ▸ hq)
    rw [mapGet_mapDelete] at hd
    simp only [hqp, if_false] at hd
    obtain ⟨dn, h1, h2⟩ := j2 q (List.mem_cons_of_mem _ hq) d hd hdd
    exact ⟨dn, h1, visit_keeps_file s p _ dn (join_ne_of_rel_ne _ _ _ hqp) h2⟩
  · rw [v4, v2]
    intro kv hkv hd hnot
    by_cases hk : kv.1 = p
    · have hkv' : kv = (p, e) := by
        cases kv; simp only at hk; subst hk
        rw [entry_unique _ hS.nodup _ _ e hkv he]
      subst hkv'
      obtain ⟨sn, h1, h2⟩ := j1 (p, e) he hd
      exact visit_file_insync s hS hL j0 jx p e he hd ha sn h1 h2
        (fun d hd' hdd => j2 p (List.mem_cons_self _ _) d hd' hdd)
    · obtain ⟨fi, n, h1, h2, h3, h4⟩ := j3 kv hkv hd (by simp [hk, hnot])
      exact ⟨fi, n, h1, visit_keeps_file s p _ n (join_ne_of_rel_ne _ _ _ hk) h2, h3, h4⟩

/-! ## The trees after the first run -/

/-- An entry of an accurate scan is the entry of the object at its path. -/
theorem scan_entry {w : World} {root : String} {m : ScanResult} (h : IsScan w root m)
    (kv : String × DirEntry) (hkv : kv ∈ m) :
    ∃ n, w.find ⟨root, kv.1⟩ = some n ∧ kv.2 = entryOf n := by
  have := h.2.1 kv hkv
  cases hn : w.find ⟨root, kv.1⟩ with
  | none => rw [hn] at this; simp at this
  | some n => rw [hn] at this; exact ⟨n, rfl, by simpa using this.symm⟩

/-- An object of the tree has a key in an accurate scan. -/
theorem scan_complete {w : World} {root : String} {m : ScanResult} (h : IsScan w root m)
    (k : String) (hk : w.kind (Join root k) ≠ none) : k ∈ mapKeys m := by
  obtain ⟨n, hn⟩ : ∃ n, w.find (Join root k) = some n := by
    rw [Ne, kind_eq_none_iff] at hk
    exact Option.ne_none_iff_exists'.1 hk
  exact h.2.2 (Join root k, n) (mem_of_find _ _ _ hn) rfl

theorem scan_statusPresent {w : World} {root : String} {m : ScanResult} (h : IsScan w root m) :
    StatusPresent m := by
  intro kv hkv
  obtain ⟨n, -, hn⟩ := scan_entry h kv hkv
  rw [hn]; rfl

theorem firstRun_anc {s : Synchronizer World} (h : FirstRun s) (kv : String × DirEntry)
    (hkv : kv ∈ s.srcFS) (q : String) (hq : q ∈ ancestors kv.1) :
    ∃ e, (q, e) ∈ s.srcFS ∧ e.IsDir = true := by
  have := h.anc kv hkv q hq
  cases hg : mapGet s.srcFS q with
  | none => rw [hg] at this; simp at this
  | some e =>
    rw [hg] at this
    exact ⟨e, mem_of_mapGet _ _ _ hg, by simpa using this⟩

theorem firstRun_sourceOK {s : Synchronizer World} (h : FirstRun s) : SourceOK s.srcFS := by
  refine ⟨h.srcScan.1, ?_, firstRun_anc h⟩
  intro kv hkv
  obtain ⟨n, -, hn⟩ := scan_entry h.srcScan kv hkv
  exact ⟨infoOf n, by rw [hn]; rfl, by rw [hn]; rfl⟩

theorem firstRun_loopInv {s : Synchronizer World} (h : FirstRun s) : LoopInv s := by
  refine ⟨h.nofault, h.compat, ?_, ?_⟩
  · intro kv hkv hd
    obtain ⟨n, hf, hn⟩ := scan_entry h.srcScan kv hkv
    rw [show Join s.src kv.1 = ⟨s.src, kv.1⟩ from rfl, kind_of_find hf]
    rw [hn] at hd
    exact congrArg some hd
  · intro kv hkv
    obtain ⟨n, hf, hn⟩ := scan_entry h.dstScan kv hkv
    refine ⟨?_, by rw [hn]; rfl⟩
    rw [show Join s.dst kv.1 = ⟨s.dst, kv.1⟩ from rfl, kind_of_find hf, hn]
    rfl

theorem firstRun_filesInv {s : Synchronizer World} (h : FirstRun s) :
    FilesInv (sortedPaths s.srcFS) s := by
  refine ⟨rootsApart_ne h.roots, h.exactTimes, ?_, ?_, ?_⟩
  · intro kv hkv hd
    obtain ⟨n, hf, hn⟩ := scan_entry h.srcScan kv hkv
    refine ⟨n, ⟨hf, ?_⟩, by rw [hn]; rfl⟩
    rw [hn] at hd; exact hd
  · intro p _ d hd hdd
    obtain ⟨n, hf, hn⟩ := scan_entry h.dstScan (p, d) (mem_of_mapGet _ _ _ hd)
    simp only at hf hn
    refine ⟨n, hn, ⟨hf, ?_⟩⟩
    rw [hn] at hdd; exact hdd
  · intro kv hkv _ hnot
    exact absurd ((mem_sortedPaths _ _).2 (List.mem_map_of_mem _ hkv)) hnot

/-- The source keys are closed under ancestors, so an ancestor of a source key, or a
source key, is a source key. -/
theorem mem_keys_of_ancestor {s : Synchronizer World} (h : FirstRun s) (p k : String)
    (hp : p ∈ mapKeys s.srcFS) (hk : k ∈ ancestors p ∨ k = p) : k ∈ mapKeys s.srcFS := by
  rcases hk with hk | rfl
  · obtain ⟨e, he⟩ := (mem_mapKeys_iff _ _).1 hp
    obtain ⟨e', he', -⟩ := firstRun_anc h (p, e) he k hk
    exact (mem_mapKeys_iff _ _).2 ⟨e', he'⟩
  · exact hp

/-- The trees after the first run: the run does not panic; every source path exists in
the destination with the kind of its entry; every regular file of the source is in sync
in the destination and unchanged in the source; with deletion enabled every object of
the destination tree is at a source path; and the source tree has the objects it
had. -/
theorem firstRun_facts (s : Synchronizer World) (h : FirstRun s) :
    (processSync modelOS s).2 = true ∧
    (∀ kv ∈ s.srcFS, (processSync modelOS s).1.world.kind (Join s.dst kv.1) = some kv.2.IsDir) ∧
    (∀ kv ∈ s.srcFS, kv.2.IsDir = false →
      InSync (processSync modelOS s).1.world s.dst kv.1 kv.2 ∧
      ∃ sn, (processSync modelOS s).1.world.FileAt (Join s.src kv.1) sn ∧
        kv.2.Info = (some (infoOf sn), none)) ∧
    (s.deleteMissing = true → ∀ x, x.root = s.dst →
      (processSync modelOS s).1.world.kind x ≠ none → x.rel ∈ mapKeys s.srcFS) ∧
    (∀ x, x.root = s.src → (processSync modelOS s).1.world.kind x = s.world.kind x) := by
  have hS := firstRun_sourceOK h
  have hL := firstRun_loopInv h
  have hsorted := sortStrings_sorted (mapKeys s.srcFS)
  have hnd := sortStrings_nodup _ hS.nodup
  have hmem : ∀ p ∈ sortedPaths s.srcFS, p ∈ mapKeys s.srcFS :=
    fun p hp => (mem_sortedPaths _ _).1 hp
  have hdone : ∀ kv ∈ s.srcFS, kv.1 ∉ sortedPaths s.srcFS →
      s.world.kind (Join s.dst kv.1) = some kv.2.IsDir :=
    fun kv hkv hnot => absurd ((mem_sortedPaths _ _).2 (List.mem_map_of_mem _ hkv)) hnot
  obtain ⟨l1, l2, -, l4⟩ := syncLoop_establishes (sortedPaths s.srcFS) s hS hL hsorted hmem hdone
  have hfiles := syncLoop_induct FilesInv filesInv_step (sortedPaths s.srcFS) s hS hL hsorted
    hnd hmem hdone (firstRun_filesInv h)
  have hnew := syncLoop_new (sortedPaths s.srcFS) s
  obtain ⟨f1, f2, -, f4, f5, -⟩ := syncLoop_frame modelOS (sortedPaths s.srcFS) s
  have hrem := syncLoop_remaining_keys modelOS s l1
  obtain ⟨-, -, j1, -, j3⟩ := hfiles
  have j0 := rootsApart_ne h.roots
  rw [f4, f2] at j3
  rw [f4, f1] at j1
  -- objects of the destination tree after the loop
  have hobj : ∀ x, x.root = s.dst → (syncLoop modelOS (sortedPaths s.srcFS) s).1.world.kind x ≠ none →
      x.rel ∈ mapKeys s.srcFS ∨ x.rel ∈ mapKeys s.dstFS := by
    intro x hx hk
    rcases hnew x with h1 | ⟨-, -, p, hp, hpx⟩
    · right
      rw [h1] at hk
      rw [eq_join_of_root_rel x s.dst x.rel hx rfl] at hk
      exact scan_complete h.dstScan _ hk
    · left
      exact mem_keys_of_ancestor h p _ (hmem p hp) hpx
  have hsrcsame : ∀ x, x.root = s.src →
      (syncLoop modelOS (sortedPaths s.srcFS) s).1.world.kind x = s.world.kind x := by
    intro x hx
    rcases hnew x with h1 | ⟨-, h2, -⟩
    · exact h1
    · exact absurd (hx.symm.trans h2) j0
  rcases processSync_cases modelOS s with ⟨hp, -⟩ | ⟨-, hno, hp⟩ | ⟨-, hdm, -, hp⟩
  · rw [l1] at hp; cases hp
  · rw [hp]
    refine ⟨rfl, l2, ?_, ?_, hsrcsame⟩
    · intro kv hkv hd
      refine ⟨j3 kv hkv hd (by simp), ?_⟩
      exact j1 kv hkv hd
    · intro hdm x hx hk
      have hempty : (syncLoop modelOS (sortedPaths s.srcFS) s).1.dstFS = [] := by
        by_contra hne
        exact hno ⟨hdm, hne⟩
      rcases hobj x hx hk with h1 | h1
      · exact h1
      · by_contra hnot
        have := (hrem x.rel).2 ⟨h1, hnot⟩
        rw [hempty] at this
        simp [mapKeys] at this
  · rw [hp]
    obtain ⟨-, -, -, hw, -⟩ := purgeMissing_spec modelOS (syncLoop modelOS (sortedPaths s.srcFS) s).1
    have hlist : ∀ x, x ∈ (purgeOrder (syncLoop modelOS (sortedPaths s.srcFS) s).1.dstFS).map
        (Join (syncLoop modelOS (sortedPaths s.srcFS) s).1.dst) →
        x.root = s.dst ∧ x.rel ∈ mapKeys s.dstFS ∧ x.rel ∉ mapKeys s.srcFS := by
      intro x hx
      obtain ⟨k, hk, rfl⟩ := List.mem_map.1 hx
      have := (hrem k).1 (mem_purgeOrder _ _ hk)
      exact ⟨f2, this.1, this.2⟩
    simp only
    rw [hw]
    refine ⟨trivial, ?_, ?_, ?_, ?_⟩
    · intro kv hkv
      rw [removeAll_kind_of_not_mem _ _ _ ?_]
      · exact l2 kv hkv
      · intro hm
        exact (hlist _ hm).2.2 (List.mem_map_of_mem _ hkv)
    · intro kv hkv hd
      obtain ⟨fi, n, h1, h2, h3, h4⟩ := j3 kv hkv hd (by simp)
      obtain ⟨sn, h5, h6⟩ := j1 kv hkv hd
      refine ⟨⟨fi, n, h1, removeAll_keeps_file _ _ _ n ?_ h2, h3, h4⟩,
        sn, removeAll_keeps_file _ _ _ sn ?_ h5, h6⟩
      · intro hm
        exact (hlist _ hm).2.2 (List.mem_map_of_mem _ hkv)
      · intro hm
        have := (hlist _ hm).1
        simp only [Join] at this
        exact j0 this
    · intro _ x hx hk
      have hk' : (syncLoop modelOS (sortedPaths s.srcFS) s).1.world.kind x ≠ none := by
        rcases removeAll_kind _ (syncLoop modelOS (sortedPaths s.srcFS) s).1.world x with h1 | h1
        · rw [← h1]; exact hk
        · exact absurd h1 hk
      rcases hobj x hx hk' with h1 | h1
      · exact h1
      · by_contra hnot
        have hkey := (hrem x.rel).2 ⟨h1, hnot⟩
        have hgone := removeAll_purgeOrder_gone s.dst
          (syncLoop modelOS (sortedPaths s.srcFS) s).1.dstFS
          (syncLoop modelOS (sortedPaths s.srcFS) s).1.world
          (by
            rw [f5 l1]
            exact (h.dstScan.1).sublist (List.Sublist.map _ (List.filter_sublist _)))
          (by
            intro kv hkv
            right
            have := (l4.dstscan kv hkv).1
            rw [f2] at this
            exact this)
          (by
            intro kv hkv hd xn hxn hroot hanc
            have hxk : (syncLoop modelOS (sortedPaths s.srcFS) s).1.world.kind xn.1 ≠ none := by
              have := find_isSome_of_mem _ xn hxn
              rw [Ne, kind_eq_none_iff]
              intro hnone; rw [hnone] at this; simp at this
            have hkvkey := (hrem kv.1).1 (List.mem_map_of_mem _ hkv)
            rcases hobj xn.1 hroot hxk with h2 | h2
            · exact absurd (mem_keys_of_ancestor h _ _ h2 (Or.inl hanc)) hkvkey.2
            · apply (hrem xn.1.rel).2
              refine ⟨h2, ?_⟩
              intro h3
              exact hkvkey.2 (mem_keys_of_ancestor h _ _ h3 (Or.inl hanc)))
          l4.nofault x.rel hkey
        rw [← eq_join_of_root_rel x s.dst x.rel hx rfl] at hgone
        rw [f2] at hk
        exact hk hgone
    · intro x hx
      rw [removeAll_kind_of_not_mem _ _ _ ?_]
      · exact hsrcsame x hx
      · intro hm
        exact j0 (hx.symm.trans (hlist _ hm).1)

theorem entryOf_isDir (n : Node) : (entryOf n).IsDir = n.isDir := rfl

/-- Two regular files of the same size, the first not modified after the second: no
update is required. -/
theorem updateDecision_entryOf_insync (a b : Node) (ha : a.isDir = false) (hb : b.isDir = false)
    (hsize : b.size = a.size) (htime : a.mtime ≤ b.mtime) :
    updateDecision (entryOf a) (entryOf b) = some false := by
  rw [updateDecision_of_info (entryOf a) (entryOf b) (infoOf a) (infoOf b) none none rfl rfl]
  congr 1
  simp only [decide_eq_false_iff_not]
  unfold updateRequiredCode
  simp only [entryOf, infoOf, ha, hb, hsize]
  simp [not_lt.2 htime]

/-- Where the file system stores times less precisely than it is given them, the file
that the first run copied is overwritten by the second run. -/
theorem coarse_times_overwrite_again :
    applyLog (Run coarseState).1.trace =
      [Event.Info "copying  %s" "f", Event.syncFile "f"] ∧
    (Run coarseState).1.world.find ⟨"dst", "f"⟩ = some ⟨false, 8, 10, 420⟩ ∧
    applyLog (rerun coarseState).1.trace =
      [Event.Info "overwriting  %s" "f", Event.syncFile "f"] := by
  decide

/-! # Properties of the specification -/

/-! ## C1: one apply step per source path -/

/-- C1, the code at the failing input: the source scan has the regular files `a`, `b`
and `c`, the destination scan has `b` with an `Info()` that returns a nil status.  The
step planned for `c` is a copy, but `processSync` copies `a`, panics in `needsUpdate`
at `b` and never reaches `c`: `syncFile` is entered for `a` alone. -/
theorem processSync_stops_at_failed_info (os : OS σ) (w : σ) :
    sortedPaths [("c", fileEntry), ("a", fileEntry), ("b", fileEntry)] = ["a", "b", "c"] ∧
    plannedStep [("c", fileEntry), ("a", fileEntry), ("b", fileEntry)] [("b", staleEntry)] "c" =
      [Event.Info "copying  %s" "c", Event.syncFile "c"] ∧
    (processSync os ⟨"src", "dst", false, [("c", fileEntry), ("a", fileEntry), ("b", fileEntry)],
      [("b", staleEntry)], w, []⟩).2 = false ∧
    applyLog (processSync os ⟨"src", "dst", false,
      [("c", fileEntry), ("a", fileEntry), ("b", fileEntry)],
      [("b", staleEntry)], w, []⟩).1.trace =
      [Event.Info "copying  %s" "a", Event.syncFile "a"] := by
  have hsort : sortedPaths [("c", fileEntry), ("a", fileEntry), ("b", fileEntry)] =
      ["a", "b", "c"] := by decide
  refine ⟨hsort, by decide, ?_⟩
  generalize hs0 : (⟨"src", "dst", false, [("c", fileEntry), ("a", fileEntry), ("b", fileEntry)],
      [("b", staleEntry)], w, []⟩ : Synchronizer σ) = s0
  have hsrc : s0.srcFS = [("c", fileEntry), ("a", fileEntry), ("b", fileEntry)] := by
    rw [← hs0]
  have hdst : s0.dstFS = [("b", staleEntry)] := by rw [← hs0]
  have htr : s0.trace = [] := by rw [← hs0]
  have ha : (visit os s0 "a").2 = true := by
    apply visit_completes_of_entries os s0 "a" fileEntry
    · rw [hsrc]; decide
    · rfl
    · intro d hd
      rw [hdst] at hd
      have : mapGet [("b", staleEntry)] "a" = none := by decide
      rw [this] at hd
      cases hd
  obtain ⟨-, -, -, v4, v5, t, vt, -, -, va⟩ := visit_spec os s0 "a"
  have va := va ha
  have v5 := v5 ha
  rw [hsrc, hdst] at va
  rw [hsrc] at v4
  rw [hdst] at v5
  have hplan : plannedStep [("c", fileEntry), ("a", fileEntry), ("b", fileEntry)]
      [("b", staleEntry)] "a" = [Event.Info "copying  %s" "a", Event.syncFile "a"] := by decide
  have hdel : mapDelete [("b", staleEntry)] "a" = [("b", staleEntry)] := by decide
  rw [hplan] at va
  rw [hdel] at v5
  have hb2 : mapGet (visit os s0 "a").1.dstFS "b" = some staleEntry := by rw [v5]; decide
  have hb1 : mapGet (visit os s0 "a").1.srcFS "b" = some fileEntry := by rw [v4]; decide
  generalize hs1 : (visit os s0 "a").1 = s1 at *
  have hvb : visit os s1 "b" =
      (s1.emit
        (Event.Error "failed to read destination file info: %s"
          "no such file or directory"), false) := by
    simp [visit, hb1, hb2, needsUpdate, fileEntry, staleEntry, Synchronizer.logIfErr]
  have hloop : syncLoop os ["a", "b", "c"] s0 =
      (s1.emit
        (Event.Error "failed to read destination file info: %s"
          "no such file or directory"), false) := by
    rw [syncLoop_cons, ha]
    simp only [if_true]
    rw [hs1, syncLoop_cons, hvb]
    simp
  have hps : processSync os s0 =
      (s1.emit
        (Event.Error "failed to read destination file info: %s"
          "no such file or directory"), false) := by
    unfold processSync
    rw [hsrc, hsort, hloop]
  rw [hps]
  refine ⟨rfl, ?_⟩
  simp only [emit_trace, vt, htr, List.nil_append, applyLog_append, va]
  simp [applyLog, isApplyEvent]

/-! ## C2: the update decision -/

/-- C2, with the size test applied to directories as well: when both status reads
succeed, `needsUpdate` returns `true` exactly when directory-ness differs, or the type differs, or the sizes differ
(directories included), or the source was modified strictly after the destination;
with equal directory-ness, type and size and a source not modified after the
destination it returns `false`. -/
theorem needsUpdate_iff_criterion (st : Synchronizer σ) (s d : DirEntry) (si di : FileInfo)
    (hs : s.Info = (some si, none)) (hd : d.Info = (some di, none)) :
    (∃ b, (needsUpdate st s d).2 = some b ∧ (b = true ↔ updateRequiredCode s d si di)) ∧
    (s.IsDir = d.IsDir → s.Typ = d.Typ → si.Size = di.Size → si.ModTime ≤ di.ModTime →
      (needsUpdate st s d).2 = some false) := by
  rw [needsUpdate_snd, updateDecision_of_info s d si di none none hs hd]
  refine ⟨⟨_, rfl, by simp⟩, ?_⟩
  intro h1 h2 h3 h4
  simp [updateRequiredCode, h1, h2, h3, h4]

/-- C2, witness: two regular files of equal size and modification time. -/
theorem needsUpdate_iff_criterion_witness :
    (∃ b, (needsUpdate (bare [] [] false) fileEntry fileEntry).2 = some b ∧
      (b = true ↔ updateRequiredCode fileEntry fileEntry ⟨8, 10, false, 420⟩ ⟨8, 10, false, 420⟩)) ∧
    (fileEntry.IsDir = fileEntry.IsDir → fileEntry.Typ = fileEntry.Typ →
      (8 : Int) = 8 → (10 : Int) ≤ 10 →
      (needsUpdate (bare [] [] false) fileEntry fileEntry).2 = some false) :=
  needsUpdate_iff_criterion (bare [] [] false) fileEntry fileEntry
    ⟨8, 10, false, 420⟩ ⟨8, 10, false, 420⟩ rfl rfl

/-- C2, counterexample: two directories of the same type and modification time whose
sizes differ.  Both status reads succeed and the criterion of the specification does
not hold (directories are exempt from its size test), yet `needsUpdate` returns
`true`. -/
theorem needsUpdate_directory_size_counterexample :
    dirEntrySmall.Info = (some ⟨4096, 10, true, 493⟩, none) ∧
    dirEntryLarge.Info = (some ⟨8192, 10, true, 493⟩, none) ∧
    (needsUpdate (bare [] [] false) dirEntrySmall dirEntryLarge).2 = some true ∧
    ¬ updateRequiredSpec dirEntrySmall dirEntryLarge
        ⟨4096, 10, true, 493⟩ ⟨8192, 10, true, 493⟩ := by
  refine ⟨rfl, rfl, by decide, by decide⟩

/-! ## C3: a directory comes before its descendants -/

/-- C3: when `q` and its descendant `q/r` are both keys of the source scan, `q` comes
before `q/r` in the sorted path list of `processSync` and never after it, and
`processSync` never enters `syncFile` for `q/r` before it enters it for `q`.  This
holds for every remainder `r`, the non-empty ones included. -/
theorem ancestor_sorted_before_descendant (os : OS σ) (s : Synchronizer σ) (q r : String)
    (hq : q ∈ mapKeys s.srcFS) (hp : q ++ "/" ++ r ∈ mapKeys s.srcFS) :
    [q, q ++ "/" ++ r].Sublist (sortedPaths s.srcFS) ∧
    ¬ [q ++ "/" ++ r, q].Sublist (sortedPaths s.srcFS) ∧
    ¬ [q ++ "/" ++ r, q].Sublist (syncedPaths (newEvents s (processSync os s).1)) := by
  have hsorted := sortStrings_sorted (mapKeys s.srcFS)
  have hlt := not_strLe_descendant q r
  refine ⟨sublist_pair_of_sorted _ hsorted q _ ((mem_sortedPaths _ _).2 hq)
    ((mem_sortedPaths _ _).2 hp) hlt, not_sublist_pair_of_sorted _ hsorted q _ hlt, ?_⟩
  obtain ⟨t, u, htr, -, -, hs, hu, -⟩ := processSync_trace os s
  rw [newEvents_eq s _ _ htr, syncedPaths_append, syncedPaths_of_purgeEvents u hu,
    List.append_nil]
  intro h
  exact not_sublist_pair_of_sorted _ hsorted q _ hlt (h.trans hs)

/-- C3, witness: the scan lists the file `a/b` before its directory `a`. -/
theorem ancestor_sorted_before_descendant_witness :
    "a" ∈ mapKeys (bare [("a/b", fileEntry), ("a", dirEntrySmall)] [] false).srcFS ∧
    "a" ++ "/" ++ "b" ∈ mapKeys (bare [("a/b", fileEntry), ("a", dirEntrySmall)] [] false).srcFS ∧
    [("a" : String), "a" ++ "/" ++ "b"].Sublist
      (sortedPaths (bare [("a/b", fileEntry), ("a", dirEntrySmall)] [] false).srcFS) :=
  ⟨by decide, by decide,
    (ancestor_sorted_before_descendant nullOS
      (bare [("a/b", fileEntry), ("a", dirEntrySmall)] [] false) "a" "b"
      (by decide) (by decide)).1⟩

/-! ## C4: what the loop leaves in the destination scan -/

/-- C4: when the reconciliation loop has run over all source paths, the source scan is
unchanged, the keys of the destination scan are the initial keys that are not keys of
the source scan, each of them maps to its initial entry, and every path handed to
`os.Remove` by `processSync` is the join of the destination root with such a key. -/
theorem syncLoop_leaves_destination_only (os : OS σ) (s : Synchronizer σ)
    (hc : (syncLoop os (sortedPaths s.srcFS) s).2 = true) :
    (syncLoop os (sortedPaths s.srcFS) s).1.srcFS = s.srcFS ∧
    (∀ k, k ∈ mapKeys (syncLoop os (sortedPaths s.srcFS) s).1.dstFS ↔
      k ∈ mapKeys s.dstFS ∧ k ∉ mapKeys s.srcFS) ∧
    (∀ k, k ∈ mapKeys (syncLoop os (sortedPaths s.srcFS) s).1.dstFS →
      mapGet (syncLoop os (sortedPaths s.srcFS) s).1.dstFS k = mapGet s.dstFS k) ∧
    (∀ fp ∈ removes (newEvents s (processSync os s).1),
      ∃ k, fp = Join s.dst k ∧ k ∈ mapKeys s.dstFS ∧ k ∉ mapKeys s.srcFS) := by
  obtain ⟨-, l2, -, l4, l5, -⟩ := syncLoop_frame os (sortedPaths s.srcFS) s
  have hd := l5 hc
  have hkeys : ∀ k, k ∈ mapKeys (syncLoop os (sortedPaths s.srcFS) s).1.dstFS ↔
      k ∈ mapKeys s.dstFS ∧ k ∉ mapKeys s.srcFS := by
    intro k
    rw [hd, mapKeys_filter_key s.dstFS (fun k => decide (k ∉ sortedPaths s.srcFS)) k]
    simp [mem_sortedPaths]
  refine ⟨l4, hkeys, ?_, ?_⟩
  · intro k hk
    rw [hd, mapGet_filter_key s.dstFS (fun k => decide (k ∉ sortedPaths s.srcFS)) k]
    have := ((hkeys k).1 hk).2
    simp [mem_sortedPaths, this]
  · obtain ⟨t, u, htr, hlt, hl, -, -, hu⟩ := processSync_trace os s
    rw [newEvents_eq s _ _ htr, removes_append, removes_of_loopEvents t hl, List.nil_append]
    rcases hu with rfl | ⟨-, -, -, -, hpt⟩
    · simp [removes]
    · obtain ⟨-, -, -, -, t', ht', hr'⟩ :=
        purgeMissing_spec os (syncLoop os (sortedPaths s.srcFS) s).1
      have : u = Event.purgeMissing :: t' := List.append_cancel_left (hpt.symm.trans ht')
      subst this
      intro fp hfp
      have hfp' : fp ∈ removes t' := by simpa [removes] using hfp
      rw [hr'] at hfp'
      obtain ⟨k, hk, rfl⟩ := List.mem_map.1 hfp'
      exact ⟨k, by rw [l2], (hkeys k).1 (mem_purgeOrder _ _ hk)⟩

/-- C4, witness: source `a`, `b`; destination `b`, `x`; the loop leaves `x`. -/
theorem syncLoop_leaves_destination_only_witness :
    (syncLoop nullOS (sortedPaths (bare [("b", fileEntry), ("a", fileEntry)]
      [("x", fileEntry), ("b", fileEntry)] true).srcFS)
      (bare [("b", fileEntry), ("a", fileEntry)] [("x", fileEntry), ("b", fileEntry)] true)).2
      = true ∧
    ∀ k, k ∈ mapKeys (syncLoop nullOS (sortedPaths (bare [("b", fileEntry), ("a", fileEntry)]
        [("x", fileEntry), ("b", fileEntry)] true).srcFS)
        (bare [("b", fileEntry), ("a", fileEntry)]
          [("x", fileEntry), ("b", fileEntry)] true)).1.dstFS ↔
      k ∈ mapKeys (bare [("b", fileEntry), ("a", fileEntry)]
        [("x", fileEntry), ("b", fileEntry)] true).dstFS ∧
      k ∉ mapKeys (bare [("b", fileEntry), ("a", fileEntry)]
        [("x", fileEntry), ("b", fileEntry)] true).srcFS :=
  ⟨by decide, (syncLoop_leaves_destination_only nullOS
    (bare [("b", fileEntry), ("a", fileEntry)] [("x", fileEntry), ("b", fileEntry)] true)
    (by decide)).2.1⟩

/-! ## C5: the order of the deletion pass -/

/-- C5: for a destination scan with distinct keys, the paths handed to `os.Remove` by
`purgeMissing` are a permutation of the joined keys, without repetition; they are the
non-directories in iteration order followed by the directories in descending order;
every non-directory comes before every directory, and a directory that is a descendant
of another directory comes before it. -/
theorem purgeMissing_remove_order (os : OS σ) (s : Synchronizer σ)
    (hnd : (mapKeys s.dstFS).Nodup) :
    (removes (newEvents s (purgeMissing os s))).Perm ((mapKeys s.dstFS).map (Join s.dst)) ∧
    (removes (newEvents s (purgeMissing os s))).Nodup ∧
    removes (newEvents s (purgeMissing os s)) =
      (fileKeys s.dstFS ++ (sortStrings (dirKeys s.dstFS)).reverse).map (Join s.dst) ∧
    (sortStrings (dirKeys s.dstFS)).reverse.Pairwise (fun a b => strLe b a) ∧
    (∀ f ef d ed, (f, ef) ∈ s.dstFS → ef.IsDir = false → (d, ed) ∈ s.dstFS → ed.IsDir = true →
      [Join s.dst f, Join s.dst d].Sublist (removes (newEvents s (purgeMissing os s)))) ∧
    (∀ q r eq ep, (q, eq) ∈ s.dstFS → eq.IsDir = true → (q ++ "/" ++ r, ep) ∈ s.dstFS →
      ep.IsDir = true →
      [Join s.dst (q ++ "/" ++ r), Join s.dst q].Sublist
        (removes (newEvents s (purgeMissing os s)))) := by
  obtain ⟨-, -, -, -, t, ht, hr⟩ := purgeMissing_spec os s
  have hrem : removes (newEvents s (purgeMissing os s)) =
      (purgeOrder s.dstFS).map (Join s.dst) := by
    rw [newEvents_eq s _ _ ht, ← hr]
    simp [removes]
  have hperm := purgeOrder_perm s.dstFS hnd
  have hord : purgeOrder s.dstFS = fileKeys s.dstFS ++ (sortStrings (dirKeys s.dstFS)).reverse := by
    rw [purgeOrder, remainingKeys_eq_dirKeys _ hnd]
  have hdesc := reverse_sortStrings_sorted (dirKeys s.dstFS)
  rw [hrem]
  refine ⟨hperm.map _, ?_, by rw [hord], hdesc, ?_, ?_⟩
  · exact (hperm.nodup_iff.2 hnd).map (join_injective s.dst)
  · intro f ef d ed hf hfd hd hdd
    rw [hord, List.map_append]
    have h1 : [Join s.dst f].Sublist ((fileKeys s.dstFS).map (Join s.dst)) :=
      List.singleton_sublist.2 (List.mem_map_of_mem _ (mem_fileKeys _ _ _ hf hfd))
    have h2 : [Join s.dst d].Sublist (((sortStrings (dirKeys s.dstFS)).reverse).map (Join s.dst)) :=
      List.singleton_sublist.2 (List.mem_map_of_mem _
        (List.mem_reverse.2 ((mem_sortStrings _ _).2 (mem_dirKeys _ _ _ hd hdd))))
    exact h1.append h2
  · intro q r eq ep hq hqd hp hpd
    rw [hord, List.map_append]
    have h := sublist_pair_of_sorted_desc _ hdesc q (q ++ "/" ++ r)
      (List.mem_reverse.2 ((mem_sortStrings _ _).2 (mem_dirKeys _ _ _ hq hqd)))
      (List.mem_reverse.2 ((mem_sortStrings _ _).2 (mem_dirKeys _ _ _ hp hpd)))
      (not_strLe_descendant q r)
    exact (h.map (Join s.dst)).trans (List.sublist_append_right _ _)

/-- C5, witness: the three-entry working set of the test `dir delete`. -/
theorem purgeMissing_remove_order_witness :
    (mapKeys (bare [] [("target_only.txt", fileEntry), ("target_only_dir", dirEntrySmall),
      ("target_only_dir/target_only2.txt", fileEntry)] true).dstFS).Nodup ∧
    removes (newEvents (bare [] [("target_only.txt", fileEntry),
        ("target_only_dir", dirEntrySmall),
        ("target_only_dir/target_only2.txt", fileEntry)] true)
      (purgeMissing nullOS (bare [] [("target_only.txt", fileEntry),
        ("target_only_dir", dirEntrySmall),
        ("target_only_dir/target_only2.txt", fileEntry)] true))) =
      (fileKeys (bare [] [("target_only.txt", fileEntry), ("target_only_dir", dirEntrySmall),
        ("target_only_dir/target_only2.txt", fileEntry)] true).dstFS ++
        (sortStrings (dirKeys (bare [] [("target_only.txt", fileEntry),
          ("target_only_dir", dirEntrySmall),
          ("target_only_dir/target_only2.txt", fileEntry)] true).dstFS)).reverse).map
        (Join (bare [] [("target_only.txt", fileEntry), ("target_only_dir", dirEntrySmall),
          ("target_only_dir/target_only2.txt", fileEntry)] true).dst) :=
  ⟨by decide, (purgeMissing_remove_order nullOS (bare [] [("target_only.txt", fileEntry),
    ("target_only_dir", dirEntrySmall),
    ("target_only_dir/target_only2.txt", fileEntry)] true) (by decide)).2.2.1⟩

/-! ## C6: the deletion pass empties the working set -/

/-- C6: let the working set have distinct keys, let the `IsDir` flag of each entry
agree with the object at its path when there is one, let every object beneath a
directory of the working set be a key of the working set, and let no removal fail
except that of a non-empty directory.  Then after `purgeMissing` no path of the working
set exists in the destination, and the working set is empty. -/
theorem purgeMissing_removes_all (s : Synchronizer World)
    (hnd : (mapKeys s.dstFS).Nodup)
    (hflag : ∀ kv ∈ s.dstFS, s.world.kind (Join s.dst kv.1) = none ∨
      s.world.kind (Join s.dst kv.1) = some kv.2.IsDir)
    (hclosed : ∀ kv ∈ s.dstFS, kv.2.IsDir = true → ∀ xn ∈ s.world.nodes,
      xn.1.root = s.dst → kv.1 ∈ ancestors xn.1.rel → xn.1.rel ∈ mapKeys s.dstFS)
    (hf : s.world.NoFault) :
    (∀ k ∈ mapKeys s.dstFS, (purgeMissing modelOS s).world.find (Join s.dst k) = none) ∧
    (purgeMissing modelOS s).dstFS = [] := by
  obtain ⟨-, -, hempty, hw, -⟩ := purgeMissing_spec modelOS s
  refine ⟨?_, hempty⟩
  intro k hk
  rw [hw, ← kind_eq_none_iff]
  exact removeAll_purgeOrder_gone s.dst s.dstFS s.world hnd hflag hclosed hf k hk

/-- C6, witness: the test `dir delete`. -/
theorem purgeMissing_removes_all_witness :
    (mapKeys dirDeleteState.dstFS).Nodup ∧
    (∀ k ∈ mapKeys dirDeleteState.dstFS,
      (purgeMissing modelOS dirDeleteState).world.find (Join dirDeleteState.dst k) = none) ∧
    (purgeMissing modelOS dirDeleteState).dstFS = [] :=
  ⟨by decide, purgeMissing_removes_all dirDeleteState (by decide) (by decide) (by decide)
    (fun _ => rfl)⟩

/-! ## C7: no deletion unless enabled -/

/-- C7: when `deleteMissing` is false `processSync` calls `os.Remove` on no path,
whatever the operating system does; on the model of the file system every object that
existed before the run, so in particular every destination-only path, still exists
after it with the same kind; and `purgeMissing` is entered only when `deleteMissing`
is true and some key of the destination scan is not a key of the source scan. -/
theorem deletion_only_when_enabled (os : OS σ) (s : Synchronizer σ) (m : Synchronizer World) :
    (s.deleteMissing = false → removes (newEvents s (processSync os s).1) = []) ∧
    (m.deleteMissing = false → ∀ x b, m.world.kind x = some b →
      (processSync modelOS m).1.world.kind x = some b) ∧
    (Event.purgeMissing ∈ newEvents s (processSync os s).1 →
      s.deleteMissing = true ∧ ∃ k, k ∈ mapKeys s.dstFS ∧ k ∉ mapKeys s.srcFS) := by
  refine ⟨?_, ?_, ?_⟩
  · intro hdm
    obtain ⟨t, u, htr, -, hl, -, -, hu⟩ := processSync_trace os s
    rw [newEvents_eq s _ _ htr, removes_append, removes_of_loopEvents t hl]
    rcases hu with rfl | ⟨h, -⟩
    · rfl
    · rw [hdm] at h; cases h
  · intro hdm
    have hloop := syncLoop_invariant modelOS (fun w => w.Extends m.world)
      (extends_applyInvariant m.world) (sortedPaths m.srcFS) m (extends_refl _)
    rcases processSync_cases modelOS m with ⟨-, h⟩ | ⟨-, -, h⟩ | ⟨-, h, -⟩
    · rw [h]; exact hloop
    · rw [h]; exact hloop
    · rw [hdm] at h; cases h
  · intro hmem
    obtain ⟨t, u, htr, -, hl, -, -, hu⟩ := processSync_trace os s
    rw [newEvents_eq s _ _ htr] at hmem
    rcases List.mem_append.1 hmem with h | h
    · exact absurd h (purge_not_mem_of_loopEvents t hl)
    · rcases hu with rfl | ⟨h1, h2, h3, -⟩
      · simp at h
      · refine ⟨h1, ?_⟩
        obtain ⟨kv, hkv⟩ := List.exists_mem_of_ne_nil _ h3
        exact ⟨kv.1, (syncLoop_remaining_keys os s h2 kv.1).1 (List.mem_map_of_mem _ hkv)⟩

/-- C7, witness: the scenario `deletion disabled` of the specification. -/
theorem deletion_only_when_enabled_witness :
    targetOnlyState.deleteMissing = false ∧
    removes (newEvents targetOnlyState (processSync modelOS targetOnlyState).1) = [] ∧
    (processSync modelOS targetOnlyState).1.world.kind ⟨"dst", "target_only.txt"⟩ = some false :=
  ⟨rfl, (deletion_only_when_enabled modelOS targetOnlyState targetOnlyState).1 rfl,
    (deletion_only_when_enabled modelOS targetOnlyState targetOnlyState).2.1 rfl _ _ (by decide)⟩

/-! ## C8: the second run -/

/-- C9, counterexample: where the destination holds a directory at the path of the
source file `x`, the run ends without a panic and `x` is still a directory in the
destination; where the destination holds a file at the path of the source directory
`d`, the run ends with `d` still a file and with nothing at `d/f`. -/
theorem completeness_counterexample :
    mapGet (mapDirs conflictFileState).srcFS "x" = some (entryOf ⟨false, 7, 80, 420⟩) ∧
    (Run conflictFileState).2 = true ∧
    (Run conflictFileState).1.world.kind ⟨"dst", "x"⟩ = some true ∧
    mapGet (mapDirs conflictDirState).srcFS "d" = some (entryOf ⟨true, 4096, 80, 493⟩) ∧
    mapGet (mapDirs conflictDirState).srcFS "d/f" = some (entryOf ⟨false, 7, 80, 420⟩) ∧
    (Run conflictDirState).2 = true ∧
    (Run conflictDirState).1.world.kind ⟨"dst", "d"⟩ = some false ∧
    (Run conflictDirState).1.world.kind ⟨"dst", "d/f"⟩ = none := by
  decide

/-- C9, without kind conflicts: let the source scan have distinct keys, successful
status reads that agree with the `IsDir` flags, and every ancestor of a key listed as a directory;
let the source files exist; let the entries of the destination scan describe existing
objects with successful status reads; let no source path be occupied in the destination
by an object of another kind; and let no call fail for a reason outside the model.
Then `processSync` ends without a panic and every path of the source scan exists in the
destination with the kind of its source entry. -/
theorem completeness_without_conflicts (s : Synchronizer World)
    (hnd : (mapKeys s.srcFS).Nodup)
    (hinfo : ∀ kv ∈ s.srcFS, ∃ fi, kv.2.Info = (some fi, none) ∧ fi.IsDir = kv.2.IsDir)
    (hanc : ∀ kv ∈ s.srcFS, ∀ q ∈ ancestors kv.1, ∃ e, (q, e) ∈ s.srcFS ∧ e.IsDir = true)
    (hsrc : ∀ kv ∈ s.srcFS, kv.2.IsDir = false → s.world.kind (Join s.src kv.1) = some false)
    (hdst : ∀ kv ∈ s.dstFS, s.world.kind (Join s.dst kv.1) = some kv.2.IsDir ∧
      kv.2.Info.1.isSome = true)
    (hcompat : ∀ kv ∈ s.srcFS, s.world.kind (Join s.dst kv.1) = none ∨
      s.world.kind (Join s.dst kv.1) = some kv.2.IsDir)
    (hf : s.world.NoFault) :
    (processSync modelOS s).2 = true ∧
    ∀ kv ∈ s.srcFS, (processSync modelOS s).1.world.kind (Join s.dst kv.1) = some kv.2.IsDir := by
  have hS : SourceOK s.srcFS := ⟨hnd, hinfo, hanc⟩
  have hL : LoopInv s := ⟨hf, hcompat, hsrc, hdst⟩
  obtain ⟨l1, l2, -, -⟩ := syncLoop_establishes (sortedPaths s.srcFS) s hS hL
    (sortStrings_sorted _) (fun p hp => (mem_sortedPaths _ _).1 hp)
    (fun kv hkv hnot => absurd ((mem_sortedPaths _ _).2 (List.mem_map_of_mem _ hkv)) hnot)
  rcases processSync_cases modelOS s with ⟨h, -⟩ | ⟨-, -, h⟩ | ⟨-, -, -, h⟩
  · rw [l1] at h; cases h
  · rw [h]; exact ⟨rfl, l2⟩
  · rw [h]
    refine ⟨rfl, ?_⟩
    obtain ⟨-, f2, -, -⟩ := syncLoop_frame modelOS (sortedPaths s.srcFS) s
    obtain ⟨-, -, -, hw, -⟩ := purgeMissing_spec modelOS (syncLoop modelOS (sortedPaths s.srcFS) s).1
    intro kv hkv
    simp only
    rw [hw, removeAll_kind_of_not_mem _ _ _ ?_]
    · exact l2 kv hkv
    · intro hm
      obtain ⟨k, hk, hjk⟩ := List.mem_map.1 hm
      rw [f2, join_eq_iff] at hjk
      rw [hjk] at hk
      have := (syncLoop_remaining_keys modelOS s l1 kv.1).1 (mem_purgeOrder _ _ hk)
      exact this.2 (List.mem_map_of_mem _ hkv)

/-- C9, witness: the state `mirrorState`. -/
theorem completeness_without_conflicts_witness :
    (mapKeys mirrorState.srcFS).Nodup ∧ mirrorState.world.NoFault ∧
    (processSync modelOS mirrorState).2 = true ∧
    ∀ kv ∈ mirrorState.srcFS,
      (processSync modelOS mirrorState).1.world.kind (Join mirrorState.dst kv.1) =
        some kv.2.IsDir :=
  ⟨by decide, fun _ => rfl,
    completeness_without_conflicts mirrorState (by decide)
      (by
        intro kv hkv
        have h : kv ∈ [("file1.txt", entryOf ⟨false, 8, 10, 420⟩),
            ("subdir", entryOf ⟨true, 4096, 10, 493⟩),
            ("subdir/file3.txt", entryOf ⟨false, 8, 10, 420⟩)] := hkv
        simp only [List.mem_cons, List.mem_singleton, List.not_mem_nil, or_false] at h
        rcases h with rfl | rfl | rfl <;> exact ⟨_, rfl, rfl⟩)
      (by
        intro kv hkv q hq
        have h : kv ∈ [("file1.txt", entryOf ⟨false, 8, 10, 420⟩),
            ("subdir", entryOf ⟨true, 4096, 10, 493⟩),
            ("subdir/file3.txt", entryOf ⟨false, 8, 10, 420⟩)] := hkv
        simp only [List.mem_cons, List.mem_singleton, List.not_mem_nil, or_false] at h
        rcases h with rfl | rfl | rfl
        · have hq' : q ∈ ([] : List String) := hq
          simp at hq'
        · have hq' : q ∈ ([] : List String) := hq
          simp at hq'
        · have hq' : q ∈ ["subdir"] := hq
          simp only [List.mem_singleton] at hq'
          subst hq'
          exact ⟨entryOf ⟨true, 4096, 10, 493⟩, by decide, rfl⟩)
      (by decide) (by decide) (by decide) (fun _ => rfl)⟩

/-! ## C10: a failed status read -/

/-- C10, the code at the failing input: the source entry's `Info()` returns a nil
status and an error, the destination entry is a regular file of the same type.
`needsUpdate` logs the error and then panics on the nil status (no decision is
returned), and `processSync` stops there: the later source path `b` is never
reconciled, whatever the operating system does. -/
theorem needsUpdate_panics_on_failed_info (os : OS σ) (w : σ) :
    staleEntry.IsDir = fileEntry.IsDir ∧ staleEntry.Typ = fileEntry.Typ ∧
    needsUpdate (bare [] [] false) staleEntry fileEntry =
      ((bare [] [] false).emit (Event.Error "failed to read source file info: %s"
        "no such file or directory"), none) ∧
    (processSync os ⟨"src", "dst", false, [("a", staleEntry), ("b", fileEntry)],
        [("a", fileEntry)], w, []⟩).2 = false ∧
    (processSync os ⟨"src", "dst", false, [("a", staleEntry), ("b", fileEntry)],
        [("a", fileEntry)], w, []⟩).1.trace =
      [Event.Error "failed to read source file info: %s" "no such file or directory"] := by
  refine ⟨rfl, rfl, rfl, ?_, ?_⟩
  · have h : sortedPaths [("a", staleEntry), ("b", fileEntry)] = ["a", "b"] := by decide
    simp [processSync, h, syncLoop, visit, mapGet, List.lookup, needsUpdate, staleEntry, fileEntry,
      Synchronizer.logIfErr]
  · have h : sortedPaths [("a", staleEntry), ("b", fileEntry)] = ["a", "b"] := by decide
    simp [processSync, h, syncLoop, visit, mapGet, List.lookup, needsUpdate, staleEntry, fileEntry,
      Synchronizer.logIfErr, Synchronizer.emit]

end Dirsync
